import Mathlib

/-!
# Ta-Te-Ti (tic-tac-toe) move engine: `src/tateti.js`

Shallow embedding of `tateti.js`: the win-line table `WINS`, `checkWinner`,
`detectPlayer`, the alpha-beta `minimax` and `bestMove`, the middleware `validateBoard`
and the two `/move` routes.

* A board is the JavaScript array of cells, a `List Int`; every statement is
  about boards of 9 cells, on which the reads `board[i]` with `i < 9` are in range.
* `checkWinner` answers a mark, `0` or `null`: `Option Int`, `none` being `null`.
* Scores are JavaScript numbers that are integers, `-Infinity` or `Infinity`: `Score`.
* `minimax` and `bestMove` write to the board in place: they take the board and
  give back the board they leave behind, next to their result.
* The recursion of `minimax` is bounded by a fuel argument; `none` stands for a
  call that does not return.
* A request is the value `board` that `validateBoard` computes from it; a cell of it is
  an integer or a value on which `isNaN` is true.
-/

namespace Tateti

/-- The board: the array of cells (0 empty, 1 and 2 the marks of the players). -/
abbrev Board := List Int

/-- The read `board[i]`. -/
def cell (board : Board) (i : Nat) : Int := board.getD i 0

/-- The table `WINS`: rows, columns, diagonals. -/
def WINS : List (Nat × Nat × Nat) :=
  [(0,1,2),(3,4,5),(6,7,8),
   (0,3,6),(1,4,7),(2,5,8),
   (0,4,8),(2,4,6)]

/-- The loop of `checkWinner` over the win lines: the mark of the first line
whose three cells are equal and not 0. -/
def firstLine (board : Board) : List (Nat × Nat × Nat) → Option Int
  | [] => none
  | (a, b, c) :: rest =>
    if cell board a ≠ 0 ∧ cell board a = cell board b ∧ cell board a = cell board c then
      some (cell board a)
    else firstLine board rest

/-- The test `board.includes(0)`. -/
def includesZero (board : Board) : Bool := board.any (fun v => v == 0)

/-- The function `checkWinner`: `some 1` or `some 2` for a winner, `some 0` for a
draw, `none` for JavaScript `null` (the game goes on). -/
def checkWinner (board : Board) : Option Int :=
  match firstLine board WINS with
  | some v => some v
  | none => if includesZero board then none else some 0

/-- The function `detectPlayer`. -/
def detectPlayer (board : Board) : Int :=
  let xCount := (board.filter (fun v => v == 1)).length
  let oCount := (board.filter (fun v => v == 2)).length
  if xCount ≤ oCount then 1 else 2

/-- A score: a JavaScript number that is an integer or one of the infinities. -/
inductive Score where
  | negInf : Score
  | fin : Int → Score
  | posInf : Score
  deriving DecidableEq, Repr

namespace Score

/-- The comparison `x <= y` of JavaScript numbers. -/
def le : Score → Score → Bool
  | negInf, _ => true
  | _, posInf => true
  | fin a, fin b => decide (a ≤ b)
  | _, _ => false

/-- The comparison `x > y` of JavaScript numbers. -/
def gt (x y : Score) : Bool := !(le x y)

/-- The function `Math.max`. -/
def max (x y : Score) : Score := if le x y then y else x

/-- The function `Math.min`. -/
def min (x y : Score) : Score := if le x y then x else y

end Score

/-- The cell indices `0, ..., 8` the `for` loops run over. -/
def cells : List Nat := [0, 1, 2, 3, 4, 5, 6, 7, 8]

/-- The `for` loop of the maximising branch of `minimax`, from the cells still to
visit; `recur` is the recursive call `minimax(board, depth + 1, false, player,
opponent, alpha, beta)`. -/
def maxLoop (recur : Board → Score → Score → Option (Score × Board)) (player : Int) :
    List Nat → Board → Score → Score → Score → Option (Score × Board)
  | [], board, maxEval, _, _ => some (maxEval, board)
  | i :: rest, board, maxEval, alpha, beta =>
    if cell board i = 0 then
      match recur (board.set i player) alpha beta with
      | none => none
      | some (evalScore, board1) =>
        let board2 := board1.set i 0
        let maxEval1 := Score.max maxEval evalScore
        let alpha1 := Score.max alpha evalScore
        if Score.le beta alpha1 then some (maxEval1, board2)
        else maxLoop recur player rest board2 maxEval1 alpha1 beta
    else maxLoop recur player rest board maxEval alpha beta

/-- The `for` loop of the minimising branch of `minimax`. -/
def minLoop (recur : Board → Score → Score → Option (Score × Board)) (opponent : Int) :
    List Nat → Board → Score → Score → Score → Option (Score × Board)
  | [], board, minEval, _, _ => some (minEval, board)
  | i :: rest, board, minEval, alpha, beta =>
    if cell board i = 0 then
      match recur (board.set i opponent) alpha beta with
      | none => none
      | some (evalScore, board1) =>
        let board2 := board1.set i 0
        let minEval1 := Score.min minEval evalScore
        let beta1 := Score.min beta evalScore
        if Score.le beta1 alpha then some (minEval1, board2)
        else minLoop recur opponent rest board2 minEval1 alpha beta1
    else minLoop recur opponent rest board minEval alpha beta

/-- The function `minimax`, with the depth of the recursion bounded by `fuel`:
the score and the board left behind, or `none` when the fuel runs out. -/
def minimaxFuel : Nat → Board → Int → Bool → Int → Int → Score → Score →
    Option (Score × Board)
  | 0, _, _, _, _, _, _, _ => none
  | fuel + 1, board, depth, isMax, player, opponent, alpha, beta =>
    match checkWinner board with
    | some result =>
      if result = player then some (Score.fin (10 - depth), board)
      else if result = opponent then some (Score.fin (depth - 10), board)
      else some (Score.fin 0, board)
    | none =>
      if isMax then
        maxLoop (fun b al be => minimaxFuel fuel b (depth + 1) false player opponent al be)
          player cells board Score.negInf alpha beta
      else
        minLoop (fun b al be => minimaxFuel fuel b (depth + 1) true player opponent al be)
          opponent cells board Score.posInf alpha beta

/-- The number of empty cells of a board. -/
def emptyCount (board : Board) : Nat := (board.filter (fun v => v == 0)).length

/-- The function `minimax`: every level of the recursion fills an empty cell at
least every second call, so `2 * emptyCount board + 1` nested calls are enough
whenever the JavaScript recursion ends. -/
def minimax (board : Board) (depth : Int) (isMax : Bool) (player opponent : Int)
    (alpha beta : Score) : Option (Score × Board) :=
  minimaxFuel (2 * emptyCount board + 1) board depth isMax player opponent alpha beta

/-- The `for` loop of `bestMove`: `move` and `bestScore` are the loop variables. -/
def bestLoop (player opponent : Int) :
    List Nat → Board → Int → Score → Option (Int × Board)
  | [], board, move, _ => some (move, board)
  | i :: rest, board, move, bestScore =>
    if cell board i = 0 then
      match minimax (board.set i player) 0 false player opponent Score.negInf Score.posInf with
      | none => none
      | some (score, board1) =>
        let board2 := board1.set i 0
        if Score.gt score bestScore then bestLoop player opponent rest board2 (i : Int) score
        else bestLoop player opponent rest board2 move bestScore
    else bestLoop player opponent rest board move bestScore

/-- The function `bestMove`: the chosen cell (or `-1`) and the board left behind. -/
def bestMove (board : Board) (player : Int) : Option (Int × Board) :=
  let opponent : Int := if player = 1 then 2 else 1
  bestLoop player opponent cells board (-1) Score.negInf

/-- The empty board. -/
def emptyBoard : Board := [0, 0, 0, 0, 0, 0, 0, 0, 0]



/-- A 9-cell board over {0, 1, 2}. -/
def Valid (board : Board) : Prop := board.length = 9 ∧ ∀ c ∈ board, c = 0 ∨ c = 1 ∨ c = 2

instance (board : Board) : Decidable (Valid board) := by
  unfold Valid; infer_instance

/-- A win line of the table has all three cells equal to `v`. -/
def hasLine (board : Board) (v : Int) : Prop :=
  ∃ l ∈ WINS, cell board l.1 = v ∧ cell board l.2.1 = v ∧ cell board l.2.2 = v

instance (board : Board) (v : Int) : Decidable (hasLine board v) := by
  unfold hasLine; infer_instance

/-- The other player: `player === 1 ? 2 : 1`, as in `bestMove`. -/
def other (player : Int) : Int := if player = 1 then 2 else 1

/-- The cells of the win line `l` are equal and not empty. -/
def wonLine (board : Board) (l : Nat × Nat × Nat) : Prop :=
  cell board l.1 ≠ 0 ∧ cell board l.1 = cell board l.2.1 ∧ cell board l.1 = cell board l.2.2

instance (board : Board) (l : Nat × Nat × Nat) : Decidable (wonLine board l) := by
  unfold wonLine; infer_instance

/-- No win line is completed. -/
def noWonLine (board : Board) : Prop := ∀ l ∈ WINS, ¬ wonLine board l

instance (board : Board) : Decidable (noWonLine board) := by
  unfold noWonLine; infer_instance

/-- After `p` marks the cell `i`, the opponent `q` cannot win on the next turn: the
game is over, or no empty cell completes a line of `q`. -/
def safeMove (board : Board) (p q : Int) (i : Nat) : Prop :=
  checkWinner (board.set i p) ≠ none ∨
    ∀ j, j < 9 → cell (board.set i p) j = 0 → ¬ hasLine ((board.set i p).set j q) q

instance (board : Board) (p q : Int) (i : Nat) : Decidable (safeMove board p q i) := by
  unfold safeMove; infer_instance

/-- The score of a finished game reached at a depth between `lo` and `hi`. -/
def LeafScore (lo hi v : Int) : Prop :=
  ∃ d, lo ≤ d ∧ d ≤ hi ∧ (v = 10 - d ∨ v = d - 10 ∨ v = 0)

/-- The integer score `bestMove` gets for the empty cell `i`. -/
def candidateScore (board : Board) (player : Int) (i : Nat) : Int :=
  match minimax (board.set i player) 0 false player (other player) Score.negInf Score.posInf with
  | some (Score.fin v, _) => v
  | _ => 0

/-! ## Games

The vocabulary of the claims about whole games: a game starts on a board with a side
to move and goes on until `checkWinner` is not `null`. -/

/-- A game in which the side `p` marks the cell `bestMove(board, p)` returns and the
other side marks the cell `reply board`: the board on which the game ends, within
`fuel` turns. The game stops without a result when `bestMove` gives no cell. -/
def playAgainst (p : Int) (reply : Board → Nat) : Nat → Board → Int → Option Board
  | 0, _, _ => none
  | fuel + 1, board, turn =>
    match checkWinner board with
    | some _ => some board
    | none =>
      if turn = p then
        match bestMove board p with
        | some (m, board1) =>
          if 0 ≤ m then playAgainst p reply fuel (board1.set m.toNat p) (other turn) else none
        | none => none
      else playAgainst p reply fuel (board.set (reply board) turn) (other turn)

/-- The other side marks an empty cell whenever it moves on a board over {0,1,2}
where the game goes on. -/
def LegalReply (reply : Board → Nat) : Prop :=
  ∀ board, Valid board → checkWinner board = none →
    reply board < 9 ∧ cell board (reply board) = 0

/-- The first empty cell of a board. -/
def firstEmpty (board : Board) : Nat := board.indexOf 0

/-- The cell `bestMove(board, q)` returns, as the reply of a side that plays it. -/
def bestCell (q : Int) (board : Board) : Nat :=
  match bestMove board q with
  | some (m, _) => m.toNat
  | none => 0

/-- A game in which both sides mark the cell `bestMove` returns for them: the board on
which the game ends, within `fuel` turns. -/
def selfPlay : Nat → Board → Int → Option Board
  | 0, _, _ => none
  | fuel + 1, board, turn =>
    match checkWinner board with
    | some _ => some board
    | none =>
      match bestMove board turn with
      | some (m, board1) =>
        if 0 ≤ m then selfPlay fuel (board1.set m.toNat turn) (other turn) else none
      | none => none

/-! ## An evaluator on bit boards

The proofs by computation run on a second, strict implementation of the search: a
board is two natural numbers, the bit `2 ^ i` of `mine` (of `theirs`) being set when
the cell `i` holds the mark of `player` (of `opponent`), and a score is a natural number:
`0` for `-Infinity`, `v + 11` for the integer `v`, `22` for `Infinity`. The theorems
`minimaxFuel_eq_code` and `bestMove_eq_code` below show that it computes what
`minimax` and `bestMove` compute. -/

/-- Evaluate `n`, then go on with its value. -/
def force {α : Type} (n : Nat) (k : Nat → α) : α :=
  Nat.casesOn n (k 0) (fun m => k (Nat.succ m))

/-- The function `Math.max` on score codes. -/
def codeMax (a b : Nat) : Nat := cond (Nat.ble a b) b a

/-- The function `Math.min` on score codes. -/
def codeMin (a b : Nat) : Nat := cond (Nat.ble a b) a b

/-- One win line with the bit mask `m`: 1 when `mine` holds it, 2 when `theirs` does,
and `k` otherwise. -/
def lineCode (mine theirs m k : Nat) : Nat :=
  cond (Nat.beq (Nat.land mine m) m) 1 (cond (Nat.beq (Nat.land theirs m) m) 2 k)

/-- The function `checkWinner` on bit boards: 1 or 2 for the owner of the first complete
line, 3 for a draw, 0 when the game goes on. -/
def winnerCode (mine theirs : Nat) : Nat :=
  lineCode mine theirs 7 (lineCode mine theirs 56 (lineCode mine theirs 448
    (lineCode mine theirs 73 (lineCode mine theirs 146 (lineCode mine theirs 292
      (lineCode mine theirs 273 (lineCode mine theirs 84
        (cond (Nat.beq (Nat.lor mine theirs) 511) 3 0))))))))

/-- One turn of the maximising loop at the cell of bit `bit`. -/
def maxStepCode (occ : Nat) (child : Nat → Nat → Nat → Nat) (beta bit : Nat)
    (cont : Nat → Nat → Nat) (maxEval alpha : Nat) : Nat :=
  cond (Nat.beq (Nat.land occ bit) 0)
    (force (child bit alpha beta) fun e =>
      force (codeMax maxEval e) fun m1 =>
      force (codeMax alpha e) fun a1 =>
      cond (Nat.ble beta a1) m1 (cont m1 a1))
    (cont maxEval alpha)

/-- One turn of the minimising loop at the cell of bit `bit`. -/
def minStepCode (occ : Nat) (child : Nat → Nat → Nat → Nat) (alpha bit : Nat)
    (cont : Nat → Nat → Nat) (minEval beta : Nat) : Nat :=
  cond (Nat.beq (Nat.land occ bit) 0)
    (force (child bit alpha beta) fun e =>
      force (codeMin minEval e) fun m1 =>
      force (codeMin beta e) fun b1 =>
      cond (Nat.ble b1 alpha) m1 (cont m1 b1))
    (cont minEval beta)

/-- The maximising loop over the nine cells. -/
def maxLoopCode (occ : Nat) (child : Nat → Nat → Nat → Nat) (alpha beta : Nat) : Nat :=
  maxStepCode occ child beta 1 (maxStepCode occ child beta 2 (maxStepCode occ child beta 4
    (maxStepCode occ child beta 8 (maxStepCode occ child beta 16 (maxStepCode occ child beta 32
      (maxStepCode occ child beta 64 (maxStepCode occ child beta 128
        (maxStepCode occ child beta 256 (fun m _ => m))))))))) 0 alpha

/-- The minimising loop over the nine cells. -/
def minLoopCode (occ : Nat) (child : Nat → Nat → Nat → Nat) (alpha beta : Nat) : Nat :=
  minStepCode occ child alpha 1 (minStepCode occ child alpha 2 (minStepCode occ child alpha 4
    (minStepCode occ child alpha 8 (minStepCode occ child alpha 16 (minStepCode occ child alpha 32
      (minStepCode occ child alpha 64 (minStepCode occ child alpha 128
        (minStepCode occ child alpha 256 (fun m _ => m))))))))) 22 beta

/-- The function `minimax` on bit boards and score codes. -/
def minimaxCode : Nat → Nat → Nat → Nat → Bool → Nat → Nat → Nat
  | 0, _, _, _, _, _, _ => 0
  | fuel + 1, mine, theirs, depth, isMax, alpha, beta =>
    force (winnerCode mine theirs) fun w =>
    cond (Nat.beq w 0)
      (force (Nat.lor mine theirs) fun occ =>
        force (depth + 1) fun d1 =>
        cond isMax
          (maxLoopCode occ
            (fun bit al be => force (mine + bit) fun b1 => minimaxCode fuel b1 theirs d1 false al be)
            alpha beta)
          (minLoopCode occ
            (fun bit al be => force (theirs + bit) fun b1 => minimaxCode fuel mine b1 d1 true al be)
            alpha beta))
      (cond (Nat.beq w 1) (21 - depth) (cond (Nat.beq w 2) (depth + 1) 11))

/-- One turn of the loop of `bestMove` at the cell `i`; a move is coded as the cell
plus one, `0` being the move `-1`. -/
def bestStepCode (occ : Nat) (child : Nat → Nat) (i : Nat) (cont : Nat → Nat → Nat)
    (move bestScore : Nat) : Nat :=
  cond (Nat.beq (Nat.land occ (Nat.pow 2 i)) 0)
    (force (child (Nat.pow 2 i)) fun s =>
      cond (Nat.blt bestScore s) (cont (i + 1) s) (cont move bestScore))
    (cont move bestScore)

/-- The function `bestMove` on bit boards. -/
def bestMoveCode (mine theirs : Nat) : Nat :=
  force (Nat.lor mine theirs) fun occ =>
  bestStepCode occ (fun bit => minimaxCode 10 (mine + bit) theirs 0 false 0 22) 0
    (bestStepCode occ (fun bit => minimaxCode 10 (mine + bit) theirs 0 false 0 22) 1
    (bestStepCode occ (fun bit => minimaxCode 10 (mine + bit) theirs 0 false 0 22) 2
    (bestStepCode occ (fun bit => minimaxCode 10 (mine + bit) theirs 0 false 0 22) 3
    (bestStepCode occ (fun bit => minimaxCode 10 (mine + bit) theirs 0 false 0 22) 4
    (bestStepCode occ (fun bit => minimaxCode 10 (mine + bit) theirs 0 false 0 22) 5
    (bestStepCode occ (fun bit => minimaxCode 10 (mine + bit) theirs 0 false 0 22) 6
    (bestStepCode occ (fun bit => minimaxCode 10 (mine + bit) theirs 0 false 0 22) 7
    (bestStepCode occ (fun bit => minimaxCode 10 (mine + bit) theirs 0 false 0 22) 8
    (fun mv _ => mv))))))))) 0 0

/-- One cell of the replies of the other side: when the cell of bit `bit` is empty the
game after the reply there must be safe. -/
def replyStepCode (occ : Nat) (child : Nat → Bool) (bit : Nat) (rest : Bool) : Bool :=
  cond (Nat.beq (Nat.land occ bit) 0) (cond (child bit) rest false) rest

/-- All games from a bit board in which the side of `mine` plays `bestMoveCode` and the
other side any empty cell end in a win of `mine` or a draw. -/
def neverLosesCode : Nat → Nat → Nat → Bool → Bool
  | 0, _, _, _ => false
  | fuel + 1, mine, theirs, myTurn =>
    force (winnerCode mine theirs) fun w =>
    cond (Nat.beq w 0)
      (cond myTurn
        (force (bestMoveCode mine theirs) fun mv =>
          cond (Nat.beq mv 0) false
            (force (mine + Nat.pow 2 (mv - 1)) fun b1 => neverLosesCode fuel b1 theirs false))
        (force (Nat.lor mine theirs) fun occ =>
          replyStepCode occ (fun bit => force (theirs + bit) fun b1 => neverLosesCode fuel mine b1 true) 1
          (replyStepCode occ (fun bit => force (theirs + bit) fun b1 => neverLosesCode fuel mine b1 true) 2
          (replyStepCode occ (fun bit => force (theirs + bit) fun b1 => neverLosesCode fuel mine b1 true) 4
          (replyStepCode occ (fun bit => force (theirs + bit) fun b1 => neverLosesCode fuel mine b1 true) 8
          (replyStepCode occ (fun bit => force (theirs + bit) fun b1 => neverLosesCode fuel mine b1 true) 16
          (replyStepCode occ (fun bit => force (theirs + bit) fun b1 => neverLosesCode fuel mine b1 true) 32
          (replyStepCode occ (fun bit => force (theirs + bit) fun b1 => neverLosesCode fuel mine b1 true) 64
          (replyStepCode occ (fun bit => force (theirs + bit) fun b1 => neverLosesCode fuel mine b1 true) 128
          (replyStepCode occ (fun bit => force (theirs + bit) fun b1 => neverLosesCode fuel mine b1 true) 256
          true))))))))))
      (cond (Nat.beq w 2) false true)

/-- The bit board of the mark `v`: the bit `2 ^ i` is set when the cell `i` holds `v`. -/
def bitsOf (v : Int) : Board → Nat
  | [] => 0
  | c :: rest => (if c = v then 1 else 0) + 2 * bitsOf v rest

/-- The score a code stands for. -/
def Score.ofCode (n : Nat) : Score :=
  if n = 0 then Score.negInf else if 22 ≤ n then Score.posInf else Score.fin ((n : Int) - 11)

/-- The bit mask of a win line. -/
def maskOf (l : Nat × Nat × Nat) : Nat := 2 ^ l.1 ||| 2 ^ l.2.1 ||| 2 ^ l.2.2

/-! ## The `/move` requests

The middleware `validateBoard` and the two `/move` handlers, from the value `board` the
middleware computes: `req.query.board?.split(',').map(Number)` for GET, `req.body.board`
for POST. Cells are the integers and the values on which `isNaN` is true. -/

/-- A cell of the board of a request: `some v` for the number `v`, `none` for a value on
which `isNaN` is true. -/
abbrev RawCell := Option Int

/-- The value `board` in `validateBoard`: `none` when `!board` holds or, for POST, when
it is not an array. -/
abbrev RawBoard := Option (List RawCell)

/-- The two 400 answers of `validateBoard`: "Falta el tablero." and "El tablero debe
tener 9 posiciones válidas." -/
inductive Rejection where
  | faltaTablero : Rejection
  | posicionesInvalidas : Rejection
  deriving DecidableEq, Repr

/-- The middleware `validateBoard`: the 400 answer, or the board stored in `req.board`
when `next()` is called. -/
def validateBoard (raw : RawBoard) : Except Rejection Board :=
  match raw with
  | none => Except.error Rejection.faltaTablero
  | some cs =>
    if cs.length ≠ 9 ∨ cs.any (fun c => c.isNone) = true then
      Except.error Rejection.posicionesInvalidas
    else Except.ok (cs.map (fun c => c.getD 0))

/-- The assignment `req.board[move] = player`: the write at `-1` leaves the cells as
they are. -/
def writeCell (board : Board) (move : Int) (player : Int) : Board :=
  if 0 ≤ move then board.set move.toNat player else board

/-- The body of the two `/move` handlers, run on `req.board` after `validateBoard`:
the pair of `movimiento` and `tablero` of the JSON answer. -/
def moveHandler (board : Board) : Option (Int × Board) :=
  let player := detectPlayer board
  match bestMove board player with
  | none => none
  | some (move, board1) => some (move, writeCell board1 move player)

/-- The answer to a request on `/move`. -/
inductive Response where
  | badRequest : Rejection → Response
  | move : Int → Board → Response
  deriving DecidableEq

/-- The route `app.get('/move', validateBoard, ...)`. -/
def getMove (raw : RawBoard) : Option Response :=
  match validateBoard raw with
  | Except.error e => some (Response.badRequest e)
  | Except.ok board => (moveHandler board).map (fun r => Response.move r.1 r.2)

/-- The route `app.post('/move', validateBoard, ...)`. -/
def postMove (raw : RawBoard) : Option Response :=
  match validateBoard raw with
  | Except.error e => some (Response.badRequest e)
  | Except.ok board => (moveHandler board).map (fun r => Response.move r.1 r.2)

/-- The board of a request whose cells are the numbers of `board`. -/
def rawOf (board : Board) : RawBoard := some (board.map some)

/-- The order of the scores: `x ≤ y` is the JavaScript comparison `x <= y`, and `max`
and `min` are `Math.max` and `Math.min`. -/
instance : LinearOrder Score where
  le x y := Score.le x y = true
  le_refl x := by cases x <;> simp [Score.le]
  le_trans x y z := by
    cases x <;> cases y <;> cases z <;> simp [Score.le]
    exact fun h1 h2 => Int.le_trans h1 h2
  le_antisymm x y := by
    cases x <;> cases y <;> simp [Score.le]
    exact fun h1 h2 => Int.le_antisymm h1 h2
  le_total x y := by
    cases x <;> cases y <;> simp [Score.le]
    exact Int.le_total _ _
  decidableLE x y := inferInstanceAs (Decidable (Score.le x y = true))
  max := Score.max
  min := Score.min
  max_def x y := rfl
  min_def x y := rfl

/-! ## The search without pruning

The reference of the claim on pruning: the search of `minimax` with the same scores on
finished boards, the maximum over all empty cells when `isMax` and the minimum over all
empty cells otherwise, without `alpha`, `beta` and the `break`. -/

/-- The loop over all empty cells of the search without pruning; `pick` is `Math.max`
or `Math.min`. -/
def plainLoop (recur : Board → Option Score) (pick : Score → Score → Score) (mark : Int) :
    List Nat → Board → Score → Option Score
  | [], _, acc => some acc
  | i :: rest, board, acc =>
    if cell board i = 0 then
      match recur (board.set i mark) with
      | none => none
      | some evalScore => plainLoop recur pick mark rest board (pick acc evalScore)
    else plainLoop recur pick mark rest board acc

/-- The search without pruning, with the depth of the recursion bounded by `fuel`. -/
def plainMinimaxFuel : Nat → Board → Int → Bool → Int → Int → Option Score
  | 0, _, _, _, _, _ => none
  | fuel + 1, board, depth, isMax, player, opponent =>
    match checkWinner board with
    | some result =>
      if result = player then some (Score.fin (10 - depth))
      else if result = opponent then some (Score.fin (depth - 10))
      else some (Score.fin 0)
    | none =>
      if isMax then
        plainLoop (fun b => plainMinimaxFuel fuel b (depth + 1) false player opponent)
          Score.max player cells board Score.negInf
      else
        plainLoop (fun b => plainMinimaxFuel fuel b (depth + 1) true player opponent)
          Score.min opponent cells board Score.posInf

/-- The search without pruning, with the fuel of `minimax`. -/
def plainMinimax (board : Board) (depth : Int) (isMax : Bool) (player opponent : Int) :
    Option Score :=
  plainMinimaxFuel (2 * emptyCount board + 1) board depth isMax player opponent

/-- The loop of the move selector built on the search without pruning. -/
def plainBestLoop (player opponent : Int) : List Nat → Board → Int → Score → Option Int
  | [], _, move, _ => some move
  | i :: rest, board, move, bestScore =>
    if cell board i = 0 then
      match plainMinimax (board.set i player) 0 false player opponent with
      | none => none
      | some score =>
        if Score.gt score bestScore then plainBestLoop player opponent rest board (i : Int) score
        else plainBestLoop player opponent rest board move bestScore
    else plainBestLoop player opponent rest board move bestScore

/-- The move selector built on the search without pruning. -/
def plainBestMove (board : Board) (player : Int) : Option Int :=
  let opponent : Int := if player = 1 then 2 else 1
  plainBestLoop player opponent cells board (-1) Score.negInf

/-- The relation of a pruned score `r` to the score `v` of the search without pruning,
for the window from `alpha` to `beta`: at most `alpha`, `r` is an upper bound of `v`;
at least `beta`, a lower bound; strictly between them, `r` is `v`. -/
def WindowValue (alpha beta r v : Score) : Prop :=
  (r ≤ alpha → v ≤ r) ∧ (beta ≤ r → r ≤ v) ∧ (alpha < r → r < beta → r = v)

/-! ## The terminal evaluator -/

theorem firstLine_eq_none {board : Board} {ls : List (Nat × Nat × Nat)} :
    firstLine board ls = none ↔
      ∀ l ∈ ls, ¬ (cell board l.1 ≠ 0 ∧ cell board l.1 = cell board l.2.1 ∧
        cell board l.1 = cell board l.2.2) := by
  induction ls with
  | nil => simp [firstLine]
  | cons l rest ih =>
    obtain ⟨a, b, c⟩ := l
    by_cases h : cell board a ≠ 0 ∧ cell board a = cell board b ∧ cell board a = cell board c
    · have hne : firstLine board ((a, b, c) :: rest) ≠ none := by
        unfold firstLine; rw [if_pos h]; exact Option.some_ne_none _
      refine ⟨fun hc => absurd hc hne, fun hall => absurd h (hall (a, b, c) (List.mem_cons_self _ _))⟩
    · have hstep : firstLine board ((a, b, c) :: rest) = firstLine board rest := by
        conv_lhs => unfold firstLine
        rw [if_neg h]
      rw [hstep, ih]
      constructor
      · intro hall l hl
        rcases List.mem_cons.mp hl with rfl | hm
        · exact h
        · exact hall l hm
      · intro hall l hl
        exact hall l (List.mem_cons_of_mem _ hl)

theorem firstLine_eq_some {board : Board} {ls : List (Nat × Nat × Nat)} {v : Int}
    (h : firstLine board ls = some v) :
    v ≠ 0 ∧ ∃ l ∈ ls, cell board l.1 = v ∧ cell board l.2.1 = v ∧ cell board l.2.2 = v := by
  induction ls with
  | nil => simp [firstLine] at h
  | cons l rest ih =>
    obtain ⟨a, b, c⟩ := l
    by_cases hl : cell board a ≠ 0 ∧ cell board a = cell board b ∧ cell board a = cell board c
    · unfold firstLine at h
      rw [if_pos hl] at h
      have hv : cell board a = v := Option.some.inj h
      subst hv
      exact ⟨hl.1, (a, b, c), List.mem_cons_self _ _, rfl, hl.2.1.symm, hl.2.2.symm⟩
    · have hstep : firstLine board ((a, b, c) :: rest) = firstLine board rest := by
        conv_lhs => unfold firstLine
        rw [if_neg hl]
      rw [hstep] at h
      obtain ⟨h0, l, hmem, hl3⟩ := ih h
      exact ⟨h0, l, List.mem_cons_of_mem _ hmem, hl3⟩

theorem includesZero_iff {board : Board} : includesZero board = true ↔ (0 : Int) ∈ board := by
  simp [includesZero, List.any_eq_true]

theorem cell_mem_or_zero (board : Board) (i : Nat) : cell board i ∈ board ∨ cell board i = 0 := by
  unfold cell
  by_cases h : i < board.length
  · left
    rw [List.getD_eq_getElem _ _ h]
    exact List.getElem_mem h
  · right
    exact List.getD_eq_default _ _ (Nat.le_of_not_lt h)

theorem Valid.cell_cases {board : Board} (h : Valid board) (i : Nat) :
    cell board i = 0 ∨ cell board i = 1 ∨ cell board i = 2 := by
  rcases cell_mem_or_zero board i with hm | hz
  · exact h.2 _ hm
  · exact Or.inl hz

/-- When no line is won, `checkWinner` is decided by `board.includes(0)`. -/
theorem checkWinner_of_no_line {board : Board}
    (h : ∀ v : Int, v ≠ 0 → ¬ hasLine board v) :
    checkWinner board = if (0 : Int) ∈ board then none else some 0 := by
  have hnone : firstLine board WINS = none := by
    rw [firstLine_eq_none]
    rintro l hl ⟨h0, h1, h2⟩
    exact h _ h0 ⟨l, hl, rfl, h1.symm, h2.symm⟩
  unfold checkWinner
  rw [hnone]
  by_cases hz : (0 : Int) ∈ board
  · simp [hz, includesZero_iff.mpr hz]
  · have : includesZero board = false := by
      rw [Bool.eq_false_iff]; intro hc; exact hz (includesZero_iff.mp hc)
    simp [hz, this]

/-- What `checkWinner` says: a winner is the non-zero mark of a complete line. -/
theorem checkWinner_eq_some {board : Board} {v : Int} (h : checkWinner board = some v) :
    (v ≠ 0 ∧ hasLine board v) ∨ (v = 0 ∧ (0 : Int) ∉ board ∧ firstLine board WINS = none) := by
  unfold checkWinner at h
  cases hf : firstLine board WINS with
  | some w =>
    rw [hf] at h
    simp only [Option.some.injEq] at h
    subst h
    exact Or.inl (firstLine_eq_some hf)
  | none =>
    rw [hf] at h
    by_cases hz : includesZero board = true
    · simp [hz] at h
    · simp only [hz, Bool.false_eq_true, if_false, Option.some.injEq] at h
      refine Or.inr ⟨h.symm, fun hc => hz (includesZero_iff.mpr hc), rfl⟩

/-- The game goes on exactly when no line is won and a cell is empty. -/
theorem checkWinner_eq_none {board : Board} :
    checkWinner board = none ↔ firstLine board WINS = none ∧ (0 : Int) ∈ board := by
  unfold checkWinner
  cases hf : firstLine board WINS with
  | some w => simp
  | none =>
    by_cases hz : includesZero board = true
    · simp [hz, includesZero_iff.mp hz]
    · have : (0 : Int) ∉ board := fun hc => hz (includesZero_iff.mpr hc)
      simp [hz, this]

/-! ## Boards and cells -/

theorem mem_cells {i : Nat} : i ∈ cells ↔ i < 9 := by
  unfold cells
  constructor
  · intro h
    simp only [List.mem_cons, List.mem_singleton, List.not_mem_nil, or_false] at h
    omega
  · intro h
    simp only [List.mem_cons, List.mem_singleton, List.not_mem_nil, or_false]
    omega

theorem cell_of_lt {board : Board} {i : Nat} (h : i < board.length) :
    cell board i = board[i] := by
  unfold cell
  exact List.getD_eq_getElem _ _ h

theorem set_zero_of_cell_zero {board : Board} {i : Nat} (h : cell board i = 0) :
    board.set i 0 = board := by
  induction board generalizing i with
  | nil => rfl
  | cons c rest ih =>
    cases i with
    | zero =>
      have hc : c = 0 := h
      subst hc
      rfl
    | succ j =>
      have hj : cell rest j = 0 := h
      simp only [List.set_cons_succ, ih hj]

/-- Writing a mark into an empty cell and clearing the cell gives the board back. -/
theorem set_set_restore {board : Board} {i : Nat} (v : Int) (h : cell board i = 0) :
    (board.set i v).set i 0 = board := by
  rw [List.set_set, set_zero_of_cell_zero h]

theorem emptyCount_cons (c : Int) (rest : Board) :
    emptyCount (c :: rest) = (if c = 0 then 1 else 0) + emptyCount rest := by
  unfold emptyCount
  by_cases hc : c = 0
  · simp [hc, Nat.add_comm]
  · simp [hc]

/-- Filling an empty cell with a mark leaves one empty cell less. -/
theorem emptyCount_set {board : Board} {i : Nat} {v : Int} (hi : i < board.length)
    (h : cell board i = 0) (hv : v ≠ 0) :
    emptyCount (board.set i v) + 1 = emptyCount board := by
  induction board generalizing i with
  | nil => simp at hi
  | cons c rest ih =>
    cases i with
    | zero =>
      have hc : c = 0 := h
      subst hc
      simp only [List.set_cons_zero, emptyCount_cons, hv, if_false, if_true]
      omega
    | succ j =>
      have hj : cell rest j = 0 := h
      have hlt : j < rest.length := by simpa using hi
      simp only [List.set_cons_succ, emptyCount_cons]
      have := ih hlt hj
      omega

theorem exists_cell_zero {board : Board} (hlen : board.length = 9) (h : (0 : Int) ∈ board) :
    ∃ i ∈ cells, cell board i = 0 := by
  obtain ⟨i, hi, h0⟩ := List.getElem_of_mem h
  exact ⟨i, mem_cells.mpr (hlen ▸ hi), by rw [cell_of_lt hi, h0]⟩

theorem mem_of_cell_zero {board : Board} {i : Nat} (hi : i < board.length)
    (h : cell board i = 0) : (0 : Int) ∈ board := by
  rw [cell_of_lt hi] at h
  exact h ▸ List.getElem_mem hi

theorem emptyCount_pos {board : Board} (h : (0 : Int) ∈ board) : 0 < emptyCount board := by
  unfold emptyCount
  apply List.length_pos_of_mem (a := 0)
  simp [List.mem_filter, h]

/-! ## Scores -/

namespace Score

theorem max_negInf_left (y : Score) : max negInf y = y := by
  simp [max, le]

theorem min_posInf_left (y : Score) : min posInf y = y := by
  cases y <;> simp [min, le]

theorem max_fin_fin (a b : Int) : max (fin a) (fin b) = fin (if a ≤ b then b else a) := by
  unfold max le
  by_cases h : a ≤ b <;> simp [h]

theorem min_fin_fin (a b : Int) : min (fin a) (fin b) = fin (if a ≤ b then a else b) := by
  unfold min le
  by_cases h : a ≤ b <;> simp [h]

theorem max_posInf_fin (b : Int) : max posInf (fin b) = posInf := by
  simp [max, le]

theorem min_negInf_fin (b : Int) : min negInf (fin b) = negInf := by
  simp [min, le]

theorem gt_negInf (v : Int) : gt (fin v) negInf = true := by
  simp [gt, le]

theorem gt_fin_fin (a b : Int) : gt (fin a) (fin b) = decide (b < a) := by
  unfold gt le
  by_cases h : a ≤ b
  · simp [h, not_lt.mpr h]
  · simp [h, not_le.mp h]

end Score

/-! ## One turn of the loops of `minimax` -/

section Loops

variable {recur : Board → Score → Score → Option (Score × Board)} {mark : Int}
  {i : Nat} {rest : List Nat} {board board1 : Board} {m alpha beta e : Score}

theorem maxLoop_skip (h : cell board i ≠ 0) :
    maxLoop recur mark (i :: rest) board m alpha beta =
      maxLoop recur mark rest board m alpha beta := by
  conv_lhs => unfold maxLoop
  rw [if_neg h]

theorem maxLoop_none (h : cell board i = 0) (hr : recur (board.set i mark) alpha beta = none) :
    maxLoop recur mark (i :: rest) board m alpha beta = none := by
  conv_lhs => unfold maxLoop
  rw [if_pos h, hr]

theorem maxLoop_visit (h : cell board i = 0)
    (hr : recur (board.set i mark) alpha beta = some (e, board1)) :
    maxLoop recur mark (i :: rest) board m alpha beta =
      if Score.le beta (Score.max alpha e) then some (Score.max m e, board1.set i 0)
      else maxLoop recur mark rest (board1.set i 0) (Score.max m e) (Score.max alpha e) beta := by
  conv_lhs => unfold maxLoop
  rw [if_pos h, hr]

theorem minLoop_skip (h : cell board i ≠ 0) :
    minLoop recur mark (i :: rest) board m alpha beta =
      minLoop recur mark rest board m alpha beta := by
  conv_lhs => unfold minLoop
  rw [if_neg h]

theorem minLoop_none (h : cell board i = 0) (hr : recur (board.set i mark) alpha beta = none) :
    minLoop recur mark (i :: rest) board m alpha beta = none := by
  conv_lhs => unfold minLoop
  rw [if_pos h, hr]

theorem minLoop_visit (h : cell board i = 0)
    (hr : recur (board.set i mark) alpha beta = some (e, board1)) :
    minLoop recur mark (i :: rest) board m alpha beta =
      if Score.le (Score.min beta e) alpha then some (Score.min m e, board1.set i 0)
      else minLoop recur mark rest (board1.set i 0) (Score.min m e) alpha (Score.min beta e) := by
  conv_lhs => unfold minLoop
  rw [if_pos h, hr]

end Loops

/-! ## The board is restored -/

theorem maxLoop_board {recur : Board → Score → Score → Option (Score × Board)} {mark : Int}
    (hrec : ∀ b al be s b1, recur b al be = some (s, b1) → b1 = b)
    (l : List Nat) (board : Board) (m alpha beta r : Score) (b1 : Board)
    (h : maxLoop recur mark l board m alpha beta = some (r, b1)) : b1 = board := by
  induction l generalizing m alpha with
  | nil =>
    simp only [maxLoop, Option.some.injEq, Prod.mk.injEq] at h
    exact h.2.symm
  | cons i rest ih =>
    by_cases hc : cell board i = 0
    · cases hr : recur (board.set i mark) alpha beta with
      | none => rw [maxLoop_none hc hr] at h; exact absurd h (by simp)
      | some res =>
        obtain ⟨e, b2⟩ := res
        have hb2 : b2 = board.set i mark := hrec _ _ _ _ _ hr
        rw [maxLoop_visit hc hr, hb2, set_set_restore mark hc] at h
        by_cases hp : Score.le beta (Score.max alpha e) = true
        · rw [if_pos hp] at h
          simp only [Option.some.injEq, Prod.mk.injEq] at h
          exact h.2.symm
        · rw [if_neg hp] at h
          exact ih _ _ h
    · rw [maxLoop_skip hc] at h
      exact ih _ _ h

theorem minLoop_board {recur : Board → Score → Score → Option (Score × Board)} {mark : Int}
    (hrec : ∀ b al be s b1, recur b al be = some (s, b1) → b1 = b)
    (l : List Nat) (board : Board) (m alpha beta r : Score) (b1 : Board)
    (h : minLoop recur mark l board m alpha beta = some (r, b1)) : b1 = board := by
  induction l generalizing m beta with
  | nil =>
    simp only [minLoop, Option.some.injEq, Prod.mk.injEq] at h
    exact h.2.symm
  | cons i rest ih =>
    by_cases hc : cell board i = 0
    · cases hr : recur (board.set i mark) alpha beta with
      | none => rw [minLoop_none hc hr] at h; exact absurd h (by simp)
      | some res =>
        obtain ⟨e, b2⟩ := res
        have hb2 : b2 = board.set i mark := hrec _ _ _ _ _ hr
        rw [minLoop_visit hc hr, hb2, set_set_restore mark hc] at h
        by_cases hp : Score.le (Score.min beta e) alpha = true
        · rw [if_pos hp] at h
          simp only [Option.some.injEq, Prod.mk.injEq] at h
          exact h.2.symm
        · rw [if_neg hp] at h
          exact ih _ _ h
    · rw [minLoop_skip hc] at h
      exact ih _ _ h

/-- Whenever `minimax` returns, the board is the one it was called with. -/
theorem minimaxFuel_board (fuel : Nat) (board : Board) (depth : Int) (isMax : Bool)
    (player opponent : Int) (alpha beta s : Score) (b1 : Board)
    (h : minimaxFuel fuel board depth isMax player opponent alpha beta = some (s, b1)) :
    b1 = board := by
  induction fuel generalizing board depth isMax alpha beta s b1 with
  | zero => simp [minimaxFuel] at h
  | succ fuel ih =>
    unfold minimaxFuel at h
    cases hw : checkWinner board with
    | some result =>
      rw [hw] at h
      simp only at h
      split_ifs at h <;>
        (simp only [Option.some.injEq, Prod.mk.injEq] at h; exact h.2.symm)
    | none =>
      rw [hw] at h
      simp only at h
      cases isMax with
      | true =>
        simp only [if_true] at h
        exact maxLoop_board (fun b al be s b1 hb => ih b _ _ al be s b1 hb) _ _ _ _ _ _ _ h
      | false =>
        simp only [Bool.false_eq_true, if_false] at h
        exact minLoop_board (fun b al be s b1 hb => ih b _ _ al be s b1 hb) _ _ _ _ _ _ _ h

/-! ## What the loops return -/

theorem Score.max_inv {Q : Int → Prop} {m : Score} {v : Int}
    (hm : m = Score.negInf ∨ ∃ w, m = Score.fin w ∧ Q w) (hv : Q v) :
    ∃ w, Score.max m (Score.fin v) = Score.fin w ∧ Q w := by
  rcases hm with rfl | ⟨w, rfl, hw⟩
  · exact ⟨v, Score.max_negInf_left _, hv⟩
  · rw [Score.max_fin_fin]
    by_cases h : w ≤ v
    · exact ⟨v, by rw [if_pos h], hv⟩
    · exact ⟨w, by rw [if_neg h], hw⟩

theorem Score.min_inv {Q : Int → Prop} {m : Score} {v : Int}
    (hm : m = Score.posInf ∨ ∃ w, m = Score.fin w ∧ Q w) (hv : Q v) :
    ∃ w, Score.min m (Score.fin v) = Score.fin w ∧ Q w := by
  rcases hm with rfl | ⟨w, rfl, hw⟩
  · exact ⟨v, Score.min_posInf_left _, hv⟩
  · rw [Score.min_fin_fin]
    by_cases h : w ≤ v
    · exact ⟨w, by rw [if_pos h], hw⟩
    · exact ⟨v, by rw [if_neg h], hv⟩

/-- The maximising loop returns, restores the board, and returns the score of a
visited child (or the starting value when no cell was empty). -/
theorem maxLoop_spec {recur : Board → Score → Score → Option (Score × Board)} {mark : Int}
    {Q : Int → Prop} (board : Board) (l : List Nat)
    (hrec : ∀ i ∈ l, cell board i = 0 → ∀ al be, ∃ v,
      recur (board.set i mark) al be = some (Score.fin v, board.set i mark) ∧ Q v)
    (m alpha beta : Score) (hm : m = Score.negInf ∨ ∃ w, m = Score.fin w ∧ Q w) :
    ∃ r, maxLoop recur mark l board m alpha beta = some (r, board) ∧
      (r = Score.negInf ∨ ∃ w, r = Score.fin w ∧ Q w) ∧
      ((m ≠ Score.negInf ∨ ∃ i ∈ l, cell board i = 0) → r ≠ Score.negInf) := by
  induction l generalizing m alpha with
  | nil =>
    refine ⟨m, rfl, hm, ?_⟩
    rintro (h | ⟨i, hi, _⟩)
    · exact h
    · simp at hi
  | cons i rest ih =>
    have hrest : ∀ j ∈ rest, cell board j = 0 → ∀ al be, ∃ v,
        recur (board.set j mark) al be = some (Score.fin v, board.set j mark) ∧ Q v :=
      fun j hj => hrec j (List.mem_cons_of_mem _ hj)
    by_cases hc : cell board i = 0
    · obtain ⟨v, hv, hQ⟩ := hrec i (List.mem_cons_self _ _) hc alpha beta
      obtain ⟨w, hw, hQw⟩ := Score.max_inv hm hQ
      rw [maxLoop_visit hc hv, set_set_restore mark hc, hw]
      by_cases hp : Score.le beta (Score.max alpha (Score.fin v)) = true
      · rw [if_pos hp]
        exact ⟨Score.fin w, rfl, Or.inr ⟨w, rfl, hQw⟩, fun _ => by simp⟩
      · rw [if_neg hp]
        obtain ⟨r, hr, hinv, hne⟩ := ih hrest (Score.fin w) (Score.max alpha (Score.fin v))
          (Or.inr ⟨w, rfl, hQw⟩)
        exact ⟨r, hr, hinv, fun _ => hne (Or.inl (by simp))⟩
    · rw [maxLoop_skip hc]
      obtain ⟨r, hr, hinv, hne⟩ := ih hrest m alpha hm
      refine ⟨r, hr, hinv, ?_⟩
      rintro (h | ⟨j, hj, hj0⟩)
      · exact hne (Or.inl h)
      · rcases List.mem_cons.mp hj with rfl | hj
        · exact absurd hj0 hc
        · exact hne (Or.inr ⟨j, hj, hj0⟩)

/-- The minimising loop returns, restores the board, and returns the score of a
visited child (or the starting value when no cell was empty). -/
theorem minLoop_spec {recur : Board → Score → Score → Option (Score × Board)} {mark : Int}
    {Q : Int → Prop} (board : Board) (l : List Nat)
    (hrec : ∀ i ∈ l, cell board i = 0 → ∀ al be, ∃ v,
      recur (board.set i mark) al be = some (Score.fin v, board.set i mark) ∧ Q v)
    (m alpha beta : Score) (hm : m = Score.posInf ∨ ∃ w, m = Score.fin w ∧ Q w) :
    ∃ r, minLoop recur mark l board m alpha beta = some (r, board) ∧
      (r = Score.posInf ∨ ∃ w, r = Score.fin w ∧ Q w) ∧
      ((m ≠ Score.posInf ∨ ∃ i ∈ l, cell board i = 0) → r ≠ Score.posInf) := by
  induction l generalizing m beta with
  | nil =>
    refine ⟨m, rfl, hm, ?_⟩
    rintro (h | ⟨i, hi, _⟩)
    · exact h
    · simp at hi
  | cons i rest ih =>
    have hrest : ∀ j ∈ rest, cell board j = 0 → ∀ al be, ∃ v,
        recur (board.set j mark) al be = some (Score.fin v, board.set j mark) ∧ Q v :=
      fun j hj => hrec j (List.mem_cons_of_mem _ hj)
    by_cases hc : cell board i = 0
    · obtain ⟨v, hv, hQ⟩ := hrec i (List.mem_cons_self _ _) hc alpha beta
      obtain ⟨w, hw, hQw⟩ := Score.min_inv hm hQ
      rw [minLoop_visit hc hv, set_set_restore mark hc, hw]
      by_cases hp : Score.le (Score.min beta (Score.fin v)) alpha = true
      · rw [if_pos hp]
        exact ⟨Score.fin w, rfl, Or.inr ⟨w, rfl, hQw⟩, fun _ => by simp⟩
      · rw [if_neg hp]
        obtain ⟨r, hr, hinv, hne⟩ := ih hrest (Score.fin w) (Score.min beta (Score.fin v))
          (Or.inr ⟨w, rfl, hQw⟩)
        exact ⟨r, hr, hinv, fun _ => hne (Or.inl (by simp))⟩
    · rw [minLoop_skip hc]
      obtain ⟨r, hr, hinv, hne⟩ := ih hrest m beta hm
      refine ⟨r, hr, hinv, ?_⟩
      rintro (h | ⟨j, hj, hj0⟩)
      · exact hne (Or.inl h)
      · rcases List.mem_cons.mp hj with rfl | hj
        · exact absurd hj0 hc
        · exact hne (Or.inr ⟨j, hj, hj0⟩)

theorem LeafScore.mono {lo hi lo1 hi1 v : Int} (h : LeafScore lo hi v) (hlo : lo1 ≤ lo)
    (hhi : hi ≤ hi1) : LeafScore lo1 hi1 v := by
  obtain ⟨d, h1, h2, h3⟩ := h
  exact ⟨d, le_trans hlo h1, le_trans h2 hhi, h3⟩

/-- With enough fuel `minimax` returns: the board is restored and the score is the
score of a finished game at a depth from `depth` to `depth` plus the number of
empty cells, strictly deeper than `depth` when the board is not finished. -/
theorem minimaxFuel_spec (fuel : Nat) (board : Board) (depth : Int) (isMax : Bool)
    (player opponent : Int) (alpha beta : Score) (hlen : board.length = 9)
    (hp : player ≠ 0) (hq : opponent ≠ 0) (hfuel : emptyCount board < fuel) :
    ∃ v, minimaxFuel fuel board depth isMax player opponent alpha beta =
        some (Score.fin v, board) ∧
      LeafScore depth (depth + emptyCount board) v ∧
      (checkWinner board = none → LeafScore (depth + 1) (depth + emptyCount board) v) := by
  induction fuel generalizing board depth isMax alpha beta with
  | zero => omega
  | succ fuel ih =>
    have hk : (0 : Int) ≤ emptyCount board := Int.ofNat_nonneg _
    unfold minimaxFuel
    cases hw : checkWinner board with
    | some result =>
      simp only
      refine ⟨if result = player then 10 - depth else if result = opponent then depth - 10 else 0,
        ?_, ⟨depth, le_refl _, by omega, ?_⟩, fun h => by simp at h⟩
      · split_ifs <;> rfl
      · split_ifs <;> simp
    | none =>
      simp only
      obtain ⟨i0, hi0, hz0⟩ := exists_cell_zero hlen (checkWinner_eq_none.mp hw).2
      have hchild : ∀ (mark : Int), mark ≠ 0 → ∀ (im : Bool), ∀ i ∈ cells, cell board i = 0 →
          ∀ al be, ∃ v,
          minimaxFuel fuel (board.set i mark) (depth + 1) im player opponent al be =
            some (Score.fin v, board.set i mark) ∧
          LeafScore (depth + 1) (depth + emptyCount board) v := by
        intro mark hmark im i hi hc al be
        have hilt : i < board.length := by rw [hlen]; exact mem_cells.mp hi
        have hcount := emptyCount_set hilt hc hmark
        obtain ⟨v, hv, hleaf, _⟩ := ih (board.set i mark) (depth + 1) im al be
          (by rw [List.length_set]; exact hlen) (by omega)
        refine ⟨v, hv, hleaf.mono (le_refl _) ?_⟩
        have : (emptyCount board : Int) = emptyCount (board.set i mark) + 1 := by
          exact_mod_cast hcount.symm
        omega
      cases isMax with
      | true =>
        simp only [if_true]
        obtain ⟨r, hr, hinv, hne⟩ := @maxLoop_spec
          (fun b al be => minimaxFuel fuel b (depth + 1) false player opponent al be) player
          (LeafScore (depth + 1) (depth + emptyCount board)) board cells
          (hchild player hp false) Score.negInf alpha beta (Or.inl rfl)
        rcases hinv with hneg | ⟨w, hw1, hQ⟩
        · exact absurd hneg (hne (Or.inr ⟨i0, hi0, hz0⟩))
        · exact ⟨w, by rw [hr, hw1], hQ.mono (by omega) (le_refl _), fun _ => hQ⟩
      | false =>
        simp only [Bool.false_eq_true, if_false]
        obtain ⟨r, hr, hinv, hne⟩ := @minLoop_spec
          (fun b al be => minimaxFuel fuel b (depth + 1) true player opponent al be) opponent
          (LeafScore (depth + 1) (depth + emptyCount board)) board cells
          (hchild opponent hq true) Score.posInf alpha beta (Or.inl rfl)
        rcases hinv with hneg | ⟨w, hw1, hQ⟩
        · exact absurd hneg (hne (Or.inr ⟨i0, hi0, hz0⟩))
        · exact ⟨w, by rw [hr, hw1], hQ.mono (by omega) (le_refl _), fun _ => hQ⟩

/-! ## The loop of `bestMove` -/

theorem Score.gt_fin_of_le_of_gt {a c : Int} {bs : Score}
    (h1 : Score.gt (Score.fin a) bs = false) (h2 : Score.gt (Score.fin c) bs = true) : a < c := by
  cases bs with
  | negInf => simp [Score.gt, Score.le] at h1
  | posInf => simp [Score.gt, Score.le] at h2
  | fin b =>
    rw [Score.gt_fin_fin] at h1 h2
    simp only [decide_eq_false_iff_not, decide_eq_true_eq, not_lt] at h1 h2
    omega

theorem Score.gt_fin_trans {a c : Int} {bs : Score}
    (h1 : Score.gt (Score.fin a) bs = true) (h2 : a < c) : Score.gt (Score.fin c) bs = true := by
  cases bs with
  | negInf => exact Score.gt_negInf c
  | posInf => simp [Score.gt, Score.le] at h1
  | fin b =>
    rw [Score.gt_fin_fin] at h1 ⊢
    simp only [decide_eq_true_eq] at h1 ⊢
    omega

section BestLoop

variable {player opponent : Int} {i : Nat} {rest : List Nat} {board board1 : Board}
  {move : Int} {bestScore score : Score}

theorem bestLoop_skip (h : cell board i ≠ 0) :
    bestLoop player opponent (i :: rest) board move bestScore =
      bestLoop player opponent rest board move bestScore := by
  conv_lhs => unfold bestLoop
  rw [if_neg h]

theorem bestLoop_none (h : cell board i = 0)
    (hr : minimax (board.set i player) 0 false player opponent Score.negInf Score.posInf = none) :
    bestLoop player opponent (i :: rest) board move bestScore = none := by
  conv_lhs => unfold bestLoop
  rw [if_pos h, hr]

theorem bestLoop_visit (h : cell board i = 0)
    (hr : minimax (board.set i player) 0 false player opponent Score.negInf Score.posInf =
      some (score, board1)) :
    bestLoop player opponent (i :: rest) board move bestScore =
      if Score.gt score bestScore then bestLoop player opponent rest (board1.set i 0) (i : Int) score
      else bestLoop player opponent rest (board1.set i 0) move bestScore := by
  conv_lhs => unfold bestLoop
  rw [if_pos h, hr]

end BestLoop

theorem minimax_board (board : Board) (depth : Int) (isMax : Bool)
    (player opponent : Int) (alpha beta s : Score) (b1 : Board)
    (h : minimax board depth isMax player opponent alpha beta = some (s, b1)) : b1 = board :=
  minimaxFuel_board _ _ _ _ _ _ _ _ _ _ h

theorem bestLoop_board (player opponent : Int) (l : List Nat) (board : Board) (move m : Int)
    (bestScore : Score) (b1 : Board)
    (h : bestLoop player opponent l board move bestScore = some (m, b1)) : b1 = board := by
  induction l generalizing move bestScore with
  | nil =>
    simp only [bestLoop, Option.some.injEq, Prod.mk.injEq] at h
    exact h.2.symm
  | cons i rest ih =>
    by_cases hc : cell board i = 0
    · cases hr : minimax (board.set i player) 0 false player opponent Score.negInf
          Score.posInf with
      | none => rw [bestLoop_none hc hr] at h; exact absurd h (by simp)
      | some res =>
        obtain ⟨e, b2⟩ := res
        have hb2 : b2 = board.set i player := minimax_board _ _ _ _ _ _ _ _ _ hr
        rw [bestLoop_visit hc hr, hb2, set_set_restore player hc] at h
        by_cases hp : Score.gt e bestScore = true
        · rw [if_pos hp] at h
          exact ih _ _ h
        · rw [if_neg hp] at h
          exact ih _ _ h
    · rw [bestLoop_skip hc] at h
      exact ih _ _ h

/-- The loop of `bestMove` over increasing cells, when the search scores the empty
cell `i` with the integer `f i`: either no empty cell beats the starting score and
the starting move is kept, or the loop ends on the first empty cell of greatest score. -/
theorem bestLoop_spec {player opponent : Int} (board : Board) (f : Nat → Int) (l : List Nat)
    (hsorted : l.Pairwise (fun a b => a < b))
    (hf : ∀ i ∈ l, cell board i = 0 →
      minimax (board.set i player) 0 false player opponent Score.negInf Score.posInf =
        some (Score.fin (f i), board.set i player))
    (move : Int) (bestScore : Score) :
    ∃ m, bestLoop player opponent l board move bestScore = some (m, board) ∧
      ((m = move ∧ ∀ i ∈ l, cell board i = 0 → Score.gt (Score.fin (f i)) bestScore = false) ∨
       (∃ i ∈ l, m = (i : Int) ∧ cell board i = 0 ∧
          Score.gt (Score.fin (f i)) bestScore = true ∧
          (∀ j ∈ l, cell board j = 0 → f j ≤ f i) ∧
          (∀ j ∈ l, cell board j = 0 → j < i → f j < f i))) := by
  induction l generalizing move bestScore with
  | nil => exact ⟨move, rfl, Or.inl ⟨rfl, fun i hi => by simp at hi⟩⟩
  | cons i rest ih =>
    have hsr : rest.Pairwise (fun a b => a < b) := (List.pairwise_cons.mp hsorted).2
    have hlt : ∀ j ∈ rest, i < j := (List.pairwise_cons.mp hsorted).1
    have hfr : ∀ j ∈ rest, cell board j = 0 →
        minimax (board.set j player) 0 false player opponent Score.negInf Score.posInf =
          some (Score.fin (f j), board.set j player) :=
      fun j hj => hf j (List.mem_cons_of_mem _ hj)
    by_cases hc : cell board i = 0
    · rw [bestLoop_visit hc (hf i (List.mem_cons_self _ _) hc), set_set_restore player hc]
      by_cases hg : Score.gt (Score.fin (f i)) bestScore = true
      · rw [if_pos hg]
        obtain ⟨m, hm, hcase⟩ := ih hsr hfr (i : Int) (Score.fin (f i))
        refine ⟨m, hm, Or.inr ?_⟩
        rcases hcase with ⟨hmi, hall⟩ | ⟨k, hk, hmk, hkz, hkg, hkmax, hkfirst⟩
        · refine ⟨i, List.mem_cons_self _ _, hmi, hc, hg, ?_, ?_⟩
          · intro j hj hjz
            rcases List.mem_cons.mp hj with rfl | hjr
            · exact le_refl _
            · have := hall j hjr hjz
              rw [Score.gt_fin_fin] at this
              simpa using this
          · intro j hj _ hji
            rcases List.mem_cons.mp hj with rfl | hjr
            · exact absurd hji (lt_irrefl _)
            · exact absurd hji (not_lt.mpr (le_of_lt (hlt j hjr)))
        · have hik : f i < f k := by
            rw [Score.gt_fin_fin] at hkg
            simpa using hkg
          refine ⟨k, List.mem_cons_of_mem _ hk, hmk, hkz, Score.gt_fin_trans hg hik, ?_, ?_⟩
          · intro j hj hjz
            rcases List.mem_cons.mp hj with rfl | hjr
            · exact le_of_lt hik
            · exact hkmax j hjr hjz
          · intro j hj hjz hjk
            rcases List.mem_cons.mp hj with rfl | hjr
            · exact hik
            · exact hkfirst j hjr hjz hjk
      · rw [if_neg hg]
        have hg0 : Score.gt (Score.fin (f i)) bestScore = false := by
          simpa using hg
        obtain ⟨m, hm, hcase⟩ := ih hsr hfr move bestScore
        refine ⟨m, hm, ?_⟩
        rcases hcase with ⟨hmi, hall⟩ | ⟨k, hk, hmk, hkz, hkg, hkmax, hkfirst⟩
        · left
          refine ⟨hmi, ?_⟩
          intro j hj hjz
          rcases List.mem_cons.mp hj with rfl | hjr
          · exact hg0
          · exact hall j hjr hjz
        · right
          have hik : f i < f k := Score.gt_fin_of_le_of_gt hg0 hkg
          refine ⟨k, List.mem_cons_of_mem _ hk, hmk, hkz, hkg, ?_, ?_⟩
          · intro j hj hjz
            rcases List.mem_cons.mp hj with rfl | hjr
            · exact le_of_lt hik
            · exact hkmax j hjr hjz
          · intro j hj hjz hjk
            rcases List.mem_cons.mp hj with rfl | hjr
            · exact hik
            · exact hkfirst j hjr hjz hjk
    · rw [bestLoop_skip hc]
      obtain ⟨m, hm, hcase⟩ := ih hsr hfr move bestScore
      refine ⟨m, hm, ?_⟩
      rcases hcase with ⟨hmi, hall⟩ | ⟨k, hk, hmk, hkz, hkg, hkmax, hkfirst⟩
      · left
        refine ⟨hmi, ?_⟩
        intro j hj hjz
        rcases List.mem_cons.mp hj with rfl | hjr
        · exact absurd hjz hc
        · exact hall j hjr hjz
      · right
        refine ⟨k, List.mem_cons_of_mem _ hk, hmk, hkz, hkg, ?_, ?_⟩
        · intro j hj hjz
          rcases List.mem_cons.mp hj with rfl | hjr
          · exact absurd hjz hc
          · exact hkmax j hjr hjz
        · intro j hj hjz hjk
          rcases List.mem_cons.mp hj with rfl | hjr
          · exact absurd hjz hc
          · exact hkfirst j hjr hjz hjk

theorem cells_sorted : cells.Pairwise (fun a b => a < b) := by
  unfold cells
  decide

/-! ## Cells after a move -/

theorem cell_set {board : Board} {i : Nat} (v : Int) (j : Nat) (hi : i < board.length) :
    cell (board.set i v) j = if j = i then v else cell board j := by
  unfold cell
  by_cases hji : j = i
  · subst hji
    rw [if_pos rfl, List.getD_eq_getElem?_getD, List.getElem?_set_self hi]
    rfl
  · rw [if_neg hji, List.getD_eq_getElem?_getD, List.getD_eq_getElem?_getD,
      List.getElem?_set_ne (Ne.symm hji)]

theorem Valid.set {board : Board} (h : Valid board) (i : Nat) {v : Int}
    (hv : v = 0 ∨ v = 1 ∨ v = 2) : Valid (board.set i v) := by
  refine ⟨by rw [List.length_set]; exact h.1, ?_⟩
  intro c hc
  rcases List.mem_or_eq_of_mem_set hc with hm | rfl
  · exact h.2 c hm
  · exact hv

/-- A line of another mark is not made by writing `v` into a cell. -/
theorem hasLine_of_set {board : Board} {i : Nat} {u v : Int} (hi : i < board.length)
    (huv : u ≠ v) (h : hasLine (board.set i v) u) : hasLine board u := by
  obtain ⟨l, hl, h1, h2, h3⟩ := h
  rw [cell_set v _ hi] at h1 h2 h3
  refine ⟨l, hl, ?_, ?_, ?_⟩
  · by_cases hc : l.1 = i
    · rw [if_pos hc] at h1; exact absurd h1.symm huv
    · rw [if_neg hc] at h1; exact h1
  · by_cases hc : l.2.1 = i
    · rw [if_pos hc] at h2; exact absurd h2.symm huv
    · rw [if_neg hc] at h2; exact h2
  · by_cases hc : l.2.2 = i
    · rw [if_pos hc] at h3; exact absurd h3.symm huv
    · rw [if_neg hc] at h3; exact h3

theorem other_ne_zero (player : Int) : other player ≠ 0 := by
  unfold other
  split_ifs <;> decide

theorem other_cases {player : Int} (h : player = 1 ∨ player = 2) :
    (player = 1 ∧ other player = 2) ∨ (player = 2 ∧ other player = 1) := by
  rcases h with rfl | rfl
  · exact Or.inl ⟨rfl, rfl⟩
  · exact Or.inr ⟨rfl, rfl⟩

/-- A board with a line of `p` and no line of the other player is won by `p`. -/
theorem checkWinner_of_line {board : Board} {p : Int} (hv : Valid board)
    (hp : p = 1 ∨ p = 2) (hline : hasLine board p) (hno : ¬ hasLine board (other p)) :
    checkWinner board = some p := by
  have hp0 : p ≠ 0 := by rcases hp with rfl | rfl <;> decide
  cases hf : firstLine board WINS with
  | none =>
    exfalso
    obtain ⟨l, hl, h1, h2, h3⟩ := hline
    refine (firstLine_eq_none.mp hf) l hl ⟨?_, ?_, ?_⟩
    · rw [h1]; exact hp0
    · rw [h1, h2]
    · rw [h1, h3]
  | some w =>
    obtain ⟨hw0, l, hl, h1, h2, h3⟩ := firstLine_eq_some hf
    have hwline : hasLine board w := ⟨l, hl, h1, h2, h3⟩
    have hw : w = p := by
      have hcases := hv.cell_cases l.1
      rw [h1] at hcases
      rcases other_cases hp with ⟨rfl, ho⟩ | ⟨rfl, ho⟩
      · rcases hcases with h | h | h
        · exact absurd h hw0
        · exact h
        · exact absurd (by rw [ho, ← h]; exact hwline) hno
      · rcases hcases with h | h | h
        · exact absurd h hw0
        · exact absurd (by rw [ho, ← h]; exact hwline) hno
        · exact h
    unfold checkWinner
    rw [hf, hw]

theorem checkWinner_ne_of_no_line {board : Board} {p : Int} (hp : p ≠ 0)
    (hno : ¬ hasLine board p) : checkWinner board ≠ some p := by
  intro h
  rcases checkWinner_eq_some h with ⟨_, hl⟩ | ⟨h0, _⟩
  · exact hno hl
  · exact hp h0

theorem no_line_of_checkWinner_none {board : Board} (h : checkWinner board = none)
    {v : Int} (hv : v ≠ 0) : ¬ hasLine board v := by
  rintro ⟨l, hl, h1, h2, h3⟩
  refine firstLine_eq_none.mp (checkWinner_eq_none.mp h).1 l hl ⟨?_, ?_, ?_⟩
  · rw [h1]; exact hv
  · rw [h1, h2]
  · rw [h1, h3]

/-! ## The value of `minimax` -/

/-- On a finished board `minimax` returns at once. -/
theorem minimax_terminal (board : Board) (depth : Int) (isMax : Bool) (player opponent : Int)
    (alpha beta : Score) {r : Int} (h : checkWinner board = some r) :
    minimax board depth isMax player opponent alpha beta =
      some (Score.fin (if r = player then 10 - depth
        else if r = opponent then depth - 10 else 0), board) := by
  unfold minimax minimaxFuel
  rw [h]
  simp only
  split_ifs <;> rfl

theorem minimax_spec (board : Board) (depth : Int) (isMax : Bool)
    (player opponent : Int) (alpha beta : Score) (hlen : board.length = 9)
    (hp : player ≠ 0) (hq : opponent ≠ 0) :
    ∃ v, minimax board depth isMax player opponent alpha beta = some (Score.fin v, board) ∧
      LeafScore depth (depth + emptyCount board) v ∧
      (checkWinner board = none → LeafScore (depth + 1) (depth + emptyCount board) v) :=
  minimaxFuel_spec _ board depth isMax player opponent alpha beta hlen hp hq (by omega)

theorem emptyCount_le_length (board : Board) : emptyCount board ≤ board.length := by
  unfold emptyCount
  exact List.length_filter_le _ _

theorem candidate_eq {board : Board} {player : Int} (hlen : board.length = 9)
    (hp : player ≠ 0) (i : Nat) :
    minimax (board.set i player) 0 false player (other player) Score.negInf Score.posInf =
      some (Score.fin (candidateScore board player i), board.set i player) := by
  obtain ⟨v, hv, _⟩ := minimax_spec (board.set i player) 0 false player (other player)
    Score.negInf Score.posInf (by rw [List.length_set]; exact hlen) hp (other_ne_zero _)
  unfold candidateScore
  rw [hv]

/-- The result of `bestMove`: `-1` on a board without an empty cell, and otherwise the
first empty cell among those of greatest score. -/
theorem bestMove_spec {board : Board} {player : Int} (hlen : board.length = 9)
    (hp : player ≠ 0) :
    ((0 : Int) ∉ board → bestMove board player = some (-1, board)) ∧
    ((0 : Int) ∈ board → ∃ m : Nat, m < 9 ∧ bestMove board player = some ((m : Int), board) ∧
      cell board m = 0 ∧
      ∀ j, j < 9 → cell board j = 0 →
        candidateScore board player j ≤ candidateScore board player m ∧
        (j < m → candidateScore board player j < candidateScore board player m)) := by
  obtain ⟨m, hm, hcase⟩ := @bestLoop_spec player (other player) board
    (candidateScore board player) cells cells_sorted
    (fun i _ _ => candidate_eq hlen hp i) (-1) Score.negInf
  have hbm : bestMove board player = some (m, board) := hm
  constructor
  · intro hz
    rcases hcase with ⟨hm1, _⟩ | ⟨i, hi, _, hiz, _⟩
    · rw [hbm, hm1]
    · exact absurd (mem_of_cell_zero (by rw [hlen]; exact mem_cells.mp hi) hiz) hz
  · intro hz
    rcases hcase with ⟨_, hall⟩ | ⟨i, hi, hmi, hiz, _, hmax, hfirst⟩
    · obtain ⟨i, hi, hiz⟩ := exists_cell_zero hlen hz
      have := hall i hi hiz
      rw [Score.gt_negInf] at this
      exact absurd this (by simp)
    · refine ⟨i, mem_cells.mp hi, by rw [hbm, hmi], hiz, fun j hj hjz => ⟨?_, ?_⟩⟩
      · exact hmax j (mem_cells.mpr hj) hjz
      · exact hfirst j (mem_cells.mpr hj) hjz

theorem noWonLine_iff {board : Board} :
    noWonLine board ↔ ∀ v : Int, v ≠ 0 → ¬ hasLine board v := by
  constructor
  · rintro h v hv ⟨l, hl, h1, h2, h3⟩
    exact h l hl ⟨by rw [h1]; exact hv, by rw [h1, h2], by rw [h1, h3]⟩
  · rintro h l hl ⟨h0, h1, h2⟩
    exact h _ h0 ⟨l, hl, rfl, h1.symm, h2.symm⟩

theorem candidateScore_win {board : Board} {p : Int} (hlen : board.length = 9) (hp : p ≠ 0)
    {w : Nat} (h : checkWinner (board.set w p) = some p) : candidateScore board p w = 10 := by
  have h1 := candidate_eq hlen hp w
  rw [minimax_terminal _ _ _ _ _ _ _ h, if_pos rfl] at h1
  simp only [Option.some.injEq, Prod.mk.injEq, Score.fin.injEq, and_true] at h1
  omega

theorem candidateScore_le_nine {board : Board} {p : Int} (hlen : board.length = 9)
    (hp : p ≠ 0) {j : Nat} (h : checkWinner (board.set j p) ≠ some p) :
    candidateScore board p j ≤ 9 := by
  have hlen1 : (board.set j p).length = 9 := by rw [List.length_set]; exact hlen
  have h1 := candidate_eq hlen hp j
  cases hw : checkWinner (board.set j p) with
  | some r =>
    have hr : r ≠ p := fun hc => h (by rw [hw, hc])
    rw [minimax_terminal _ _ _ _ _ _ _ hw, if_neg hr] at h1
    simp only [Option.some.injEq, Prod.mk.injEq, Score.fin.injEq, and_true] at h1
    split_ifs at h1 <;> omega
  | none =>
    obtain ⟨v, hv, _, hleaf⟩ := minimax_spec (board.set j p) 0 false p (other p)
      Score.negInf Score.posInf hlen1 hp (other_ne_zero _)
    rw [hv] at h1
    simp only [Option.some.injEq, Prod.mk.injEq, Score.fin.injEq, and_true] at h1
    obtain ⟨d, hd1, hd2, hd3⟩ := hleaf hw
    have hk := emptyCount_le_length (board.set j p)
    rw [hlen1] at hk
    have hk1 : (emptyCount (board.set j p) : Int) ≤ 9 := by exact_mod_cast hk
    omega

/-! ## The order of the scores -/

theorem Score.le_refl (a : Score) : Score.le a a = true := by
  cases a <;> simp [Score.le]

theorem Score.le_trans {a b c : Score} (h1 : Score.le a b = true) (h2 : Score.le b c = true) :
    Score.le a c = true := by
  cases a <;> cases b <;> cases c <;> simp [Score.le] at h1 h2 ⊢
  omega

theorem Score.min_le_left (a b : Score) : Score.le (Score.min a b) a = true := by
  unfold Score.min
  by_cases h : Score.le a b = true
  · rw [if_pos h]; exact Score.le_refl a
  · rw [if_neg h]
    cases a <;> cases b <;> simp [Score.le] at h ⊢
    omega

theorem Score.min_le_right (a b : Score) : Score.le (Score.min a b) b = true := by
  unfold Score.min
  by_cases h : Score.le a b = true
  · rw [if_pos h]; exact h
  · rw [if_neg h]; exact Score.le_refl b

theorem Score.min_fin_ne_negInf {a : Score} (v : Int) (h : a ≠ Score.negInf) :
    Score.min a (Score.fin v) ≠ Score.negInf := by
  cases a with
  | negInf => exact absurd rfl h
  | fin w => rw [Score.min_fin_fin]; simp
  | posInf => rw [Score.min_posInf_left]; simp

theorem Score.le_negInf {a : Score} (h : a ≠ Score.negInf) :
    ¬ (Score.le a Score.negInf = true) := by
  cases a with
  | negInf => exact absurd rfl h
  | fin w => simp [Score.le]
  | posInf => simp [Score.le]

/-! ## The minimising loop without a lower bound -/

/-- The minimising loop never returns more than its starting value. -/
theorem minLoop_le_start {recur : Board → Score → Score → Option (Score × Board)} {mark : Int}
    (l : List Nat) (board : Board) (m alpha beta r : Score) (b1 : Board)
    (h : minLoop recur mark l board m alpha beta = some (r, b1)) : Score.le r m = true := by
  induction l generalizing board m beta with
  | nil =>
    simp only [minLoop, Option.some.injEq, Prod.mk.injEq] at h
    rw [← h.1]; exact Score.le_refl m
  | cons i rest ih =>
    by_cases hc : cell board i = 0
    · cases hr : recur (board.set i mark) alpha beta with
      | none => rw [minLoop_none hc hr] at h; exact absurd h (by simp)
      | some res =>
        obtain ⟨e, b2⟩ := res
        rw [minLoop_visit hc hr] at h
        by_cases hp : Score.le (Score.min beta e) alpha = true
        · rw [if_pos hp] at h
          simp only [Option.some.injEq, Prod.mk.injEq] at h
          rw [← h.1]; exact Score.min_le_left m e
        · rw [if_neg hp] at h
          exact Score.le_trans (ih _ _ _ h) (Score.min_le_left m e)
    · rw [minLoop_skip hc] at h
      exact ih _ _ _ h

/-- With `alpha = -Infinity` the minimising loop is never left early: what it returns
is at most the score of every child. -/
theorem minLoop_le {recur : Board → Score → Score → Option (Score × Board)} {mark : Int}
    (board : Board) (l : List Nat)
    (hrec : ∀ i ∈ l, cell board i = 0 → ∀ al be, ∃ v,
      recur (board.set i mark) al be = some (Score.fin v, board.set i mark) ∧ True)
    (j : Nat) (vj : Int) (hj : j ∈ l) (hjz : cell board j = 0)
    (hvj : ∀ al be, recur (board.set j mark) al be = some (Score.fin vj, board.set j mark))
    (m beta : Score) (hbeta : beta ≠ Score.negInf) (hm : m = Score.posInf ∨ ∃ w, m = Score.fin w) :
    ∃ r, minLoop recur mark l board m Score.negInf beta = some (r, board) ∧
      Score.le r (Score.fin vj) = true := by
  induction l generalizing m beta with
  | nil => simp at hj
  | cons i rest ih =>
    have hrest : ∀ k ∈ rest, cell board k = 0 → ∀ al be, ∃ v,
        recur (board.set k mark) al be = some (Score.fin v, board.set k mark) ∧ True :=
      fun k hk => hrec k (List.mem_cons_of_mem _ hk)
    by_cases hc : cell board i = 0
    · obtain ⟨v, hv, _⟩ := hrec i (List.mem_cons_self _ _) hc Score.negInf beta
      have hnp : ¬ (Score.le (Score.min beta (Score.fin v)) Score.negInf = true) :=
        Score.le_negInf (Score.min_fin_ne_negInf v hbeta)
      have hm1 : Score.min m (Score.fin v) = Score.posInf ∨
          ∃ w, Score.min m (Score.fin v) = Score.fin w := by
        rcases hm with rfl | ⟨w, rfl⟩
        · exact Or.inr ⟨v, Score.min_posInf_left _⟩
        · exact Or.inr ⟨_, Score.min_fin_fin w v⟩
      rw [minLoop_visit hc hv, set_set_restore mark hc, if_neg hnp]
      rcases List.mem_cons.mp hj with rfl | hjr
      · have hvv : v = vj := by
          have := (hvj Score.negInf beta).symm.trans hv
          simpa using this.symm
        have hmq : Score.min m (Score.fin v) = Score.posInf ∨
            ∃ w, Score.min m (Score.fin v) = Score.fin w ∧ True := by
          rcases hm1 with h | ⟨w, h⟩
          · exact Or.inl h
          · exact Or.inr ⟨w, h, trivial⟩
        obtain ⟨r, hr, _, _⟩ := minLoop_spec board rest hrest (Score.min m (Score.fin v))
          Score.negInf (Score.min beta (Score.fin v)) hmq
        refine ⟨r, hr, ?_⟩
        have h1 := minLoop_le_start _ _ _ _ _ _ _ hr
        rw [hvv] at h1
        exact Score.le_trans h1 (Score.min_le_right m (Score.fin vj))
      · exact ih hrest hjr _ _ (Score.min_fin_ne_negInf v hbeta) hm1
    · rw [minLoop_skip hc]
      rcases List.mem_cons.mp hj with rfl | hjr
      · exact absurd hjz hc
      · exact ih hrest hjr m beta hbeta hm

theorem minimaxFuel_terminal (fuel : Nat) (board : Board) (depth : Int) (isMax : Bool)
    (player opponent : Int) (alpha beta : Score) {r : Int} (h : checkWinner board = some r) :
    minimaxFuel (fuel + 1) board depth isMax player opponent alpha beta =
      some (Score.fin (if r = player then 10 - depth
        else if r = opponent then depth - 10 else 0), board) := by
  unfold minimaxFuel
  rw [h]
  simp only
  split_ifs <;> rfl

theorem minimax_min_step (board : Board) (depth : Int) (player opponent : Int)
    (alpha beta : Score) (h : checkWinner board = none) :
    minimax board depth false player opponent alpha beta =
      minLoop (fun b al be =>
          minimaxFuel (2 * emptyCount board) b (depth + 1) true player opponent al be)
        opponent cells board Score.posInf alpha beta := by
  unfold minimax
  rw [minimaxFuel, h]
  simp

/-! ## Threats -/

/-- A move after which the opponent completes a line at once scores at most `-9`. -/
theorem candidateScore_unsafe {board : Board} {p : Int} (hv : Valid board)
    (hp : p = 1 ∨ p = 2) {i j : Nat} (hnone : checkWinner (board.set i p) = none)
    (hj : j < 9) (hjz : cell (board.set i p) j = 0)
    (hline : hasLine ((board.set i p).set j (other p)) (other p)) :
    candidateScore board p i ≤ -9 := by
  have hp0 : p ≠ 0 := by rcases hp with rfl | rfl <;> decide
  have hq : other p = 1 ∨ other p = 2 := by
    rcases other_cases hp with ⟨_, h⟩ | ⟨_, h⟩
    · exact Or.inr h
    · exact Or.inl h
  have hpq : p ≠ other p := by
    rcases hp with rfl | rfl <;> decide
  have hoo : other (other p) = p := by
    rcases hp with rfl | rfl <;> decide
  have hv1 : Valid (board.set i p) := hv.set i (Or.inr hp)
  have hlen1 : (board.set i p).length = 9 := hv1.1
  have hzero : (0 : Int) ∈ board.set i p := (checkWinner_eq_none.mp hnone).2
  have hk : 0 < emptyCount (board.set i p) := emptyCount_pos hzero
  have hchild : ∀ k ∈ cells, cell (board.set i p) k = 0 → ∀ al be, ∃ v,
      minimaxFuel (2 * emptyCount (board.set i p)) ((board.set i p).set k (other p)) (0 + 1) true
        p (other p) al be = some (Score.fin v, (board.set i p).set k (other p)) ∧ True := by
    intro k hk1 hkz al be
    have hcount := emptyCount_set (by rw [hlen1]; exact mem_cells.mp hk1) hkz (other_ne_zero p)
    obtain ⟨v, h1, _⟩ := minimaxFuel_spec (2 * emptyCount (board.set i p))
      ((board.set i p).set k (other p)) (0 + 1) true p (other p) al be
      (by rw [List.length_set]; exact hlen1) hp0 (other_ne_zero p) (by omega)
    exact ⟨v, h1, trivial⟩
  have hwin : checkWinner ((board.set i p).set j (other p)) = some (other p) := by
    refine checkWinner_of_line (hv1.set j (Or.inr hq)) hq hline ?_
    rw [hoo]
    intro hc
    exact no_line_of_checkWinner_none hnone hp0
      (hasLine_of_set (by rw [hlen1]; exact hj) hpq hc)
  have hvj : ∀ al be,
      minimaxFuel (2 * emptyCount (board.set i p)) ((board.set i p).set j (other p)) (0 + 1) true
        p (other p) al be = some (Score.fin (-9), (board.set i p).set j (other p)) := by
    intro al be
    obtain ⟨n, hn⟩ : ∃ n, 2 * emptyCount (board.set i p) = n + 1 :=
      ⟨2 * emptyCount (board.set i p) - 1, by omega⟩
    rw [hn, minimaxFuel_terminal _ _ _ _ _ _ _ _ hwin, if_neg (Ne.symm hpq), if_pos rfl]
    rfl
  obtain ⟨r, hr, hle⟩ := @minLoop_le
    (fun b al be =>
      minimaxFuel (2 * emptyCount (board.set i p)) b (0 + 1) true p (other p) al be)
    (other p) (board.set i p) cells hchild j (-9)
    (mem_cells.mpr hj) hjz hvj Score.posInf Score.posInf (by simp) (Or.inl rfl)
  have h1 := candidate_eq hv.1 hp0 i
  rw [minimax_min_step _ _ _ _ _ _ hnone, hr] at h1
  simp only [Option.some.injEq, Prod.mk.injEq, and_true] at h1
  rw [h1] at hle
  simpa [Score.le] using hle

/-- A move after which the opponent cannot complete a line at once scores at least `-8`. -/
theorem candidateScore_safe {board : Board} {p : Int} (hv : Valid board)
    (hp : p = 1 ∨ p = 2) (hno : noWonLine board) {b : Nat} (hb : b < 9)
    (hsafe : safeMove board p (other p) b) : -8 ≤ candidateScore board p b := by
  have hp0 : p ≠ 0 := by rcases hp with rfl | rfl <;> decide
  have hq : other p = 1 ∨ other p = 2 := by
    rcases other_cases hp with ⟨_, h⟩ | ⟨_, h⟩
    · exact Or.inr h
    · exact Or.inl h
  have hpq : p ≠ other p := by
    rcases hp with rfl | rfl <;> decide
  have hv1 : Valid (board.set b p) := hv.set b (Or.inr hp)
  have hlen1 : (board.set b p).length = 9 := hv1.1
  have h1 := candidate_eq hv.1 hp0 b
  cases hw : checkWinner (board.set b p) with
  | some r =>
    have hr : r ≠ other p := by
      intro hc
      refine checkWinner_ne_of_no_line (other_ne_zero p) ?_ (hc ▸ hw)
      intro hl
      exact noWonLine_iff.mp hno _ (other_ne_zero p)
        (hasLine_of_set (by rw [hv.1]; exact hb) (Ne.symm hpq) hl)
    rw [minimax_terminal _ _ _ _ _ _ _ hw, if_neg hr] at h1
    simp only [Option.some.injEq, Prod.mk.injEq, Score.fin.injEq, and_true] at h1
    split_ifs at h1 <;> omega
  | none =>
    have hsafe1 : ∀ j, j < 9 → cell (board.set b p) j = 0 →
        ¬ hasLine ((board.set b p).set j (other p)) (other p) := by
      rcases hsafe with h | h
      · exact absurd hw h
      · exact h
    have hchild : ∀ k ∈ cells, cell (board.set b p) k = 0 → ∀ al be, ∃ v,
        minimaxFuel (2 * emptyCount (board.set b p)) ((board.set b p).set k (other p)) (0 + 1)
          true p (other p) al be = some (Score.fin v, (board.set b p).set k (other p)) ∧
        -8 ≤ v := by
      intro k hk1 hkz al be
      have hklt : k < 9 := mem_cells.mp hk1
      have hcount := emptyCount_set (by rw [hlen1]; exact hklt) hkz (other_ne_zero p)
      have hlen2 : ((board.set b p).set k (other p)).length = 9 := by
        rw [List.length_set]; exact hlen1
      obtain ⟨v, h2, _, hleaf⟩ := minimaxFuel_spec (2 * emptyCount (board.set b p))
        ((board.set b p).set k (other p)) (0 + 1) true p (other p) al be
        hlen2 hp0 (other_ne_zero p) (by omega)
      refine ⟨v, h2, ?_⟩
      cases hw2 : checkWinner ((board.set b p).set k (other p)) with
      | some r =>
        have hr : r ≠ other p := fun hc =>
          checkWinner_ne_of_no_line (other_ne_zero p) (hsafe1 k hklt hkz) (hc ▸ hw2)
        obtain ⟨n, hn⟩ : ∃ n, 2 * emptyCount (board.set b p) = n + 1 :=
          ⟨2 * emptyCount (board.set b p) - 1, by omega⟩
        rw [hn, minimaxFuel_terminal _ _ _ _ _ _ _ _ hw2, if_neg hr] at h2
        simp only [Option.some.injEq, Prod.mk.injEq, Score.fin.injEq, and_true] at h2
        split_ifs at h2 <;> omega
      | none =>
        obtain ⟨d, hd1, hd2, hd3⟩ := hleaf hw2
        have hk2 := emptyCount_le_length ((board.set b p).set k (other p))
        rw [hlen2] at hk2
        have hk3 : (emptyCount ((board.set b p).set k (other p)) : Int) ≤ 9 := by
          exact_mod_cast hk2
        omega
    obtain ⟨i0, hi0, hz0⟩ := exists_cell_zero hlen1 (checkWinner_eq_none.mp hw).2
    obtain ⟨r, hr, hinv, hne⟩ := @minLoop_spec
      (fun brd al be =>
        minimaxFuel (2 * emptyCount (board.set b p)) brd (0 + 1) true p (other p) al be)
      (other p) (fun v => -8 ≤ v) (board.set b p)
      cells hchild Score.posInf Score.negInf Score.posInf (Or.inl rfl)
    rw [minimax_min_step _ _ _ _ _ _ hw, hr] at h1
    simp only [Option.some.injEq, Prod.mk.injEq, and_true] at h1
    rcases hinv with hpos | ⟨w, hw1, hQ⟩
    · exact absurd hpos (hne (Or.inr ⟨i0, hi0, hz0⟩))
    · rw [hw1] at h1
      simp only [Score.fin.injEq] at h1
      omega

/-! ## Bit boards -/

theorem bitsOf_cons (v c : Int) (rest : Board) :
    bitsOf v (c :: rest) = (if c = v then 1 else 0) + 2 * bitsOf v rest := rfl

theorem bitsOf_testBit (v : Int) (board : Board) (i : Nat) (hi : i < board.length) :
    (bitsOf v board).testBit i = decide (cell board i = v) := by
  induction board generalizing i with
  | nil => simp at hi
  | cons c rest ih =>
    cases i with
    | zero =>
      have hc : cell (c :: rest) 0 = c := rfl
      rw [hc, Nat.testBit_zero, bitsOf_cons]
      by_cases h : c = v
      · simp [h, Nat.add_mul_mod_self_left]
      · simp [h]
    | succ j =>
      have hc : cell (c :: rest) (j + 1) = cell rest j := rfl
      have hj : j < rest.length := by simpa using hi
      rw [hc, Nat.testBit_succ, ← ih j hj, bitsOf_cons]
      congr 1
      split_ifs <;> omega

theorem bitsOf_lt (v : Int) (board : Board) : bitsOf v board < 2 ^ board.length := by
  induction board with
  | nil => simp [bitsOf]
  | cons c rest ih =>
    rw [bitsOf_cons, List.length_cons, pow_succ]
    split_ifs <;> omega

theorem bitsOf_set_self {v : Int} {board : Board} {i : Nat} (hi : i < board.length)
    (h : cell board i ≠ v) : bitsOf v (board.set i v) = bitsOf v board + 2 ^ i := by
  induction board generalizing i with
  | nil => simp at hi
  | cons c rest ih =>
    cases i with
    | zero =>
      have hc : c ≠ v := h
      rw [List.set_cons_zero, bitsOf_cons, bitsOf_cons, if_pos rfl, if_neg hc]
      omega
    | succ j =>
      have hj : j < rest.length := by simpa using hi
      have hc : cell rest j ≠ v := h
      rw [List.set_cons_succ, bitsOf_cons, bitsOf_cons, ih hj hc, pow_succ]
      omega

theorem bitsOf_set_other {u v : Int} {board : Board} {i : Nat} (huv : u ≠ v)
    (h : cell board i ≠ u) : bitsOf u (board.set i v) = bitsOf u board := by
  induction board generalizing i with
  | nil => rfl
  | cons c rest ih =>
    cases i with
    | zero =>
      have hc : c ≠ u := h
      rw [List.set_cons_zero, bitsOf_cons, bitsOf_cons, if_neg hc, if_neg (Ne.symm huv)]
    | succ j =>
      have hc : cell rest j ≠ u := h
      rw [List.set_cons_succ, bitsOf_cons, bitsOf_cons, ih hc]

theorem land_two_pow_eq_zero (x i : Nat) : Nat.land x (2 ^ i) = 0 ↔ x.testBit i = false := by
  constructor
  · intro h
    have h1 : (x &&& 2 ^ i).testBit i = false := by
      show (Nat.land x (2 ^ i)).testBit i = false
      rw [h]; simp
    simpa [Nat.testBit_and, Nat.testBit_two_pow] using h1
  · intro h
    show x &&& 2 ^ i = 0
    apply Nat.eq_of_testBit_eq
    intro j
    simp only [Nat.testBit_and, Nat.testBit_two_pow, Nat.zero_testBit]
    by_cases hij : i = j
    · subst hij; simp [h]
    · simp [hij]

theorem land_mask_iff (x a b c : Nat) :
    Nat.land x (2 ^ a ||| 2 ^ b ||| 2 ^ c) = (2 ^ a ||| 2 ^ b ||| 2 ^ c) ↔
      x.testBit a = true ∧ x.testBit b = true ∧ x.testBit c = true := by
  constructor
  · intro h
    have key : ∀ j, (x &&& (2 ^ a ||| 2 ^ b ||| 2 ^ c)).testBit j =
        (2 ^ a ||| 2 ^ b ||| 2 ^ c).testBit j := fun j => by
      show (Nat.land x (2 ^ a ||| 2 ^ b ||| 2 ^ c)).testBit j = _
      rw [h]
    refine ⟨?_, ?_, ?_⟩
    · simpa [Nat.testBit_and, Nat.testBit_or, Nat.testBit_two_pow] using key a
    · simpa [Nat.testBit_and, Nat.testBit_or, Nat.testBit_two_pow] using key b
    · simpa [Nat.testBit_and, Nat.testBit_or, Nat.testBit_two_pow] using key c
  · rintro ⟨ha, hb, hc⟩
    show x &&& (2 ^ a ||| 2 ^ b ||| 2 ^ c) = (2 ^ a ||| 2 ^ b ||| 2 ^ c)
    apply Nat.eq_of_testBit_eq
    intro j
    simp only [Nat.testBit_and, Nat.testBit_or, Nat.testBit_two_pow]
    by_cases h1 : a = j
    · subst h1; simp [ha]
    · by_cases h2 : b = j
      · subst h2; simp [hb]
      · by_cases h3 : c = j
        · subst h3; simp [hc]
        · simp [h1, h2, h3]

theorem eq_511_iff (x : Nat) (hx : x < 2 ^ 9) :
    x = 511 ↔ ∀ i, i < 9 → x.testBit i = true := by
  constructor
  · rintro rfl i hi
    interval_cases i <;> decide
  · intro h
    apply Nat.eq_of_testBit_eq
    intro j
    by_cases hj : j < 9
    · rw [h j hj]
      interval_cases j <;> decide
    · have h9 : 2 ^ 9 ≤ 2 ^ j := Nat.pow_le_pow_right (by decide) (by omega)
      rw [Nat.testBit_lt_two_pow (lt_of_lt_of_le hx h9),
        Nat.testBit_lt_two_pow (lt_of_lt_of_le (by decide) h9)]

/-! ## Score codes -/

theorem force_eq {α : Type} (n : Nat) (k : Nat → α) : force n k = k n := by
  cases n <;> rfl

theorem Score.ofCode_zero : Score.ofCode 0 = Score.negInf := rfl

theorem Score.ofCode_top : Score.ofCode 22 = Score.posInf := rfl

theorem Score.ofCode_fin {n : Nat} (h1 : 1 ≤ n) (h2 : n ≤ 21) :
    Score.ofCode n = Score.fin ((n : Int) - 11) := by
  unfold Score.ofCode
  rw [if_neg (by omega), if_neg (by omega)]

theorem Score.le_ofCode {a b : Nat} (ha : a ≤ 22) (hb : b ≤ 22) :
    Score.le (Score.ofCode a) (Score.ofCode b) = Nat.ble a b := by
  by_cases hab : a ≤ b
  · rw [Nat.ble_eq_true_of_le hab]
    unfold Score.ofCode
    split_ifs <;> simp [Score.le] <;> omega
  · have hf : Nat.ble a b = false := by
      rw [Bool.eq_false_iff]; intro hc; exact hab (Nat.le_of_ble_eq_true hc)
    rw [hf]
    unfold Score.ofCode
    split_ifs <;> simp [Score.le] <;> omega

theorem Score.max_ofCode {a b : Nat} (ha : a ≤ 22) (hb : b ≤ 22) :
    Score.max (Score.ofCode a) (Score.ofCode b) = Score.ofCode (codeMax a b) := by
  unfold Score.max codeMax
  rw [Score.le_ofCode ha hb]
  cases Nat.ble a b <;> rfl

theorem Score.min_ofCode {a b : Nat} (ha : a ≤ 22) (hb : b ≤ 22) :
    Score.min (Score.ofCode a) (Score.ofCode b) = Score.ofCode (codeMin a b) := by
  unfold Score.min codeMin
  rw [Score.le_ofCode ha hb]
  cases Nat.ble a b <;> rfl

theorem codeMax_le {a b : Nat} (ha : a ≤ 22) (hb : b ≤ 22) : codeMax a b ≤ 22 := by
  unfold codeMax
  cases Nat.ble a b <;> assumption

theorem codeMin_le {a b : Nat} (ha : a ≤ 22) (hb : b ≤ 22) : codeMin a b ≤ 22 := by
  unfold codeMin
  cases Nat.ble a b <;> assumption

theorem Score.gt_ofCode {a b : Nat} (ha : a ≤ 22) (hb : b ≤ 22) :
    Score.gt (Score.ofCode a) (Score.ofCode b) = Nat.blt b a := by
  unfold Score.gt
  rw [Score.le_ofCode ha hb]
  by_cases hab : a ≤ b
  · rw [Nat.ble_eq_true_of_le hab]
    have : Nat.blt b a = false := by
      rw [Bool.eq_false_iff]; intro hc
      have := Nat.le_of_ble_eq_true hc
      omega
    rw [this]; rfl
  · have hf : Nat.ble a b = false := by
      rw [Bool.eq_false_iff]; intro hc; exact hab (Nat.le_of_ble_eq_true hc)
    have : Nat.blt b a = true := Nat.ble_eq_true_of_le (by omega)
    rw [hf, this]; rfl

/-! ## The terminal evaluator on bit boards -/

theorem winnerCode_eq_foldr (mine theirs : Nat) :
    winnerCode mine theirs =
      WINS.foldr (fun l k => lineCode mine theirs (maskOf l) k)
        (cond (Nat.beq (Nat.lor mine theirs) 511) 3 0) := rfl

theorem wins_lt {l : Nat × Nat × Nat} (h : l ∈ WINS) : l.1 < 9 ∧ l.2.1 < 9 ∧ l.2.2 < 9 := by
  revert l
  unfold WINS
  decide

/-- The marks of a game: `p` is 1 or 2 and `q` is the other one. -/
theorem marks_cases {p : Int} (hp : p = 1 ∨ p = 2) :
    p ≠ 0 ∧ other p ≠ 0 ∧ p ≠ other p ∧ (other p = 1 ∨ other p = 2) ∧ other (other p) = p := by
  rcases hp with rfl | rfl <;> decide

theorem Valid.cell_marks {board : Board} (h : Valid board) {p : Int} (hp : p = 1 ∨ p = 2)
    (i : Nat) : cell board i = 0 ∨ cell board i = p ∨ cell board i = other p := by
  rcases h.cell_cases i with h0 | h1 | h2
  · exact Or.inl h0
  · rcases hp with rfl | rfl
    · exact Or.inr (Or.inl h1)
    · exact Or.inr (Or.inr h1)
  · rcases hp with rfl | rfl
    · exact Or.inr (Or.inr h2)
    · exact Or.inr (Or.inl h2)

theorem land_mask_bitsOf {board : Board} (hlen : board.length = 9) (v : Int)
    {l : Nat × Nat × Nat} (hl : l.1 < 9 ∧ l.2.1 < 9 ∧ l.2.2 < 9) :
    Nat.beq (Nat.land (bitsOf v board) (maskOf l)) (maskOf l) =
      decide (cell board l.1 = v ∧ cell board l.2.1 = v ∧ cell board l.2.2 = v) := by
  have h : Nat.land (bitsOf v board) (maskOf l) = maskOf l ↔
      (bitsOf v board).testBit l.1 = true ∧ (bitsOf v board).testBit l.2.1 = true ∧
        (bitsOf v board).testBit l.2.2 = true :=
    land_mask_iff (bitsOf v board) l.1 l.2.1 l.2.2
  rw [bitsOf_testBit v board _ (by omega), bitsOf_testBit v board _ (by omega),
    bitsOf_testBit v board _ (by omega)] at h
  simp only [decide_eq_true_eq] at h
  by_cases hc : cell board l.1 = v ∧ cell board l.2.1 = v ∧ cell board l.2.2 = v
  · rw [decide_eq_true hc, h.mpr hc]
    exact Nat.beq_refl _
  · rw [decide_eq_false hc, Bool.eq_false_iff]
    intro hb
    exact hc (h.mp (Nat.eq_of_beq_eq_true hb))

/-- The loop of `checkWinner` over the win lines, on bit boards. -/
theorem firstLine_code {board : Board} {p : Int} (hv : Valid board) (hp : p = 1 ∨ p = 2)
    (ls : List (Nat × Nat × Nat)) (hls : ∀ l ∈ ls, l.1 < 9 ∧ l.2.1 < 9 ∧ l.2.2 < 9) (k : Nat) :
    ls.foldr (fun l k => lineCode (bitsOf p board) (bitsOf (other p) board) (maskOf l) k) k =
      match firstLine board ls with
      | none => k
      | some v => if v = p then 1 else 2 := by
  obtain ⟨hp0, hq0, hpq, _, _⟩ := marks_cases hp
  induction ls with
  | nil => rfl
  | cons l rest ih =>
    obtain ⟨a, b, c⟩ := l
    have hl := hls (a, b, c) (List.mem_cons_self _ _)
    have ih1 := ih (fun l hl => hls l (List.mem_cons_of_mem _ hl))
    rw [List.foldr_cons, ih1]
    unfold lineCode
    rw [land_mask_bitsOf hv.1 p hl, land_mask_bitsOf hv.1 (other p) hl]
    simp only at hl ⊢
    by_cases h1 : cell board a = p ∧ cell board b = p ∧ cell board c = p
    · have hw : cell board a ≠ 0 ∧ cell board a = cell board b ∧ cell board a = cell board c :=
        ⟨by rw [h1.1]; exact hp0, by rw [h1.1, h1.2.1], by rw [h1.1, h1.2.2]⟩
      rw [decide_eq_true h1]
      unfold firstLine
      rw [if_pos hw]
      simp [h1.1]
    · rw [decide_eq_false h1]
      by_cases h2 : cell board a = other p ∧ cell board b = other p ∧ cell board c = other p
      · have hw : cell board a ≠ 0 ∧ cell board a = cell board b ∧
            cell board a = cell board c :=
          ⟨by rw [h2.1]; exact hq0, by rw [h2.1, h2.2.1], by rw [h2.1, h2.2.2]⟩
        rw [decide_eq_true h2]
        conv_rhs => unfold firstLine
        rw [if_pos hw]
        simp [h2.1, Ne.symm hpq]
      · rw [decide_eq_false h2]
        have hw : ¬ (cell board a ≠ 0 ∧ cell board a = cell board b ∧
            cell board a = cell board c) := by
          rintro ⟨h0, hab, hac⟩
          rcases hv.cell_marks hp a with h | h | h
          · exact h0 h
          · exact h1 ⟨h, by rw [← hab, h], by rw [← hac, h]⟩
          · exact h2 ⟨h, by rw [← hab, h], by rw [← hac, h]⟩
        conv_rhs => unfold firstLine
        rw [if_neg hw]
        rfl

theorem lor_bitsOf_eq_511 {board : Board} {p : Int} (hv : Valid board) (hp : p = 1 ∨ p = 2) :
    Nat.beq (Nat.lor (bitsOf p board) (bitsOf (other p) board)) 511 = !includesZero board := by
  obtain ⟨hp0, hq0, hpq, _, _⟩ := marks_cases hp
  have hlt : Nat.lor (bitsOf p board) (bitsOf (other p) board) < 2 ^ 9 := by
    have h1 := bitsOf_lt p board
    have h2 := bitsOf_lt (other p) board
    rw [hv.1] at h1 h2
    exact Nat.or_lt_two_pow h1 h2
  have hbit : ∀ i, i < 9 →
      ((Nat.lor (bitsOf p board) (bitsOf (other p) board)).testBit i = true ↔
        cell board i ≠ 0) := by
    intro i hi
    have : Nat.lor (bitsOf p board) (bitsOf (other p) board) =
        bitsOf p board ||| bitsOf (other p) board := rfl
    rw [this, Nat.testBit_or, bitsOf_testBit p board i (by rw [hv.1]; exact hi),
      bitsOf_testBit (other p) board i (by rw [hv.1]; exact hi)]
    simp only [Bool.or_eq_true, decide_eq_true_eq]
    constructor
    · rintro (h | h) <;> rw [h] <;> assumption
    · intro h0
      rcases hv.cell_marks hp i with h | h | h
      · exact absurd h h0
      · exact Or.inl h
      · exact Or.inr h
  by_cases hz : includesZero board = true
  · rw [hz]
    obtain ⟨i, hi, hiz⟩ := exists_cell_zero hv.1 (includesZero_iff.mp hz)
    show Nat.beq _ 511 = false
    rw [Bool.eq_false_iff]
    intro hb
    have h511 := (eq_511_iff _ hlt).mp (Nat.eq_of_beq_eq_true hb) i (mem_cells.mp hi)
    exact (hbit i (mem_cells.mp hi)).mp h511 hiz
  · have hz0 : includesZero board = false := by simpa using hz
    rw [hz0]
    show Nat.beq _ 511 = true
    have : Nat.lor (bitsOf p board) (bitsOf (other p) board) = 511 := by
      rw [eq_511_iff _ hlt]
      intro i hi
      rw [hbit i hi]
      intro hc
      exact hz (includesZero_iff.mpr (mem_of_cell_zero (by rw [hv.1]; exact hi) hc))
    rw [this]
    rfl

/-- The function `checkWinner` on bit boards: `winnerCode` is 0 when the game goes on,
1 when `p` has won, 2 when the other side has won and 3 on a draw. -/
theorem checkWinner_code {board : Board} {p : Int} (hv : Valid board) (hp : p = 1 ∨ p = 2) :
    (checkWinner board = none ∧ winnerCode (bitsOf p board) (bitsOf (other p) board) = 0) ∨
    (checkWinner board = some p ∧ winnerCode (bitsOf p board) (bitsOf (other p) board) = 1) ∨
    (checkWinner board = some (other p) ∧
      winnerCode (bitsOf p board) (bitsOf (other p) board) = 2) ∨
    (checkWinner board = some 0 ∧ winnerCode (bitsOf p board) (bitsOf (other p) board) = 3) := by
  rw [winnerCode_eq_foldr, firstLine_code hv hp WINS (fun l hl => wins_lt hl),
    lor_bitsOf_eq_511 hv hp]
  unfold checkWinner
  cases hf : firstLine board WINS with
  | none =>
    simp only
    cases hz : includesZero board with
    | true => exact Or.inl ⟨by simp, rfl⟩
    | false => exact Or.inr (Or.inr (Or.inr ⟨by simp, rfl⟩))
  | some w =>
    simp only
    obtain ⟨hw0, l, _, h1, _, _⟩ := firstLine_eq_some hf
    rcases hv.cell_marks hp l.1 with h | h | h
    · exact absurd (h1 ▸ h) hw0
    · have hwp : w = p := h1 ▸ h
      exact Or.inr (Or.inl ⟨by rw [hwp], by rw [if_pos hwp]⟩)
    · have hwq : w = other p := h1 ▸ h
      have hne : w ≠ p := by rw [hwq]; exact Ne.symm (marks_cases hp).2.2.1
      exact Or.inr (Or.inr (Or.inl ⟨by rw [hwq], by rw [if_neg hne]⟩))

/-! ## The search on bit boards -/

theorem testBit_occupied {board : Board} {p : Int} (hv : Valid board) (hp : p = 1 ∨ p = 2)
    {i : Nat} (hi : i < 9) :
    Nat.beq (Nat.land (Nat.lor (bitsOf p board) (bitsOf (other p) board)) (2 ^ i)) 0 =
      decide (cell board i = 0) := by
  obtain ⟨hp0, hq0, hpq, _, _⟩ := marks_cases hp
  have hor : (Nat.lor (bitsOf p board) (bitsOf (other p) board)).testBit i =
      (decide (cell board i = p) || decide (cell board i = other p)) := by
    have : Nat.lor (bitsOf p board) (bitsOf (other p) board) =
        bitsOf p board ||| bitsOf (other p) board := rfl
    rw [this, Nat.testBit_or, bitsOf_testBit p board i (by rw [hv.1]; exact hi),
      bitsOf_testBit (other p) board i (by rw [hv.1]; exact hi)]
  by_cases hc : cell board i = 0
  · rw [decide_eq_true hc]
    have hz : Nat.land (Nat.lor (bitsOf p board) (bitsOf (other p) board)) (2 ^ i) = 0 := by
      rw [land_two_pow_eq_zero, hor, hc]
      simp [Ne.symm hp0, Ne.symm hq0]
    rw [hz]
    rfl
  · rw [decide_eq_false hc, Bool.eq_false_iff]
    intro hb
    have hz := (land_two_pow_eq_zero _ _).mp (Nat.eq_of_beq_eq_true hb)
    rw [hor] at hz
    rcases hv.cell_marks hp i with h | h | h
    · exact hc h
    · simp [h] at hz
    · simp [h] at hz

theorem maxLoopCode_eq_foldr (occ : Nat) (child : Nat → Nat → Nat → Nat) (alpha beta : Nat) :
    maxLoopCode occ child alpha beta =
      cells.foldr (fun i cont => maxStepCode occ child beta (2 ^ i) cont) (fun m _ => m)
        0 alpha := rfl

theorem minLoopCode_eq_foldr (occ : Nat) (child : Nat → Nat → Nat → Nat) (alpha beta : Nat) :
    minLoopCode occ child alpha beta =
      cells.foldr (fun i cont => minStepCode occ child alpha (2 ^ i) cont) (fun m _ => m)
        22 beta := rfl

theorem maxStepCode_eq (occ : Nat) (child : Nat → Nat → Nat → Nat) (beta bit : Nat)
    (cont : Nat → Nat → Nat) (m alpha : Nat) :
    maxStepCode occ child beta bit cont m alpha =
      cond (Nat.beq (Nat.land occ bit) 0)
        (cond (Nat.ble beta (codeMax alpha (child bit alpha beta)))
          (codeMax m (child bit alpha beta))
          (cont (codeMax m (child bit alpha beta)) (codeMax alpha (child bit alpha beta))))
        (cont m alpha) := by
  simp only [maxStepCode, force_eq]

theorem minStepCode_eq (occ : Nat) (child : Nat → Nat → Nat → Nat) (alpha bit : Nat)
    (cont : Nat → Nat → Nat) (m beta : Nat) :
    minStepCode occ child alpha bit cont m beta =
      cond (Nat.beq (Nat.land occ bit) 0)
        (cond (Nat.ble (codeMin beta (child bit alpha beta)) alpha)
          (codeMin m (child bit alpha beta))
          (cont (codeMin m (child bit alpha beta)) (codeMin beta (child bit alpha beta))))
        (cont m beta) := by
  simp only [minStepCode, force_eq]

/-- The maximising loop and its code compute the same score. -/
theorem maxLoop_code {recur : Board → Score → Score → Option (Score × Board)}
    {child : Nat → Nat → Nat → Nat} {mark : Int} {board : Board} {occ beta : Nat}
    (hocc : ∀ i, i < 9 → Nat.beq (Nat.land occ (2 ^ i)) 0 = decide (cell board i = 0))
    (hbeta : beta ≤ 22)
    (hchild : ∀ i, i < 9 → cell board i = 0 → ∀ al, al ≤ 22 →
      recur (board.set i mark) (Score.ofCode al) (Score.ofCode beta) =
          some (Score.ofCode (child (2 ^ i) al beta), board.set i mark) ∧
        child (2 ^ i) al beta ≤ 22)
    (l : List Nat) (hl : ∀ i ∈ l, i < 9) (m alpha : Nat) (hm : m ≤ 22) (halpha : alpha ≤ 22) :
    maxLoop recur mark l board (Score.ofCode m) (Score.ofCode alpha) (Score.ofCode beta) =
        some (Score.ofCode
          (l.foldr (fun i cont => maxStepCode occ child beta (2 ^ i) cont) (fun m _ => m)
            m alpha), board) ∧
      l.foldr (fun i cont => maxStepCode occ child beta (2 ^ i) cont) (fun m _ => m)
        m alpha ≤ 22 := by
  induction l generalizing m alpha with
  | nil => exact ⟨rfl, hm⟩
  | cons i rest ih =>
    have hi : i < 9 := hl i (List.mem_cons_self _ _)
    have ih1 := ih (fun j hj => hl j (List.mem_cons_of_mem _ hj))
    rw [List.foldr_cons, maxStepCode_eq, hocc i hi]
    by_cases hc : cell board i = 0
    · obtain ⟨hr, hle⟩ := hchild i hi hc alpha halpha
      rw [decide_eq_true hc, maxLoop_visit hc hr, set_set_restore mark hc,
        Score.max_ofCode hm hle, Score.max_ofCode halpha hle,
        Score.le_ofCode hbeta (codeMax_le halpha hle)]
      simp only [cond_true]
      cases hb : Nat.ble beta (codeMax alpha (child (2 ^ i) alpha beta)) with
      | true => exact ⟨by simp, codeMax_le hm hle⟩
      | false =>
        simp only [Bool.false_eq_true, if_false, cond_false]
        exact ih1 _ _ (codeMax_le hm hle) (codeMax_le halpha hle)
    · rw [decide_eq_false hc, maxLoop_skip hc]
      simp only [cond_false]
      exact ih1 m alpha hm halpha

/-- The minimising loop and its code compute the same score. -/
theorem minLoop_code {recur : Board → Score → Score → Option (Score × Board)}
    {child : Nat → Nat → Nat → Nat} {mark : Int} {board : Board} {occ alpha : Nat}
    (hocc : ∀ i, i < 9 → Nat.beq (Nat.land occ (2 ^ i)) 0 = decide (cell board i = 0))
    (halpha : alpha ≤ 22)
    (hchild : ∀ i, i < 9 → cell board i = 0 → ∀ be, be ≤ 22 →
      recur (board.set i mark) (Score.ofCode alpha) (Score.ofCode be) =
          some (Score.ofCode (child (2 ^ i) alpha be), board.set i mark) ∧
        child (2 ^ i) alpha be ≤ 22)
    (l : List Nat) (hl : ∀ i ∈ l, i < 9) (m beta : Nat) (hm : m ≤ 22) (hbeta : beta ≤ 22) :
    minLoop recur mark l board (Score.ofCode m) (Score.ofCode alpha) (Score.ofCode beta) =
        some (Score.ofCode
          (l.foldr (fun i cont => minStepCode occ child alpha (2 ^ i) cont) (fun m _ => m)
            m beta), board) ∧
      l.foldr (fun i cont => minStepCode occ child alpha (2 ^ i) cont) (fun m _ => m)
        m beta ≤ 22 := by
  induction l generalizing m beta with
  | nil => exact ⟨rfl, hm⟩
  | cons i rest ih =>
    have hi : i < 9 := hl i (List.mem_cons_self _ _)
    have ih1 := ih (fun j hj => hl j (List.mem_cons_of_mem _ hj))
    rw [List.foldr_cons, minStepCode_eq, hocc i hi]
    by_cases hc : cell board i = 0
    · obtain ⟨hr, hle⟩ := hchild i hi hc beta hbeta
      rw [decide_eq_true hc, minLoop_visit hc hr, set_set_restore mark hc,
        Score.min_ofCode hm hle, Score.min_ofCode hbeta hle,
        Score.le_ofCode (codeMin_le hbeta hle) halpha]
      simp only [cond_true]
      cases hb : Nat.ble (codeMin beta (child (2 ^ i) alpha beta)) alpha with
      | true => exact ⟨by simp, codeMin_le hm hle⟩
      | false =>
        simp only [Bool.false_eq_true, if_false, cond_false]
        exact ih1 _ _ (codeMin_le hm hle) (codeMin_le hbeta hle)
    · rw [decide_eq_false hc, minLoop_skip hc]
      simp only [cond_false]
      exact ih1 m beta hm hbeta

theorem minimaxFuel_succ_none (fuel : Nat) (board : Board) (depth : Int) (isMax : Bool)
    (player opponent : Int) (alpha beta : Score) (h : checkWinner board = none) :
    minimaxFuel (fuel + 1) board depth isMax player opponent alpha beta =
      if isMax then
        maxLoop (fun b al be => minimaxFuel fuel b (depth + 1) false player opponent al be)
          player cells board Score.negInf alpha beta
      else
        minLoop (fun b al be => minimaxFuel fuel b (depth + 1) true player opponent al be)
          opponent cells board Score.posInf alpha beta := by
  rw [minimaxFuel, h]

theorem minimaxCode_succ (fuel mine theirs depth : Nat) (isMax : Bool) (alpha beta : Nat) :
    minimaxCode (fuel + 1) mine theirs depth isMax alpha beta =
      cond (Nat.beq (winnerCode mine theirs) 0)
        (cond isMax
          (maxLoopCode (Nat.lor mine theirs)
            (fun bit al be => minimaxCode fuel (mine + bit) theirs (depth + 1) false al be)
            alpha beta)
          (minLoopCode (Nat.lor mine theirs)
            (fun bit al be => minimaxCode fuel mine (theirs + bit) (depth + 1) true al be)
            alpha beta))
        (cond (Nat.beq (winnerCode mine theirs) 1) (21 - depth)
          (cond (Nat.beq (winnerCode mine theirs) 2) (depth + 1) 11)) := by
  simp only [minimaxCode, force_eq]

/-- The search and its code compute the same score: with enough fuel on both sides, on
a board over {0,1,2}, at a depth that keeps the scores between `-10` and `10`,
`minimax` returns the score `minimaxCode` stands for and restores the board. -/
theorem minimaxFuel_eq_code (fuel : Nat) :
    ∀ (fuel1 : Nat) (board : Board) (p : Int) (d : Nat) (isMax : Bool) (al be : Nat),
      Valid board → (p = 1 ∨ p = 2) → emptyCount board < fuel → emptyCount board < fuel1 →
      d + emptyCount board ≤ 10 → al ≤ 22 → be ≤ 22 →
      minimaxFuel fuel board (d : Int) isMax p (other p) (Score.ofCode al) (Score.ofCode be) =
          some (Score.ofCode
            (minimaxCode fuel1 (bitsOf p board) (bitsOf (other p) board) d isMax al be), board) ∧
        minimaxCode fuel1 (bitsOf p board) (bitsOf (other p) board) d isMax al be ≤ 22 := by
  induction fuel with
  | zero => intro fuel1 board p d isMax al be _ _ hf; omega
  | succ fuel ih =>
    intro fuel1 board p d isMax al be hv hp hf hf1 hd hal hbe
    obtain ⟨fuel2, rfl⟩ : ∃ n, fuel1 = n + 1 := ⟨fuel1 - 1, by omega⟩
    obtain ⟨hp0, hq0, hpq, hq, _⟩ := marks_cases hp
    rw [minimaxCode_succ]
    rcases checkWinner_code hv hp with ⟨hw, hc⟩ | ⟨hw, hc⟩ | ⟨hw, hc⟩ | ⟨hw, hc⟩
    · rw [minimaxFuel_succ_none _ _ _ _ _ _ _ _ hw, hc]
      simp only [Nat.beq_refl, cond_true]
      have hocc := fun i (hi : i < 9) => @testBit_occupied board p hv hp i hi
      cases isMax with
      | true =>
        simp only [if_true, cond_true]
        rw [maxLoopCode_eq_foldr]
        refine maxLoop_code hocc hbe ?_ cells (fun i hi => mem_cells.mp hi) 0 al
          (by omega) hal
        intro i hi hiz al1 hal1
        have hilt : i < board.length := by rw [hv.1]; exact hi
        have hcount := emptyCount_set hilt hiz hp0
        have h1 := ih fuel2 (board.set i p) p (d + 1) false al1 be (hv.set i (Or.inr hp)) hp
          (by omega) (by omega) (by omega) hal1 hbe
        rw [bitsOf_set_self hilt (by rw [hiz]; exact Ne.symm hp0),
          bitsOf_set_other (Ne.symm hpq) (by rw [hiz]; exact Ne.symm hq0)] at h1
        have hcast : ((d + 1 : Nat) : Int) = (d : Int) + 1 := by push_cast; rfl
        rw [hcast] at h1
        exact h1
      | false =>
        simp only [Bool.false_eq_true, if_false, cond_false]
        rw [minLoopCode_eq_foldr]
        refine minLoop_code hocc hal ?_ cells (fun i hi => mem_cells.mp hi) 22 be
          (by omega) hbe
        intro i hi hiz be1 hbe1
        have hilt : i < board.length := by rw [hv.1]; exact hi
        have hcount := emptyCount_set hilt hiz hq0
        have h1 := ih fuel2 (board.set i (other p)) p (d + 1) true al be1
          (hv.set i (Or.inr hq)) hp (by omega) (by omega) (by omega) hal hbe1
        rw [bitsOf_set_self hilt (by rw [hiz]; exact Ne.symm hq0),
          bitsOf_set_other hpq (by rw [hiz]; exact Ne.symm hp0)] at h1
        have hcast : ((d + 1 : Nat) : Int) = (d : Int) + 1 := by push_cast; rfl
        rw [hcast] at h1
        exact h1
    · rw [minimaxFuel_terminal _ _ _ _ _ _ _ _ hw, hc, if_pos rfl]
      have h21 : Score.ofCode (21 - d) = Score.fin (10 - (d : Int)) := by
        rw [Score.ofCode_fin (by omega) (by omega)]
        congr 1
        omega
      simp only [show Nat.beq 1 0 = false from rfl, show Nat.beq 1 1 = true from rfl,
        cond_false, cond_true, h21, true_and]
      omega
    · rw [minimaxFuel_terminal _ _ _ _ _ _ _ _ hw, hc, if_neg (Ne.symm hpq), if_pos rfl]
      have h21 : Score.ofCode (d + 1) = Score.fin ((d : Int) - 10) := by
        rw [Score.ofCode_fin (by omega) (by omega)]
        congr 1
        omega
      simp only [show Nat.beq 2 0 = false from rfl, show Nat.beq 2 1 = false from rfl,
        show Nat.beq 2 2 = true from rfl, cond_false, cond_true, h21, true_and]
      omega
    · rw [minimaxFuel_terminal _ _ _ _ _ _ _ _ hw, hc, if_neg (Ne.symm hp0),
        if_neg (Ne.symm hq0)]
      simp only [show Nat.beq 3 0 = false from rfl, show Nat.beq 3 1 = false from rfl,
        show Nat.beq 3 2 = false from rfl, cond_false]
      exact ⟨rfl, by omega⟩

/-! ## The move selector on bit boards -/

theorem bestStepCode_eq (occ : Nat) (child : Nat → Nat) (i : Nat) (cont : Nat → Nat → Nat)
    (move bestScore : Nat) :
    bestStepCode occ child i cont move bestScore =
      cond (Nat.beq (Nat.land occ (2 ^ i)) 0)
        (cond (Nat.blt bestScore (child (2 ^ i))) (cont (i + 1) (child (2 ^ i)))
          (cont move bestScore))
        (cont move bestScore) := by
  simp only [bestStepCode, force_eq]
  rfl

theorem bestMoveCode_eq_foldr (mine theirs : Nat) :
    bestMoveCode mine theirs =
      cells.foldr
        (fun i cont => bestStepCode (Nat.lor mine theirs)
          (fun bit => minimaxCode 10 (mine + bit) theirs 0 false 0 22) i cont)
        (fun mv _ => mv) 0 0 := by
  simp only [bestMoveCode, force_eq]
  rfl

/-- The loop of `bestMove` and its code choose the same cell. -/
theorem bestLoop_code {board : Board} {p : Int} (hv : Valid board) (hp : p = 1 ∨ p = 2)
    (l : List Nat) (hl : ∀ i ∈ l, i < 9) (mv bs : Nat) (hbs : bs ≤ 22) :
    bestLoop p (other p) l board ((mv : Int) - 1) (Score.ofCode bs) =
      some (((l.foldr
        (fun i cont => bestStepCode (Nat.lor (bitsOf p board) (bitsOf (other p) board))
          (fun bit => minimaxCode 10 (bitsOf p board + bit) (bitsOf (other p) board)
            0 false 0 22) i cont)
        (fun mv _ => mv) mv bs : Nat) : Int) - 1, board) := by
  obtain ⟨hp0, hq0, hpq, hq, _⟩ := marks_cases hp
  induction l generalizing mv bs with
  | nil => rfl
  | cons i rest ih =>
    have hi : i < 9 := hl i (List.mem_cons_self _ _)
    have ih1 := ih (fun j hj => hl j (List.mem_cons_of_mem _ hj))
    rw [List.foldr_cons, bestStepCode_eq, testBit_occupied hv hp hi]
    by_cases hc : cell board i = 0
    · have hilt : i < board.length := by rw [hv.1]; exact hi
      have hcount := emptyCount_set hilt hc hp0
      have hk := emptyCount_le_length board
      rw [hv.1] at hk
      have h1 := minimaxFuel_eq_code (2 * emptyCount (board.set i p) + 1) 10 (board.set i p)
        p 0 false 0 22 (hv.set i (Or.inr hp)) hp (by omega) (by omega) (by omega)
        (by omega) (by omega)
      rw [bitsOf_set_self hilt (by rw [hc]; exact Ne.symm hp0),
        bitsOf_set_other (Ne.symm hpq) (by rw [hc]; exact Ne.symm hq0)] at h1
      obtain ⟨hr, hle⟩ := h1
      have hr1 : minimax (board.set i p) 0 false p (other p) Score.negInf Score.posInf =
          some (Score.ofCode (minimaxCode 10 (bitsOf p board + 2 ^ i) (bitsOf (other p) board)
            0 false 0 22), board.set i p) := hr
      rw [decide_eq_true hc, bestLoop_visit hc hr1, set_set_restore p hc,
        Score.gt_ofCode hle hbs]
      simp only [cond_true]
      cases hb : Nat.blt bs (minimaxCode 10 (bitsOf p board + 2 ^ i) (bitsOf (other p) board)
          0 false 0 22) with
      | true =>
        simp only [if_true, cond_true]
        have hcast : (i : Int) = ((i + 1 : Nat) : Int) - 1 := by push_cast; omega
        rw [hcast]
        exact ih1 _ _ hle
      | false =>
        simp only [Bool.false_eq_true, if_false, cond_false]
        exact ih1 _ _ hbs
    · rw [decide_eq_false hc, bestLoop_skip hc]
      simp only [cond_false]
      exact ih1 _ _ hbs

/-- The move selector and its code choose the same cell: `bestMove` returns the cell
`bestMoveCode - 1` (the code 0 being `-1`) and restores the board. -/
theorem bestMove_eq_code {board : Board} {p : Int} (hv : Valid board) (hp : p = 1 ∨ p = 2) :
    bestMove board p =
      some (((bestMoveCode (bitsOf p board) (bitsOf (other p) board) : Nat) : Int) - 1,
        board) := by
  rw [bestMoveCode_eq_foldr]
  exact bestLoop_code hv hp cells (fun i hi => mem_cells.mp hi) 0 0 (by omega)

/-! ## Whole games -/

theorem neverLosesCode_succ (fuel mine theirs : Nat) (myTurn : Bool) :
    neverLosesCode (fuel + 1) mine theirs myTurn =
      cond (Nat.beq (winnerCode mine theirs) 0)
        (cond myTurn
          (cond (Nat.beq (bestMoveCode mine theirs) 0) false
            (neverLosesCode fuel (mine + 2 ^ (bestMoveCode mine theirs - 1)) theirs false))
          (cells.foldr
            (fun i rest => replyStepCode (Nat.lor mine theirs)
              (fun bit => neverLosesCode fuel mine (theirs + bit) true) (2 ^ i) rest) true))
        (cond (Nat.beq (winnerCode mine theirs) 2) false true) := by
  simp only [neverLosesCode, force_eq]
  rfl

theorem replies_code {board : Board} {occ : Nat} {child : Nat → Bool}
    (hocc : ∀ i, i < 9 → Nat.beq (Nat.land occ (2 ^ i)) 0 = decide (cell board i = 0))
    (l : List Nat) (hl : ∀ i ∈ l, i < 9)
    (h : l.foldr (fun i rest => replyStepCode occ child (2 ^ i) rest) true = true) :
    ∀ i ∈ l, cell board i = 0 → child (2 ^ i) = true := by
  induction l with
  | nil => intro i hi; simp at hi
  | cons j rest ih =>
    have hj : j < 9 := hl j (List.mem_cons_self _ _)
    rw [List.foldr_cons] at h
    unfold replyStepCode at h
    rw [hocc j hj] at h
    intro i hi hiz
    by_cases hc : cell board j = 0
    · rw [decide_eq_true hc] at h
      simp only [cond_true] at h
      cases hch : child (2 ^ j) with
      | false => rw [hch] at h; simp at h
      | true =>
        rw [hch] at h
        simp only [cond_true] at h
        rcases List.mem_cons.mp hi with rfl | hir
        · exact hch
        · exact ih (fun k hk => hl k (List.mem_cons_of_mem _ hk)) h i hir hiz
    · rw [decide_eq_false hc] at h
      simp only [cond_false] at h
      rcases List.mem_cons.mp hi with rfl | hir
      · exact absurd hiz hc
      · exact ih (fun k hk => hl k (List.mem_cons_of_mem _ hk)) h i hir hiz

theorem playAgainst_done {p : Int} {reply : Board → Nat} (fuel : Nat) {board : Board}
    (turn : Int) {r : Int} (h : checkWinner board = some r) :
    playAgainst p reply (fuel + 1) board turn = some board := by
  rw [playAgainst, h]

theorem playAgainst_mine {p : Int} {reply : Board → Nat} (fuel : Nat) {board : Board}
    {m : Nat} (h : checkWinner board = none) (hm : bestMove board p = some ((m : Int), board)) :
    playAgainst p reply (fuel + 1) board p =
      playAgainst p reply fuel (board.set m p) (other p) := by
  rw [playAgainst, h]
  simp only [if_true, hm]
  rw [if_pos (Int.ofNat_nonneg m)]
  rfl

theorem playAgainst_reply {p : Int} {reply : Board → Nat} (fuel : Nat) {board : Board}
    {turn : Int} (h : checkWinner board = none) (ht : turn ≠ p) :
    playAgainst p reply (fuel + 1) board turn =
      playAgainst p reply fuel (board.set (reply board) turn) (other turn) := by
  rw [playAgainst, h]
  simp only [if_neg ht]

/-- When the code accepts a position, every game from it in which `p` plays `bestMove`
and the other side any empty cell ends, and ends on a win of `p` or a draw. -/
theorem playAgainst_of_code {p : Int} (hp : p = 1 ∨ p = 2) {reply : Board → Nat}
    (hreply : LegalReply reply) (fuel : Nat) :
    ∀ (board : Board) (turn : Int), Valid board → (turn = p ∨ turn = other p) →
      neverLosesCode fuel (bitsOf p board) (bitsOf (other p) board) (decide (turn = p)) = true →
      ∃ final, playAgainst p reply fuel board turn = some final ∧
        (checkWinner final = some p ∨ checkWinner final = some 0) := by
  obtain ⟨hp0, hq0, hpq, hq, hoo⟩ := marks_cases hp
  induction fuel with
  | zero => intro board turn _ _ h; simp [neverLosesCode] at h
  | succ fuel ih =>
    intro board turn hv ht h
    rw [neverLosesCode_succ] at h
    rcases checkWinner_code hv hp with ⟨hw, hc⟩ | ⟨hw, hc⟩ | ⟨hw, hc⟩ | ⟨hw, hc⟩
    · rw [hc] at h
      simp only [Nat.beq_refl, cond_true] at h
      have hz : (0 : Int) ∈ board := (checkWinner_eq_none.mp hw).2
      rcases ht with rfl | rfl
      · rw [decide_eq_true rfl] at h
        simp only [cond_true] at h
        obtain ⟨m, hm9, hm, hmz, _⟩ := (bestMove_spec hv.1 hp0).2 hz
        have hcode := bestMove_eq_code hv hp
        rw [hm] at hcode
        simp only [Option.some.injEq, Prod.mk.injEq, and_true] at hcode
        have hmv : bestMoveCode (bitsOf turn board) (bitsOf (other turn) board) = m + 1 := by
          omega
        rw [hmv] at h
        simp only [show Nat.beq (m + 1) 0 = false from rfl, cond_false,
          Nat.add_sub_cancel] at h
        have hmlt : m < board.length := by rw [hv.1]; exact hm9
        rw [playAgainst_mine fuel hw hm]
        refine ih (board.set m turn) (other turn) (hv.set m (Or.inr hp)) (Or.inr rfl) ?_
        rw [bitsOf_set_self hmlt (by rw [hmz]; exact Ne.symm hp0),
          bitsOf_set_other (Ne.symm hpq) (by rw [hmz]; exact Ne.symm hq0),
          decide_eq_false (Ne.symm hpq)]
        exact h
      · rw [decide_eq_false (Ne.symm hpq)] at h
        simp only [cond_false] at h
        obtain ⟨hr9, hrz⟩ := hreply board hv hw
        have hrlt : reply board < board.length := by rw [hv.1]; exact hr9
        have hchild := replies_code (fun i hi => @testBit_occupied board p hv hp i hi) cells
          (fun i hi => mem_cells.mp hi) h (reply board) (mem_cells.mpr hr9) hrz
        rw [playAgainst_reply fuel hw (Ne.symm hpq)]
        refine ih (board.set (reply board) (other p)) (other (other p))
          (hv.set _ (Or.inr hq)) (Or.inl hoo) ?_
        rw [bitsOf_set_self hrlt (by rw [hrz]; exact Ne.symm hq0),
          bitsOf_set_other hpq (by rw [hrz]; exact Ne.symm hp0), decide_eq_true hoo]
        exact hchild
    · exact ⟨board, playAgainst_done fuel turn hw, Or.inl hw⟩
    · rw [hc] at h
      simp [show Nat.beq 2 0 = false from rfl, show Nat.beq 2 2 = true from rfl] at h
    · exact ⟨board, playAgainst_done fuel turn hw, Or.inr hw⟩

theorem legalReply_firstEmpty : LegalReply firstEmpty := by
  intro board hv hw
  have hz : (0 : Int) ∈ board := (checkWinner_eq_none.mp hw).2
  have hlt : board.indexOf 0 < board.length := List.indexOf_lt_length.mpr hz
  refine ⟨by rw [← hv.1]; exact hlt, ?_⟩
  unfold firstEmpty
  rw [cell_of_lt hlt]
  exact List.getElem_indexOf hlt

theorem legalReply_bestCell {q : Int} (hq : q = 1 ∨ q = 2) : LegalReply (bestCell q) := by
  intro board hv hw
  have hq0 : q ≠ 0 := (marks_cases hq).1
  obtain ⟨m, hm9, hm, hmz, _⟩ := (bestMove_spec hv.1 hq0).2 (checkWinner_eq_none.mp hw).2
  have hcell : bestCell q board = m := by
    unfold bestCell
    rw [hm]
    simp
  rw [hcell]
  exact ⟨hm9, hmz⟩

/-- A game against a side that replies with `bestMove` is the game of `selfPlay`. -/
theorem playAgainst_bestCell {p : Int} (hp : p = 1 ∨ p = 2) (fuel : Nat) :
    ∀ (board : Board) (turn : Int), Valid board → (turn = p ∨ turn = other p) →
      playAgainst p (bestCell (other p)) fuel board turn = selfPlay fuel board turn := by
  obtain ⟨hp0, hq0, hpq, hq, hoo⟩ := marks_cases hp
  induction fuel with
  | zero => intro board turn _ _; rfl
  | succ fuel ih =>
    intro board turn hv ht
    cases hw : checkWinner board with
    | some r => rw [playAgainst_done fuel turn hw, selfPlay, hw]
    | none =>
      have hz : (0 : Int) ∈ board := (checkWinner_eq_none.mp hw).2
      rcases ht with rfl | rfl
      · obtain ⟨m, hm9, hm, hmz, _⟩ := (bestMove_spec hv.1 hp0).2 hz
        rw [playAgainst_mine fuel hw hm, selfPlay, hw]
        simp only [hm]
        rw [if_pos (Int.ofNat_nonneg m)]
        exact ih _ _ (hv.set m (Or.inr hp)) (Or.inr rfl)
      · obtain ⟨m, hm9, hm, hmz, _⟩ := (bestMove_spec hv.1 hq0).2 hz
        have hcell : bestCell (other p) board = m := by
          unfold bestCell
          rw [hm]
          simp
        rw [playAgainst_reply fuel hw (Ne.symm hpq), selfPlay, hw, hcell]
        simp only [hm]
        rw [if_pos (Int.ofNat_nonneg m)]
        exact ih _ _ (hv.set m (Or.inr hq)) (Or.inl hoo)

/-! ## The two games from the empty board, by computation -/

theorem bitsOf_emptyBoard (v : Int) (hv : v ≠ 0) : bitsOf v emptyBoard = 0 := by
  have h : (0 : Int) ≠ v := Ne.symm hv
  simp [emptyBoard, bitsOf, h]

theorem valid_emptyBoard : Valid emptyBoard := by
  unfold emptyBoard
  decide

/-- Player 1 opening and playing `bestMove` never loses: the code accepts the empty
board with the side of `mine` to move. -/
theorem neverLosesCode_first : neverLosesCode 10 0 0 true = true := by
  decide!

/-- Player 2 playing `bestMove` against an opening player 1 never loses: the code
accepts the empty board with the other side to move. -/
theorem neverLosesCode_second : neverLosesCode 10 0 0 false = true := by
  decide!

theorem playAgainst_emptyBoard {p : Int} (hp : p = 1 ∨ p = 2) {reply : Board → Nat}
    (hreply : LegalReply reply) :
    ∃ final, playAgainst p reply 10 emptyBoard 1 = some final ∧
      (checkWinner final = some p ∨ checkWinner final = some 0) := by
  obtain ⟨hp0, hq0, _, _, _⟩ := marks_cases hp
  have hturn : (1 : Int) = p ∨ (1 : Int) = other p := by
    rcases hp with rfl | rfl
    · exact Or.inl rfl
    · exact Or.inr rfl
  refine playAgainst_of_code hp hreply 10 emptyBoard 1 valid_emptyBoard hturn ?_
  rw [bitsOf_emptyBoard p hp0, bitsOf_emptyBoard (other p) hq0]
  rcases hp with rfl | rfl
  · exact neverLosesCode_first
  · exact neverLosesCode_second

/-! ## Counting marks -/

theorem detectPlayer_eq (board : Board) :
    detectPlayer board = if board.count 1 ≤ board.count 2 then 1 else 2 := by
  unfold detectPlayer
  simp only [List.count, List.countP_eq_length_filter]

theorem count_cons_eq (v c : Int) (rest : Board) :
    (c :: rest).count v = rest.count v + (if c = v then 1 else 0) := by
  rw [List.count_cons]
  by_cases h : c = v
  · simp [h]
  · simp [h]

/-- Writing `v` into a cell that does not hold `v` adds one to the count of `v`. -/
theorem count_set_self {v : Int} {board : Board} {i : Nat} (hi : i < board.length)
    (h : cell board i ≠ v) : (board.set i v).count v = board.count v + 1 := by
  induction board generalizing i with
  | nil => simp at hi
  | cons c rest ih =>
    cases i with
    | zero =>
      have hc : c ≠ v := h
      rw [List.set_cons_zero, count_cons_eq, count_cons_eq, if_pos rfl, if_neg hc]
    | succ j =>
      have hj : j < rest.length := by simpa using hi
      have hc : cell rest j ≠ v := h
      rw [List.set_cons_succ, count_cons_eq, count_cons_eq, ih hj hc]
      omega

/-- Writing `v` into a cell that does not hold `u` leaves the count of `u` as it is. -/
theorem count_set_other {u v : Int} {board : Board} {i : Nat} (huv : u ≠ v)
    (h : cell board i ≠ u) : (board.set i v).count u = board.count u := by
  induction board generalizing i with
  | nil => rfl
  | cons c rest ih =>
    cases i with
    | zero =>
      have hc : c ≠ u := h
      rw [List.set_cons_zero, count_cons_eq, count_cons_eq, if_neg hc, if_neg (Ne.symm huv)]
    | succ j =>
      have hc : cell rest j ≠ u := h
      rw [List.set_cons_succ, count_cons_eq, count_cons_eq, ih hc]

theorem detectPlayer_cases (board : Board) : detectPlayer board = 1 ∨ detectPlayer board = 2 := by
  rw [detectPlayer_eq]
  by_cases h : board.count 1 ≤ board.count 2
  · exact Or.inl (if_pos h)
  · exact Or.inr (if_neg h)

/-! ## The first won line -/

theorem firstLine_append {board : Board} (pre post : List (Nat × Nat × Nat))
    (l : Nat × Nat × Nat) (hpre : ∀ k ∈ pre, ¬ wonLine board k) (hl : wonLine board l) :
    firstLine board (pre ++ l :: post) = some (cell board l.1) := by
  induction pre with
  | nil =>
    obtain ⟨a, b, c⟩ := l
    have hl1 : cell board a ≠ 0 ∧ cell board a = cell board b ∧
        cell board a = cell board c := hl
    rw [List.nil_append]
    unfold firstLine
    rw [if_pos hl1]
  | cons k rest ih =>
    obtain ⟨a, b, c⟩ := k
    have hk : ¬ (cell board a ≠ 0 ∧ cell board a = cell board b ∧ cell board a = cell board c) :=
      hpre (a, b, c) (List.mem_cons_self _ _)
    rw [List.cons_append]
    conv_lhs => unfold firstLine
    rw [if_neg hk]
    exact ih (fun k hk => hpre k (List.mem_cons_of_mem _ hk))

/-! ## The `/move` requests -/

theorem validateBoard_ok {raw : RawBoard} {board : Board}
    (h : validateBoard raw = Except.ok board) :
    board.length = 9 ∧ raw = rawOf board := by
  unfold validateBoard at h
  cases raw with
  | none => simp at h
  | some cs =>
    simp only at h
    by_cases hc : cs.length ≠ 9 ∨ cs.any (fun c => c.isNone) = true
    · rw [if_pos hc] at h
      simp at h
    · rw [if_neg hc] at h
      have hb : cs.map (fun c => c.getD 0) = board := by
        injection h
      push_neg at hc
      obtain ⟨hlen, hany⟩ := hc
      have hall : ∀ c ∈ cs, some (c.getD 0) = c := by
        intro c hcm
        cases c with
        | some v => rfl
        | none =>
          exfalso
          apply hany
          rw [List.any_eq_true]
          exact ⟨none, hcm, rfl⟩
      refine ⟨by rw [← hb, List.length_map]; exact hlen, ?_⟩
      unfold rawOf
      rw [← hb, List.map_map]
      congr 1
      symm
      have hid : ∀ l : List RawCell, (∀ c ∈ l, some (c.getD 0) = c) →
          List.map (some ∘ fun c => Option.getD c 0) l = l := by
        intro l
        induction l with
        | nil => intro _; rfl
        | cons c rest ih =>
          intro hl
          rw [List.map_cons, ih (fun d hd => hl d (List.mem_cons_of_mem _ hd))]
          exact congrArg (fun x => x :: rest) (hl c (List.mem_cons_self _ _))
      exact hid cs hall

theorem validateBoard_rawOf {board : Board} (hlen : board.length = 9) :
    validateBoard (rawOf board) = Except.ok board := by
  unfold validateBoard rawOf
  have hany : ¬ ((board.map some).length ≠ 9 ∨
      (board.map some).any (fun c => c.isNone) = true) := by
    rw [List.length_map]
    push_neg
    refine ⟨hlen, ?_⟩
    intro hc
    rw [List.any_eq_true] at hc
    obtain ⟨c, hc, hn⟩ := hc
    obtain ⟨v, _, rfl⟩ := List.mem_map.mp hc
    simp at hn
  simp only
  rw [if_neg hany, List.map_map]
  congr 1
  exact List.map_id board

theorem detectPlayer_ne_zero (board : Board) : detectPlayer board ≠ 0 := by
  rcases detectPlayer_cases board with h | h <;> rw [h] <;> decide

/-- The answer of the handlers on a board of 9 cells: `-1` and the board as it is when
no cell is empty, and otherwise an empty cell and the board with the mark of
`detectPlayer(board)` there. -/
theorem moveHandler_spec {board : Board} (hlen : board.length = 9) :
    ((0 : Int) ∉ board → moveHandler board = some (-1, board)) ∧
    ((0 : Int) ∈ board → ∃ m : Nat, m < 9 ∧ cell board m = 0 ∧
      moveHandler board = some ((m : Int), board.set m (detectPlayer board))) := by
  have hspec := @bestMove_spec board (detectPlayer board) hlen (detectPlayer_ne_zero board)
  constructor
  · intro hz
    unfold moveHandler
    simp only [hspec.1 hz]
    rfl
  · intro hz
    obtain ⟨m, hm9, hm, hmz, _⟩ := hspec.2 hz
    refine ⟨m, hm9, hmz, ?_⟩
    unfold moveHandler
    simp only [hm]
    unfold writeCell
    rw [if_pos (Int.ofNat_nonneg m)]
    rfl

theorem getMove_ok {raw : RawBoard} {board : Board} (h : validateBoard raw = Except.ok board) :
    getMove raw = (moveHandler board).map (fun r => Response.move r.1 r.2) := by
  unfold getMove
  rw [h]

theorem postMove_ok {raw : RawBoard} {board : Board} (h : validateBoard raw = Except.ok board) :
    postMove raw = (moveHandler board).map (fun r => Response.move r.1 r.2) := by
  unfold postMove
  rw [h]

/-- The code of the move `bestMove` chooses on the empty board is 1, the cell 0. -/
theorem bestMoveCode_emptyBoard : bestMoveCode 0 0 = 1 := by
  decide!

/-! ## Pruning does not change the value -/

theorem Score.le_iff (x y : Score) : Score.le x y = true ↔ x ≤ y := Iff.rfl

theorem Score.max_eq (x y : Score) : Score.max x y = max x y := rfl

theorem Score.min_eq (x y : Score) : Score.min x y = min x y := rfl

theorem Score.negInf_le (x : Score) : Score.negInf ≤ x := by
  show Score.le Score.negInf x = true
  cases x <;> rfl

theorem Score.le_posInf (x : Score) : x ≤ Score.posInf := by
  show Score.le x Score.posInf = true
  cases x <;> rfl

theorem Score.negInf_lt_fin (v : Int) : Score.negInf < Score.fin v := by
  rw [lt_iff_not_le]
  show ¬ (Score.le (Score.fin v) Score.negInf = true)
  simp [Score.le]

theorem Score.fin_lt_posInf (v : Int) : Score.fin v < Score.posInf := by
  rw [lt_iff_not_le]
  show ¬ (Score.le Score.posInf (Score.fin v) = true)
  simp [Score.le]

theorem Score.negInf_lt_posInf : Score.negInf < Score.posInf := by
  rw [lt_iff_not_le]
  show ¬ (Score.le Score.posInf Score.negInf = true)
  simp [Score.le]

section PlainLoop

variable {recur : Board → Option Score} {pick : Score → Score → Score} {mark : Int}
  {i : Nat} {rest : List Nat} {board : Board} {acc e : Score}

theorem plainLoop_skip (h : cell board i ≠ 0) :
    plainLoop recur pick mark (i :: rest) board acc =
      plainLoop recur pick mark rest board acc := by
  conv_lhs => unfold plainLoop
  rw [if_neg h]

theorem plainLoop_visit (h : cell board i = 0) (hr : recur (board.set i mark) = some e) :
    plainLoop recur pick mark (i :: rest) board acc =
      plainLoop recur pick mark rest board (pick acc e) := by
  conv_lhs => unfold plainLoop
  rw [if_pos h, hr]

end PlainLoop

/-- The loop of the search without pruning returns, and with `Math.max` it returns a
score that is an integer as soon as a cell is empty and at least the starting score. -/
theorem plainLoop_max_spec {recur : Board → Option Score} {mark : Int} (board : Board)
    (l : List Nat)
    (hrec : ∀ i ∈ l, cell board i = 0 → ∃ v, recur (board.set i mark) = some (Score.fin v))
    (acc : Score) (hacc : acc = Score.negInf ∨ ∃ w, acc = Score.fin w) :
    ∃ r, plainLoop recur Score.max mark l board acc = some r ∧ acc ≤ r ∧
      (r = Score.negInf ∨ ∃ w, r = Score.fin w) ∧
      ((∃ i ∈ l, cell board i = 0) → r ≠ Score.negInf) := by
  induction l generalizing acc with
  | nil => exact ⟨acc, rfl, le_refl _, hacc, fun ⟨i, hi, _⟩ => by simp at hi⟩
  | cons i rest ih =>
    have hrest : ∀ j ∈ rest, cell board j = 0 →
        ∃ v, recur (board.set j mark) = some (Score.fin v) :=
      fun j hj => hrec j (List.mem_cons_of_mem _ hj)
    by_cases hc : cell board i = 0
    · obtain ⟨v, hv⟩ := hrec i (List.mem_cons_self _ _) hc
      obtain ⟨w, hw, _⟩ := @Score.max_inv (fun _ => True) acc v
        (hacc.imp id (fun ⟨w, h⟩ => ⟨w, h, trivial⟩)) trivial
      rw [plainLoop_visit hc hv]
      obtain ⟨r, hr, hle, hfin, _⟩ := ih hrest (Score.max acc (Score.fin v))
        (Or.inr ⟨w, hw⟩)
      refine ⟨r, hr, le_trans (le_max_left acc (Score.fin v)) hle, hfin, fun _ hneg => ?_⟩
      rw [hneg, hw] at hle
      exact absurd hle (not_le.mpr (Score.negInf_lt_fin w))
    · rw [plainLoop_skip hc]
      obtain ⟨r, hr, hle, hfin, hne⟩ := ih hrest acc hacc
      refine ⟨r, hr, hle, hfin, ?_⟩
      rintro ⟨j, hj, hj0⟩
      rcases List.mem_cons.mp hj with rfl | hj
      · exact absurd hj0 hc
      · exact hne ⟨j, hj, hj0⟩

/-- The loop of the search without pruning returns, and with `Math.min` it returns a
score that is an integer as soon as a cell is empty and at most the starting score. -/
theorem plainLoop_min_spec {recur : Board → Option Score} {mark : Int} (board : Board)
    (l : List Nat)
    (hrec : ∀ i ∈ l, cell board i = 0 → ∃ v, recur (board.set i mark) = some (Score.fin v))
    (acc : Score) (hacc : acc = Score.posInf ∨ ∃ w, acc = Score.fin w) :
    ∃ r, plainLoop recur Score.min mark l board acc = some r ∧ r ≤ acc ∧
      (r = Score.posInf ∨ ∃ w, r = Score.fin w) ∧
      ((∃ i ∈ l, cell board i = 0) → r ≠ Score.posInf) := by
  induction l generalizing acc with
  | nil => exact ⟨acc, rfl, le_refl _, hacc, fun ⟨i, hi, _⟩ => by simp at hi⟩
  | cons i rest ih =>
    have hrest : ∀ j ∈ rest, cell board j = 0 →
        ∃ v, recur (board.set j mark) = some (Score.fin v) :=
      fun j hj => hrec j (List.mem_cons_of_mem _ hj)
    by_cases hc : cell board i = 0
    · obtain ⟨v, hv⟩ := hrec i (List.mem_cons_self _ _) hc
      obtain ⟨w, hw, _⟩ := @Score.min_inv (fun _ => True) acc v
        (hacc.imp id (fun ⟨w, h⟩ => ⟨w, h, trivial⟩)) trivial
      rw [plainLoop_visit hc hv]
      obtain ⟨r, hr, hle, hfin, _⟩ := ih hrest (Score.min acc (Score.fin v))
        (Or.inr ⟨w, hw⟩)
      refine ⟨r, hr, le_trans hle (min_le_left acc (Score.fin v)), hfin, fun _ hpos => ?_⟩
      rw [hpos, hw] at hle
      exact absurd hle (not_le.mpr (Score.fin_lt_posInf w))
    · rw [plainLoop_skip hc]
      obtain ⟨r, hr, hle, hfin, hne⟩ := ih hrest acc hacc
      refine ⟨r, hr, hle, hfin, ?_⟩
      rintro ⟨j, hj, hj0⟩
      rcases List.mem_cons.mp hj with rfl | hj
      · exact absurd hj0 hc
      · exact hne ⟨j, hj, hj0⟩

theorem maxLoop_visit_order {recur : Board → Score → Score → Option (Score × Board)}
    {mark : Int} {i : Nat} {rest : List Nat} {board board1 : Board} {m alpha beta e : Score}
    (h : cell board i = 0) (hr : recur (board.set i mark) alpha beta = some (e, board1)) :
    maxLoop recur mark (i :: rest) board m alpha beta =
      if Score.le beta (max alpha e) = true then some (max m e, board1.set i 0)
      else maxLoop recur mark rest (board1.set i 0) (max m e) (max alpha e) beta :=
  maxLoop_visit h hr

theorem minLoop_visit_order {recur : Board → Score → Score → Option (Score × Board)}
    {mark : Int} {i : Nat} {rest : List Nat} {board board1 : Board} {m alpha beta e : Score}
    (h : cell board i = 0) (hr : recur (board.set i mark) alpha beta = some (e, board1)) :
    minLoop recur mark (i :: rest) board m alpha beta =
      if Score.le (min beta e) alpha = true then some (min m e, board1.set i 0)
      else minLoop recur mark rest (board1.set i 0) (min m e) alpha (min beta e) :=
  minLoop_visit h hr

theorem Score.fin_or_negInf_max {M : Score} (v : Int)
    (hM : M = Score.negInf ∨ ∃ w, M = Score.fin w) :
    max M (Score.fin v) = Score.negInf ∨ ∃ w, max M (Score.fin v) = Score.fin w := by
  obtain ⟨w, hw, _⟩ := @Score.max_inv (fun _ => True) M v
    (hM.imp id (fun ⟨w, h⟩ => ⟨w, h, trivial⟩)) trivial
  exact Or.inr ⟨w, hw⟩

theorem Score.fin_or_posInf_min {M : Score} (v : Int)
    (hM : M = Score.posInf ∨ ∃ w, M = Score.fin w) :
    min M (Score.fin v) = Score.posInf ∨ ∃ w, min M (Score.fin v) = Score.fin w := by
  obtain ⟨w, hw, _⟩ := @Score.min_inv (fun _ => True) M v
    (hM.imp id (fun ⟨w, h⟩ => ⟨w, h, trivial⟩)) trivial
  exact Or.inr ⟨w, hw⟩

/-- The maximising loop against the loop without pruning. With `alpha` the lower bound
at the start of the loop, `m` the maximum of the scores seen, `a = max alpha m` the
running lower bound and `M` the maximum of the scores without pruning of the cells
seen, what the loop returns is a window value of what the loop without pruning returns. -/
theorem maxLoop_window {recur : Board → Score → Score → Option (Score × Board)}
    {plain : Board → Option Score} {mark : Int} (board : Board) (l : List Nat)
    (alpha beta : Score)
    (hchild : ∀ i ∈ l, cell board i = 0 → ∃ v : Int,
      plain (board.set i mark) = some (Score.fin v) ∧
      ∀ a b, a < b → ∃ e : Int,
        recur (board.set i mark) a b = some (Score.fin e, board.set i mark) ∧
        WindowValue a b (Score.fin e) (Score.fin v))
    (m a M : Score) (ha : a = max alpha m) (hab : a < beta) (h1 : M ≤ m)
    (h2 : m ≤ alpha ∨ m ≤ M) (hM : M = Score.negInf ∨ ∃ w, M = Score.fin w) :
    ∃ r V, maxLoop recur mark l board m a beta = some (r, board) ∧
      plainLoop plain Score.max mark l board M = some V ∧ WindowValue alpha beta r V := by
  induction l generalizing m a M with
  | nil =>
    refine ⟨m, M, rfl, rfl, fun _ => h1, fun h => ?_, fun h _ => ?_⟩
    · have hma : m ≤ a := ha ▸ le_max_right alpha m
      exact absurd (le_trans h hma) (not_le.mpr hab)
    · rcases h2 with h2 | h2
      · exact absurd h2 (not_le.mpr h)
      · exact le_antisymm h2 h1
  | cons i rest ih =>
    have hrest : ∀ j ∈ rest, cell board j = 0 → ∃ v : Int,
        plain (board.set j mark) = some (Score.fin v) ∧
        ∀ a b, a < b → ∃ e : Int,
          recur (board.set j mark) a b = some (Score.fin e, board.set j mark) ∧
          WindowValue a b (Score.fin e) (Score.fin v) :=
      fun j hj => hchild j (List.mem_cons_of_mem _ hj)
    by_cases hc : cell board i = 0
    · obtain ⟨v, hpv, hwin⟩ := hchild i (List.mem_cons_self _ _) hc
      obtain ⟨e, hre, hk1, hk2, hk3⟩ := hwin a beta hab
      rw [maxLoop_visit_order hc hre, set_set_restore mark hc, plainLoop_visit hc hpv]
      have hma : m ≤ a := ha ▸ le_max_right alpha m
      have hαa : alpha ≤ a := ha ▸ le_max_left alpha m
      by_cases hq : Score.le beta (max a (Score.fin e)) = true
      · rw [if_pos hq]
        have hp : beta ≤ max a (Score.fin e) := hq
        have hbe : beta ≤ Score.fin e := by
          rcases le_max_iff.mp hp with h | h
          · exact absurd h (not_le.mpr hab)
          · exact h
        have hme : m ≤ Score.fin e := le_trans hma (le_trans (le_of_lt hab) hbe)
        obtain ⟨V, hV, hle, _, _⟩ := plainLoop_max_spec board rest
          (fun j hj hj0 => (hrest j hj hj0).imp (fun _ h => h.1))
          (Score.max M (Score.fin v)) (Score.fin_or_negInf_max v hM)
        refine ⟨Score.fin e, V, by rw [max_eq_right hme], hV, fun h => ?_, fun _ => ?_,
          fun _ h => ?_⟩
        · exact absurd (le_trans hbe (le_trans h hαa)) (not_le.mpr hab)
        · exact le_trans (hk2 hbe) (le_trans (le_max_right M (Score.fin v)) hle)
        · exact absurd hbe (not_le.mpr h)
      · rw [if_neg hq]
        have hp : ¬ (beta ≤ max a (Score.fin e)) := hq
        have hlt : max a (Score.fin e) < beta := not_le.mp hp
        have helt : Score.fin e < beta := lt_of_le_of_lt (le_max_right a (Score.fin e)) hlt
        have hve : Score.fin v ≤ max m (Score.fin e) := by
          rcases le_or_lt (Score.fin e) a with hea | hea
          · exact le_trans (hk1 hea) (le_max_right _ _)
          · rw [← hk3 hea helt]
            exact le_max_right _ _
        refine ih hrest (max m (Score.fin e)) (max a (Score.fin e)) (Score.max M (Score.fin v))
          (by rw [ha, max_assoc]) hlt (max_le (le_trans h1 (le_max_left _ _)) hve) ?_
          (Score.fin_or_negInf_max v hM)
        rcases le_or_lt (max m (Score.fin e)) alpha with hα | hαlt
        · exact Or.inl hα
        · right
          rcases le_or_lt (Score.fin e) m with hem | hme
          · rw [max_eq_left hem] at hαlt ⊢
            rcases h2 with h | h
            · exact absurd h (not_le.mpr hαlt)
            · exact le_trans h (le_max_left M (Score.fin v))
          · rw [max_eq_right (le_of_lt hme)] at hαlt ⊢
            have hae : a < Score.fin e := by rw [ha]; exact max_lt hαlt hme
            rw [hk3 hae helt]
            exact le_max_right M (Score.fin v)
    · rw [maxLoop_skip hc, plainLoop_skip hc]
      exact ih hrest m a M ha hab h1 h2 hM

/-- The minimising loop against the loop without pruning: the mirror image of
`maxLoop_window`, with `m` the minimum of the scores seen, `b = min beta m` the running
upper bound and `M` the minimum of the scores without pruning of the cells seen. -/
theorem minLoop_window {recur : Board → Score → Score → Option (Score × Board)}
    {plain : Board → Option Score} {mark : Int} (board : Board) (l : List Nat)
    (alpha beta : Score)
    (hchild : ∀ i ∈ l, cell board i = 0 → ∃ v : Int,
      plain (board.set i mark) = some (Score.fin v) ∧
      ∀ a b, a < b → ∃ e : Int,
        recur (board.set i mark) a b = some (Score.fin e, board.set i mark) ∧
        WindowValue a b (Score.fin e) (Score.fin v))
    (m b M : Score) (hb : b = min beta m) (hab : alpha < b) (h1 : m ≤ M)
    (h2 : beta ≤ m ∨ M ≤ m) (hM : M = Score.posInf ∨ ∃ w, M = Score.fin w) :
    ∃ r V, minLoop recur mark l board m alpha b = some (r, board) ∧
      plainLoop plain Score.min mark l board M = some V ∧ WindowValue alpha beta r V := by
  induction l generalizing m b M with
  | nil =>
    refine ⟨m, M, rfl, rfl, fun h => ?_, fun _ => h1, fun _ h => ?_⟩
    · have hbm : b ≤ m := hb ▸ min_le_right beta m
      exact absurd (le_trans hbm h) (not_le.mpr hab)
    · rcases h2 with h2 | h2
      · exact absurd h2 (not_le.mpr h)
      · exact le_antisymm h1 h2
  | cons i rest ih =>
    have hrest : ∀ j ∈ rest, cell board j = 0 → ∃ v : Int,
        plain (board.set j mark) = some (Score.fin v) ∧
        ∀ a b, a < b → ∃ e : Int,
          recur (board.set j mark) a b = some (Score.fin e, board.set j mark) ∧
          WindowValue a b (Score.fin e) (Score.fin v) :=
      fun j hj => hchild j (List.mem_cons_of_mem _ hj)
    by_cases hc : cell board i = 0
    · obtain ⟨v, hpv, hwin⟩ := hchild i (List.mem_cons_self _ _) hc
      obtain ⟨e, hre, hk1, hk2, hk3⟩ := hwin alpha b hab
      rw [minLoop_visit_order hc hre, set_set_restore mark hc, plainLoop_visit hc hpv]
      have hbm : b ≤ m := hb ▸ min_le_right beta m
      have hbβ : b ≤ beta := hb ▸ min_le_left beta m
      by_cases hq : Score.le (min b (Score.fin e)) alpha = true
      · rw [if_pos hq]
        have hp : min b (Score.fin e) ≤ alpha := hq
        have hea : Score.fin e ≤ alpha := by
          rcases min_le_iff.mp hp with h | h
          · exact absurd h (not_le.mpr hab)
          · exact h
        have hem : Score.fin e ≤ m := le_trans hea (le_trans (le_of_lt hab) hbm)
        obtain ⟨V, hV, hle, _, _⟩ := plainLoop_min_spec board rest
          (fun j hj hj0 => (hrest j hj hj0).imp (fun _ h => h.1))
          (Score.min M (Score.fin v)) (Score.fin_or_posInf_min v hM)
        refine ⟨Score.fin e, V, by rw [min_eq_right hem], hV, fun _ => ?_, fun h => ?_,
          fun h _ => ?_⟩
        · exact le_trans hle (le_trans (min_le_right M (Score.fin v)) (hk1 hea))
        · exact absurd (le_trans hbβ (le_trans h hea)) (not_le.mpr hab)
        · exact absurd hea (not_le.mpr h)
      · rw [if_neg hq]
        have hp : ¬ (min b (Score.fin e) ≤ alpha) := hq
        have hlt : alpha < min b (Score.fin e) := not_le.mp hp
        have helt : alpha < Score.fin e := lt_of_lt_of_le hlt (min_le_right b (Score.fin e))
        have hve : min m (Score.fin e) ≤ Score.fin v := by
          rcases le_or_lt b (Score.fin e) with hea | hea
          · exact le_trans (min_le_right _ _) (hk2 hea)
          · rw [← hk3 helt hea]
            exact min_le_right _ _
        refine ih hrest (min m (Score.fin e)) (min b (Score.fin e)) (Score.min M (Score.fin v))
          (by rw [hb, min_assoc]) hlt (le_min (le_trans (min_le_left _ _) h1) hve) ?_
          (Score.fin_or_posInf_min v hM)
        rcases le_or_lt beta (min m (Score.fin e)) with hβ | hβlt
        · exact Or.inl hβ
        · right
          rcases le_or_lt m (Score.fin e) with hme | hem
          · rw [min_eq_left hme] at hβlt ⊢
            rcases h2 with h | h
            · exact absurd h (not_le.mpr hβlt)
            · exact le_trans (min_le_left M (Score.fin v)) h
          · rw [min_eq_right (le_of_lt hem)] at hβlt ⊢
            have heb : Score.fin e < b := by rw [hb]; exact lt_min hβlt hem
            rw [hk3 helt heb]
            exact min_le_right M (Score.fin v)
    · rw [minLoop_skip hc, plainLoop_skip hc]
      exact ih hrest m b M hb hab h1 h2 hM

theorem plainMinimaxFuel_terminal (fuel : Nat) (board : Board) (depth : Int) (isMax : Bool)
    (player opponent : Int) {r : Int} (h : checkWinner board = some r) :
    plainMinimaxFuel (fuel + 1) board depth isMax player opponent =
      some (Score.fin (if r = player then 10 - depth
        else if r = opponent then depth - 10 else 0)) := by
  unfold plainMinimaxFuel
  rw [h]
  simp only
  split_ifs <;> rfl

theorem plainMinimaxFuel_succ_none (fuel : Nat) (board : Board) (depth : Int) (isMax : Bool)
    (player opponent : Int) (h : checkWinner board = none) :
    plainMinimaxFuel (fuel + 1) board depth isMax player opponent =
      if isMax then
        plainLoop (fun b => plainMinimaxFuel fuel b (depth + 1) false player opponent)
          Score.max player cells board Score.negInf
      else
        plainLoop (fun b => plainMinimaxFuel fuel b (depth + 1) true player opponent)
          Score.min opponent cells board Score.posInf := by
  rw [plainMinimaxFuel, h]

theorem WindowValue.refl (alpha beta x : Score) : WindowValue alpha beta x x :=
  ⟨fun _ => le_refl x, fun _ => le_refl x, fun _ _ => rfl⟩

/-- The search with pruning against the search without pruning: with enough fuel both
return an integer, and for every window with `alpha < beta` the score of the search with
pruning is a window value of the score without pruning. -/
theorem minimaxFuel_window (player opponent : Int) (hp : player ≠ 0) (hq : opponent ≠ 0)
    (fuel : Nat) :
    ∀ (board : Board) (depth : Int) (isMax : Bool), board.length = 9 →
      emptyCount board < fuel →
      ∃ v : Int, plainMinimaxFuel fuel board depth isMax player opponent = some (Score.fin v) ∧
        ∀ alpha beta, alpha < beta → ∃ e : Int,
          minimaxFuel fuel board depth isMax player opponent alpha beta =
            some (Score.fin e, board) ∧
          WindowValue alpha beta (Score.fin e) (Score.fin v) := by
  induction fuel with
  | zero => intro board depth isMax _ hf; omega
  | succ fuel ih =>
    intro board depth isMax hlen hf
    cases hw : checkWinner board with
    | some result =>
      refine ⟨_, plainMinimaxFuel_terminal fuel board depth isMax player opponent hw,
        fun alpha beta _ => ⟨_, minimaxFuel_terminal fuel board depth isMax player opponent
          alpha beta hw, WindowValue.refl _ _ _⟩⟩
    | none =>
      obtain ⟨i0, hi0, hz0⟩ := exists_cell_zero hlen (checkWinner_eq_none.mp hw).2
      have hchild : ∀ (mark : Int), mark ≠ 0 → ∀ (im : Bool), ∀ i ∈ cells, cell board i = 0 →
          ∃ v : Int,
            plainMinimaxFuel fuel (board.set i mark) (depth + 1) im player opponent =
              some (Score.fin v) ∧
            ∀ a b, a < b → ∃ e : Int,
              minimaxFuel fuel (board.set i mark) (depth + 1) im player opponent a b =
                some (Score.fin e, board.set i mark) ∧
              WindowValue a b (Score.fin e) (Score.fin v) := by
        intro mark hmark im i hi hc
        have hilt : i < board.length := by rw [hlen]; exact mem_cells.mp hi
        have hcount := emptyCount_set hilt hc hmark
        exact ih (board.set i mark) (depth + 1) im (by rw [List.length_set]; exact hlen)
          (by omega)
      rw [plainMinimaxFuel_succ_none _ _ _ _ _ _ hw]
      cases isMax with
      | true =>
        simp only [if_true]
        obtain ⟨V, hV, _, hVfin, hVne⟩ := @plainLoop_max_spec
          (fun b => plainMinimaxFuel fuel b (depth + 1) false player opponent) player board cells
          (fun i hi hc => (hchild player hp false i hi hc).imp (fun _ h => h.1))
          Score.negInf (Or.inl rfl)
        obtain ⟨v, hv⟩ : ∃ v, V = Score.fin v := by
          rcases hVfin with h | h
          · exact absurd h (hVne ⟨i0, hi0, hz0⟩)
          · exact h
        refine ⟨v, by rw [hV, hv], fun alpha beta hab => ?_⟩
        obtain ⟨e, he, _⟩ := minimaxFuel_spec (fuel + 1) board depth true player opponent
          alpha beta hlen hp hq hf
        obtain ⟨r, V1, hr, hV1, hwin⟩ := @maxLoop_window
          (fun b al be => minimaxFuel fuel b (depth + 1) false player opponent al be)
          (fun b => plainMinimaxFuel fuel b (depth + 1) false player opponent) player board cells
          alpha beta (hchild player hp false) Score.negInf alpha Score.negInf
          (max_eq_left (Score.negInf_le alpha)).symm hab (le_refl _)
          (Or.inl (Score.negInf_le alpha)) (Or.inl rfl)
        rw [minimaxFuel_succ_none _ _ _ _ _ _ _ _ hw] at he
        simp only [if_true] at he
        rw [hr] at he
        rw [hV] at hV1
        have hre : r = Score.fin e := by
          simp only [Option.some.injEq, Prod.mk.injEq, and_true] at he
          exact he
        have hVv : V1 = Score.fin v := by
          rw [← hv]
          exact (Option.some.inj hV1).symm
        refine ⟨e, ?_, by rw [← hre, ← hVv]; exact hwin⟩
        rw [minimaxFuel_succ_none _ _ _ _ _ _ _ _ hw]
        simp only [if_true]
        rw [hr, hre]
      | false =>
        simp only [Bool.false_eq_true, if_false]
        obtain ⟨V, hV, _, hVfin, hVne⟩ := @plainLoop_min_spec
          (fun b => plainMinimaxFuel fuel b (depth + 1) true player opponent) opponent board
          cells (fun i hi hc => (hchild opponent hq true i hi hc).imp (fun _ h => h.1))
          Score.posInf (Or.inl rfl)
        obtain ⟨v, hv⟩ : ∃ v, V = Score.fin v := by
          rcases hVfin with h | h
          · exact absurd h (hVne ⟨i0, hi0, hz0⟩)
          · exact h
        refine ⟨v, by rw [hV, hv], fun alpha beta hab => ?_⟩
        obtain ⟨e, he, _⟩ := minimaxFuel_spec (fuel + 1) board depth false player opponent
          alpha beta hlen hp hq hf
        obtain ⟨r, V1, hr, hV1, hwin⟩ := @minLoop_window
          (fun b al be => minimaxFuel fuel b (depth + 1) true player opponent al be)
          (fun b => plainMinimaxFuel fuel b (depth + 1) true player opponent) opponent board
          cells alpha beta (hchild opponent hq true) Score.posInf beta Score.posInf
          (min_eq_left (Score.le_posInf beta)).symm hab (le_refl _)
          (Or.inl (Score.le_posInf beta)) (Or.inl rfl)
        rw [minimaxFuel_succ_none _ _ _ _ _ _ _ _ hw] at he
        simp only [Bool.false_eq_true, if_false] at he
        rw [hr] at he
        rw [hV] at hV1
        have hre : r = Score.fin e := by
          simp only [Option.some.injEq, Prod.mk.injEq, and_true] at he
          exact he
        have hVv : V1 = Score.fin v := by
          rw [← hv]
          exact (Option.some.inj hV1).symm
        refine ⟨e, ?_, by rw [← hre, ← hVv]; exact hwin⟩
        rw [minimaxFuel_succ_none _ _ _ _ _ _ _ _ hw]
        simp only [Bool.false_eq_true, if_false]
        rw [hr, hre]

/-- With the whole window the search with pruning returns the score of the search without
pruning. -/
theorem minimax_eq_plain (board : Board) (depth : Int) (isMax : Bool) (player opponent : Int)
    (hlen : board.length = 9) (hp : player ≠ 0) (hq : opponent ≠ 0) :
    ∃ v : Int, minimax board depth isMax player opponent Score.negInf Score.posInf =
        some (Score.fin v, board) ∧
      plainMinimax board depth isMax player opponent = some (Score.fin v) := by
  obtain ⟨v, hv, hwin⟩ := minimaxFuel_window player opponent hp hq (2 * emptyCount board + 1)
    board depth isMax hlen (by omega)
  obtain ⟨e, he, _, _, h3⟩ := hwin Score.negInf Score.posInf Score.negInf_lt_posInf
  have hev : Score.fin e = Score.fin v := h3 (Score.negInf_lt_fin e) (Score.fin_lt_posInf e)
  exact ⟨v, by rw [← hev]; exact he, hv⟩

/-- The loop of `bestMove` and the loop of the selector without pruning choose the same
cell. -/
theorem bestLoop_eq_plain (player opponent : Int) (hp : player ≠ 0) (hq : opponent ≠ 0)
    (board : Board) (hlen : board.length = 9) (l : List Nat) (move : Int) (bestScore : Score) :
    ∃ m, bestLoop player opponent l board move bestScore = some (m, board) ∧
      plainBestLoop player opponent l board move bestScore = some m := by
  induction l generalizing move bestScore with
  | nil => exact ⟨move, rfl, rfl⟩
  | cons i rest ih =>
    by_cases hc : cell board i = 0
    · obtain ⟨v, hv, hpv⟩ := minimax_eq_plain (board.set i player) 0 false player opponent
        (by rw [List.length_set]; exact hlen) hp hq
      rw [bestLoop_visit hc hv, set_set_restore player hc]
      conv => enter [1, m, 2, 1]; unfold plainBestLoop
      simp only [if_pos hc, hpv]
      by_cases hg : Score.gt (Score.fin v) bestScore = true
      · simp only [hg, if_true]
        exact ih _ _
      · simp only [hg, Bool.false_eq_true, if_false]
        exact ih _ _
    · rw [bestLoop_skip hc]
      conv => enter [1, m, 2, 1]; unfold plainBestLoop
      simp only [if_neg hc]
      exact ih _ _

/-! ## The claims -/

/-- C5. Terminal correctness: on a 9-cell board over {0,1,2}, when one of the 8 win
lines has its three cells equal to `p` and no win line has its three cells equal to
the other player, `checkWinner` returns `p`. -/
theorem checkWinner_terminal_correct (board : Board) (p : Int) (hv : Valid board)
    (hp : p = 1 ∨ p = 2) (hline : hasLine board p) (hno : ¬ hasLine board (other p)) :
    checkWinner board = some p :=
  checkWinner_of_line hv hp hline hno

theorem checkWinner_terminal_correct_witness :
    Valid [2, 1, 0, 2, 1, 0, 0, 1, 2] ∧ hasLine [2, 1, 0, 2, 1, 0, 0, 1, 2] 1 ∧
      ¬ hasLine [2, 1, 0, 2, 1, 0, 0, 1, 2] (other 1) ∧
      checkWinner [2, 1, 0, 2, 1, 0, 0, 1, 2] = some 1 :=
  ⟨by decide, by decide, by decide,
    checkWinner_terminal_correct [2, 1, 0, 2, 1, 0, 0, 1, 2] 1 (by decide) (by decide)
      (by decide) (by decide)⟩

/-- C6. Draw and in-progress detection: on a 9-cell board over {0,1,2} on which no win
line has three equal non-empty cells, `checkWinner` returns 0 (draw) when no cell is 0
and `null` when at least one cell is 0. -/
theorem checkWinner_draw_or_in_progress (board : Board) (_hv : Valid board)
    (hno : noWonLine board) :
    ((0 : Int) ∉ board → checkWinner board = some 0) ∧
    ((0 : Int) ∈ board → checkWinner board = none) := by
  have h := checkWinner_of_no_line (noWonLine_iff.mp hno)
  constructor
  · intro hz; rw [h, if_neg hz]
  · intro hz; rw [h, if_pos hz]

theorem checkWinner_draw_or_in_progress_witness :
    (Valid [1, 2, 1, 1, 2, 2, 2, 1, 1] ∧ noWonLine [1, 2, 1, 1, 2, 2, 2, 1, 1]) ∧
      checkWinner [1, 2, 1, 1, 2, 2, 2, 1, 1] = some 0 :=
  ⟨⟨by decide, by decide⟩,
    (checkWinner_draw_or_in_progress [1, 2, 1, 1, 2, 2, 2, 1, 1] (by decide) (by decide)).1
      (by decide)⟩

/-- C10. Terminal scoring: on a board where `checkWinner` is not `null`, for every
depth, `isMax`, `alpha`, `beta` and distinct `player`, `opponent` in {1,2}, `minimax`
returns `10 - depth` when the winner is `player`, `depth - 10` when it is `opponent`
and 0 on a draw, and leaves the board as it is. -/
theorem minimax_terminal_scoring (board : Board) (depth : Int) (isMax : Bool)
    (player opponent : Int) (alpha beta : Score) (hp : player = 1 ∨ player = 2)
    (hq : opponent = 1 ∨ opponent = 2) (hne : player ≠ opponent) :
    (checkWinner board = some player →
      minimax board depth isMax player opponent alpha beta =
        some (Score.fin (10 - depth), board)) ∧
    (checkWinner board = some opponent →
      minimax board depth isMax player opponent alpha beta =
        some (Score.fin (depth - 10), board)) ∧
    (checkWinner board = some 0 →
      minimax board depth isMax player opponent alpha beta = some (Score.fin 0, board)) := by
  have hp0 : (0 : Int) ≠ player := by rcases hp with rfl | rfl <;> decide
  have hq0 : (0 : Int) ≠ opponent := by rcases hq with rfl | rfl <;> decide
  refine ⟨fun h => ?_, fun h => ?_, fun h => ?_⟩
  · rw [minimax_terminal _ _ _ _ _ _ _ h, if_pos rfl]
  · rw [minimax_terminal _ _ _ _ _ _ _ h, if_neg (Ne.symm hne), if_pos rfl]
  · rw [minimax_terminal _ _ _ _ _ _ _ h, if_neg hp0, if_neg hq0]

theorem minimax_terminal_scoring_witness :
    checkWinner [2, 2, 2, 1, 1, 0, 1, 0, 0] = some 2 ∧
      minimax [2, 2, 2, 1, 1, 0, 1, 0, 0] 3 true 1 2 (Score.fin (-4)) Score.posInf =
        some (Score.fin (3 - 10), [2, 2, 2, 1, 1, 0, 1, 0, 0]) :=
  ⟨by decide,
    (minimax_terminal_scoring [2, 2, 2, 1, 1, 0, 1, 0, 0] 3 true 1 2 (Score.fin (-4))
      Score.posInf (by decide) (by decide) (by decide)).2.1 (by decide)⟩

/-- C7. Board restoration: for every 9-cell board and every depth, `isMax`, `player`,
`opponent`, `alpha` and `beta`, when `minimax` returns (with or without a pruning
break) the board is element-wise the board at call time, and so it is when `bestMove`
returns; with marks other than 0 both calls do return. -/
theorem board_restored (board : Board) (hlen : board.length = 9) (fuel : Nat) (depth : Int)
    (isMax : Bool) (player opponent : Int) (alpha beta : Score) :
    (∀ s b1, minimaxFuel fuel board depth isMax player opponent alpha beta = some (s, b1) →
      b1 = board) ∧
    (∀ m b1, bestMove board player = some (m, b1) → b1 = board) ∧
    (player ≠ 0 → opponent ≠ 0 →
      ∃ s, minimax board depth isMax player opponent alpha beta = some (s, board)) ∧
    (player ≠ 0 → ∃ m, bestMove board player = some (m, board)) := by
  refine ⟨fun s b1 h => minimaxFuel_board _ _ _ _ _ _ _ _ _ _ h,
    fun m b1 h => bestLoop_board _ _ _ _ _ _ _ _ h, fun hp hq => ?_, fun hp => ?_⟩
  · obtain ⟨v, hv, _⟩ := minimax_spec board depth isMax player opponent alpha beta hlen hp hq
    exact ⟨_, hv⟩
  · by_cases hz : (0 : Int) ∈ board
    · obtain ⟨m, _, hm, _⟩ := (bestMove_spec hlen hp).2 hz
      exact ⟨_, hm⟩
    · exact ⟨_, (bestMove_spec hlen hp).1 hz⟩

theorem board_restored_witness :
    minimaxFuel 3 [1, 2, 1, 2, 1, 2, 2, 0, 0] 0 true 1 2 (Score.fin 0) (Score.fin 0) =
        some (Score.fin 0, [1, 2, 1, 2, 1, 2, 2, 0, 0]) ∧
      [1, 2, 1, 2, 1, 2, 2, 0, 0] = ([1, 2, 1, 2, 1, 2, 2, 0, 0] : Board) :=
  ⟨by decide,
    (board_restored [1, 2, 1, 2, 1, 2, 2, 0, 0] rfl 3 0 true 1 2 (Score.fin 0)
      (Score.fin 0)).1 (Score.fin 0) _ (by decide)⟩

/-- C9. Sentinel: on a 9-cell board over {0,1,2} and for `p` in {1,2}, `bestMove`
returns `-1` exactly when the board has no empty cell, and otherwise an index from 0
to 8 of an empty cell; every candidate score `minimax` returns is an integer, so it is
greater than `-Infinity`. -/
theorem bestMove_sentinel (board : Board) (p : Int) (hv : Valid board) (hp : p = 1 ∨ p = 2) :
    ∃ m, bestMove board p = some (m, board) ∧
      (m = -1 ↔ (0 : Int) ∉ board) ∧
      ((0 : Int) ∈ board → 0 ≤ m ∧ m ≤ 8 ∧ cell board m.toNat = 0) ∧
      (∀ i, i < 9 → cell board i = 0 → ∃ v,
        minimax (board.set i p) 0 false p (other p) Score.negInf Score.posInf =
            some (Score.fin v, board.set i p) ∧
          Score.gt (Score.fin v) Score.negInf = true) := by
  have hp0 : p ≠ 0 := by rcases hp with rfl | rfl <;> decide
  have hfin : ∀ i, i < 9 → cell board i = 0 → ∃ v,
      minimax (board.set i p) 0 false p (other p) Score.negInf Score.posInf =
          some (Score.fin v, board.set i p) ∧
        Score.gt (Score.fin v) Score.negInf = true :=
    fun i _ _ => ⟨_, candidate_eq hv.1 hp0 i, Score.gt_negInf _⟩
  by_cases hz : (0 : Int) ∈ board
  · obtain ⟨m, hm9, hm, hmz, _⟩ := (bestMove_spec hv.1 hp0).2 hz
    refine ⟨(m : Int), hm, ⟨fun h => by omega, fun h => absurd hz h⟩, fun _ => ⟨by omega, by omega, ?_⟩,
      hfin⟩
    simpa using hmz
  · exact ⟨-1, (bestMove_spec hv.1 hp0).1 hz, ⟨fun _ => hz, fun _ => rfl⟩,
      fun h => absurd h hz, hfin⟩

theorem bestMove_sentinel_witness :
    Valid [1, 2, 1, 2, 1, 2, 2, 1, 0] ∧
      ∃ m, bestMove [1, 2, 1, 2, 1, 2, 2, 1, 0] 1 = some (m, [1, 2, 1, 2, 1, 2, 2, 1, 0]) ∧
        (m = -1 ↔ (0 : Int) ∉ ([1, 2, 1, 2, 1, 2, 2, 1, 0] : Board)) :=
  ⟨by decide,
    (bestMove_sentinel [1, 2, 1, 2, 1, 2, 2, 1, 0] 1 (by decide) (by decide)).imp
      (fun _ h => ⟨h.1, h.2.1⟩)⟩

/-- C8. Move selection and tie-break: on a 9-cell board over {0,1,2} with an empty
cell and for `p` in {1,2} with opponent `q`, `bestMove(board, p)` is an empty cell `m`
such that, with `score i` the result of `minimax(board with cell i set to p, 0, false,
p, q, -Infinity, +Infinity)`, no empty cell has a greater score than `m` and every
empty cell of lower index has a strictly smaller score. -/
theorem bestMove_selects_first_maximum (board : Board) (p : Int) (hv : Valid board)
    (hz : (0 : Int) ∈ board) (hp : p = 1 ∨ p = 2) :
    ∃ (m : Nat) (score : Nat → Int), m < 9 ∧ cell board m = 0 ∧
      bestMove board p = some ((m : Int), board) ∧
      (∀ i, i < 9 → cell board i = 0 →
        minimax (board.set i p) 0 false p (other p) Score.negInf Score.posInf =
          some (Score.fin (score i), board.set i p)) ∧
      (∀ j, j < 9 → cell board j = 0 → score j ≤ score m) ∧
      (∀ j, j < m → cell board j = 0 → score j < score m) := by
  have hp0 : p ≠ 0 := by rcases hp with rfl | rfl <;> decide
  obtain ⟨m, hm9, hm, hmz, hmax⟩ := (bestMove_spec hv.1 hp0).2 hz
  exact ⟨m, candidateScore board p, hm9, hmz, hm, fun i _ _ => candidate_eq hv.1 hp0 i,
    fun j hj hjz => (hmax j hj hjz).1, fun j hj hjz => (hmax j (by omega) hjz).2 hj⟩

theorem bestMove_selects_first_maximum_witness :
    (Valid [1, 2, 1, 2, 1, 2, 2, 0, 0] ∧ (0 : Int) ∈ ([1, 2, 1, 2, 1, 2, 2, 0, 0] : Board)) ∧
      ∃ (m : Nat) (score : Nat → Int), m < 9 ∧ cell [1, 2, 1, 2, 1, 2, 2, 0, 0] m = 0 ∧
        bestMove [1, 2, 1, 2, 1, 2, 2, 0, 0] 1 = some ((m : Int), [1, 2, 1, 2, 1, 2, 2, 0, 0]) ∧
        (∀ j, j < 9 → cell [1, 2, 1, 2, 1, 2, 2, 0, 0] j = 0 → score j ≤ score m) :=
  ⟨⟨by decide, by decide⟩,
    (bestMove_selects_first_maximum [1, 2, 1, 2, 1, 2, 2, 0, 0] 1 (by decide) (by decide)
      (by decide)).imp
      (fun _ h => h.imp (fun _ h1 => ⟨h1.1, h1.2.1, h1.2.2.1, h1.2.2.2.2.1⟩))⟩

/-- C3. Forced-win exploitation: on a 9-cell board over {0,1,2} with no completed win
line and for `p` in {1,2}, when `w` is the one empty cell where the mark of `p`
completes a win line of `p`, `bestMove(board, p)` is `w`. -/
theorem bestMove_takes_forced_win (board : Board) (p : Int) (w : Nat) (hv : Valid board)
    (hp : p = 1 ∨ p = 2) (hno : noWonLine board) (hw : w < 9) (hwz : cell board w = 0)
    (hwin : hasLine (board.set w p) p)
    (huniq : ∀ j, j < 9 → j ≠ w → cell board j = 0 → ¬ hasLine (board.set j p) p) :
    bestMove board p = some ((w : Int), board) := by
  have hp0 : p ≠ 0 := by rcases hp with rfl | rfl <;> decide
  have hpq : other p ≠ p := by
    rcases hp with rfl | rfl <;> decide
  have hwlt : w < board.length := by rw [hv.1]; exact hw
  have hz : (0 : Int) ∈ board := mem_of_cell_zero hwlt hwz
  obtain ⟨m, hm9, hm, hmz, hmax⟩ := (bestMove_spec hv.1 hp0).2 hz
  have hcw : checkWinner (board.set w p) = some p := by
    refine checkWinner_of_line (hv.set w (Or.inr hp)) hp hwin ?_
    intro hc
    exact noWonLine_iff.mp hno _ (other_ne_zero p) (hasLine_of_set hwlt hpq hc)
  have hsw : candidateScore board p w = 10 := candidateScore_win hv.1 hp0 hcw
  have hmw : m = w := by
    by_contra hne
    have h9 : candidateScore board p m ≤ 9 :=
      candidateScore_le_nine hv.1 hp0 (checkWinner_ne_of_no_line hp0 (huniq m hm9 hne hmz))
    have := (hmax w hw hwz).1
    omega
  rw [hm, hmw]

theorem bestMove_takes_forced_win_witness :
    (Valid [1, 1, 0, 2, 2, 1, 0, 0, 0] ∧ noWonLine [1, 1, 0, 2, 2, 1, 0, 0, 0] ∧
        hasLine (([1, 1, 0, 2, 2, 1, 0, 0, 0] : Board).set 2 1) 1) ∧
      bestMove [1, 1, 0, 2, 2, 1, 0, 0, 0] 1 = some (2, [1, 1, 0, 2, 2, 1, 0, 0, 0]) :=
  ⟨⟨by decide, by decide, by decide⟩,
    bestMove_takes_forced_win [1, 1, 0, 2, 2, 1, 0, 0, 0] 1 2 (by decide) (by decide)
      (by decide) (by decide) (by decide) (by decide) (by decide)⟩

/-- C4. Blocking: on a 9-cell board over {0,1,2} with no completed win line and for `p`
in {1,2} with opponent `q`, when `q` has an empty cell `b` that completes a win line of
`q`, and the mark of `p` at `b` is the one move of `p` after which `q` cannot win on the
next turn, `bestMove(board, p)` is `b`. -/
theorem bestMove_blocks (board : Board) (p : Int) (b : Nat) (hv : Valid board)
    (hp : p = 1 ∨ p = 2) (hno : noWonLine board) (hb : b < 9) (hbz : cell board b = 0)
    (_hthreat : hasLine (board.set b (other p)) (other p))
    (huniq : ∀ i, i < 9 → cell board i = 0 → (safeMove board p (other p) i ↔ i = b)) :
    bestMove board p = some ((b : Int), board) := by
  have hp0 : p ≠ 0 := by rcases hp with rfl | rfl <;> decide
  have hblt : b < board.length := by rw [hv.1]; exact hb
  have hz : (0 : Int) ∈ board := mem_of_cell_zero hblt hbz
  obtain ⟨m, hm9, hm, hmz, hmax⟩ := (bestMove_spec hv.1 hp0).2 hz
  have hsb : -8 ≤ candidateScore board p b :=
    candidateScore_safe hv hp hno hb ((huniq b hb hbz).mpr rfl)
  have hmb : m = b := by
    by_contra hne
    have hunsafe : ¬ safeMove board p (other p) m := fun h => hne ((huniq m hm9 hmz).mp h)
    unfold safeMove at hunsafe
    push_neg at hunsafe
    obtain ⟨hnone, j, hj, hjz, hline⟩ := hunsafe
    have h9 : candidateScore board p m ≤ -9 := candidateScore_unsafe hv hp hnone hj hjz hline
    have := (hmax b hb hbz).1
    omega
  rw [hm, hmb]

theorem bestMove_blocks_witness :
    (Valid [2, 2, 0, 1, 0, 0, 1, 0, 0] ∧ noWonLine [2, 2, 0, 1, 0, 0, 1, 0, 0] ∧
        hasLine (([2, 2, 0, 1, 0, 0, 1, 0, 0] : Board).set 2 (other 1)) (other 1)) ∧
      bestMove [2, 2, 0, 1, 0, 0, 1, 0, 0] 1 = some (2, [2, 2, 0, 1, 0, 0, 1, 0, 0]) :=
  ⟨⟨by decide, by decide, by decide⟩,
    bestMove_blocks [2, 2, 0, 1, 0, 0, 1, 0, 0] 1 2 (by decide) (by decide)
      (by decide) (by decide) (by decide) (by decide) (by decide)⟩

/-- C1. Never losing: for each side `p` in {1,2}, in every game from the empty board
with player 1 moving first in which `p` always marks the cell `bestMove(board, p)`
returns and the other side marks any empty cell, the game reaches a board on which
`checkWinner` is not `null`, and there `checkWinner` is `p` or 0 (draw), never the
other side. -/
theorem bestMove_never_loses (p : Int) (hp : p = 1 ∨ p = 2) (reply : Board → Nat)
    (hreply : LegalReply reply) :
    ∃ final, playAgainst p reply 10 emptyBoard 1 = some final ∧
      checkWinner final ≠ none ∧
      (checkWinner final = some p ∨ checkWinner final = some 0) ∧
      checkWinner final ≠ some (other p) := by
  obtain ⟨hp0, hq0, hpq, _, _⟩ := marks_cases hp
  obtain ⟨final, hplay, hres⟩ := playAgainst_emptyBoard hp hreply
  refine ⟨final, hplay, ?_, hres, ?_⟩
  · rcases hres with h | h <;> rw [h] <;> simp
  · rcases hres with h | h <;> rw [h] <;> simp
    · exact hpq
    · exact Ne.symm hq0

theorem bestMove_never_loses_witness :
    LegalReply firstEmpty ∧
      ∃ final, playAgainst 2 firstEmpty 10 emptyBoard 1 = some final ∧
        checkWinner final ≠ none ∧
        (checkWinner final = some 2 ∨ checkWinner final = some 0) ∧
        checkWinner final ≠ some (other 2) :=
  ⟨legalReply_firstEmpty, bestMove_never_loses 2 (Or.inr rfl) firstEmpty legalReply_firstEmpty⟩

/-- C2. Self-play draws: from the empty board, placing in turn the mark of player 1 at
`bestMove(board, 1)` and the mark of player 2 at `bestMove(board, 2)` until
`checkWinner` is not `null`, the game ends on a board where `checkWinner` is 0 (draw). -/
theorem selfPlay_draws :
    ∃ final, selfPlay 10 emptyBoard 1 = some final ∧ checkWinner final = some 0 := by
  have h1 : (1 : Int) = 1 ∨ (1 : Int) = 2 := Or.inl rfl
  have h2 : (2 : Int) = 1 ∨ (2 : Int) = 2 := Or.inr rfl
  obtain ⟨f1, hf1, hc1⟩ := playAgainst_emptyBoard h1 (legalReply_bestCell (marks_cases h1).2.2.2.1)
  obtain ⟨f2, hf2, hc2⟩ := playAgainst_emptyBoard h2 (legalReply_bestCell (marks_cases h2).2.2.2.1)
  rw [playAgainst_bestCell h1 10 emptyBoard 1 valid_emptyBoard (Or.inl rfl)] at hf1
  rw [playAgainst_bestCell h2 10 emptyBoard 1 valid_emptyBoard (Or.inr rfl)] at hf2
  have hff : f1 = f2 := Option.some.inj (hf1.symm.trans hf2)
  subst hff
  refine ⟨f1, hf1, ?_⟩
  rcases hc1 with h | h
  · rcases hc2 with h' | h'
    · rw [h] at h'
      exact absurd h' (by decide)
    · exact h'
  · exact h

/-- C12. Turn detection: for every board, `detectPlayer` returns 1 when the number of
cells equal to 1 is at most the number of cells equal to 2, and 2 otherwise; it rejects
no board, so it returns 1 on the empty board and on any board with more 2-marks than
1-marks. -/
theorem detectPlayer_by_counts (board : Board) :
    (board.count 1 ≤ board.count 2 → detectPlayer board = 1) ∧
    (board.count 2 < board.count 1 → detectPlayer board = 2) ∧
    (detectPlayer board = 1 ∨ detectPlayer board = 2) ∧
    detectPlayer emptyBoard = 1 := by
  refine ⟨fun h => ?_, fun h => ?_, detectPlayer_cases board, by decide⟩
  · rw [detectPlayer_eq, if_pos h]
  · rw [detectPlayer_eq, if_neg (by omega)]

/-- C20. Turn alternation: on a 9-cell board over {0,1,2} whose count of 1-marks minus
its count of 2-marks is 0 or 1, `detectPlayer` returns 1 in the first case and 2 in the
second, and for every empty cell `i`, on the board with cell `i` set to
`detectPlayer(board)`, `detectPlayer` returns the other player and the difference of
the counts is again 0 or 1. -/
theorem detectPlayer_alternates (board : Board) (hv : Valid board)
    (hdiff : board.count 1 = board.count 2 ∨ board.count 1 = board.count 2 + 1) :
    (board.count 1 = board.count 2 → detectPlayer board = 1) ∧
    (board.count 1 = board.count 2 + 1 → detectPlayer board = 2) ∧
    ∀ i, i < 9 → cell board i = 0 →
      detectPlayer (board.set i (detectPlayer board)) = other (detectPlayer board) ∧
      ((board.set i (detectPlayer board)).count 1 =
          (board.set i (detectPlayer board)).count 2 ∨
        (board.set i (detectPlayer board)).count 1 =
          (board.set i (detectPlayer board)).count 2 + 1) := by
  refine ⟨fun h => ?_, fun h => ?_, fun i hi hiz => ?_⟩
  · rw [detectPlayer_eq, if_pos (by omega)]
  · rw [detectPlayer_eq, if_neg (by omega)]
  · have hilt : i < board.length := by rw [hv.1]; exact hi
    have h1 : cell board i ≠ 1 := by rw [hiz]; decide
    have h2 : cell board i ≠ 2 := by rw [hiz]; decide
    rcases hdiff with h | h
    · have hd : detectPlayer board = 1 := by rw [detectPlayer_eq, if_pos (by omega)]
      have c1 : (board.set i 1).count 1 = board.count 1 + 1 := count_set_self hilt h1
      have c2 : (board.set i 1).count 2 = board.count 2 := count_set_other (by decide) h2
      rw [hd, detectPlayer_eq, c1, c2, if_neg (by omega)]
      exact ⟨rfl, Or.inr (by omega)⟩
    · have hd : detectPlayer board = 2 := by rw [detectPlayer_eq, if_neg (by omega)]
      have c1 : (board.set i 2).count 1 = board.count 1 := count_set_other (by decide) h1
      have c2 : (board.set i 2).count 2 = board.count 2 + 1 := count_set_self hilt h2
      rw [hd, detectPlayer_eq, c1, c2, if_pos (by omega)]
      exact ⟨rfl, Or.inl (by omega)⟩

theorem detectPlayer_alternates_witness :
    (Valid [1, 0, 0, 0, 2, 0, 0, 0, 1] ∧
        ([1, 0, 0, 0, 2, 0, 0, 0, 1] : Board).count 1 =
          ([1, 0, 0, 0, 2, 0, 0, 0, 1] : Board).count 2 + 1) ∧
      detectPlayer [1, 0, 0, 0, 2, 0, 0, 0, 1] = 2 ∧
      detectPlayer (([1, 0, 0, 0, 2, 0, 0, 0, 1] : Board).set 3
        (detectPlayer [1, 0, 0, 0, 2, 0, 0, 0, 1])) = other (detectPlayer [1, 0, 0, 0, 2, 0, 0, 0, 1]) :=
  ⟨⟨by decide, by decide⟩,
    (detectPlayer_alternates [1, 0, 0, 0, 2, 0, 0, 0, 1] (by decide) (Or.inr (by decide))).2.1
      (by decide),
    ((detectPlayer_alternates [1, 0, 0, 0, 2, 0, 0, 0, 1] (by decide)
      (Or.inr (by decide))).2.2 3 (by decide) (by decide)).1⟩

/-- C17. First won line decides: on a 9-cell board, when a win line has three equal
non-empty cells, `checkWinner` returns the mark of the first such line of the table
`WINS` (rows, then columns, then diagonals), also when lines of both players are
completed: `[1,1,1,2,2,2,0,0,0]` gives 1 and `[2,2,2,1,1,1,0,0,0]` gives 2. -/
theorem checkWinner_first_won_line (board : Board) (_hlen : board.length = 9)
    (pre post : List (Nat × Nat × Nat)) (l : Nat × Nat × Nat)
    (hsplit : WINS = pre ++ l :: post) (hpre : ∀ k ∈ pre, ¬ wonLine board k)
    (hl : wonLine board l) :
    checkWinner board = some (cell board l.1) ∧
    WINS = [(0, 1, 2), (3, 4, 5), (6, 7, 8), (0, 3, 6), (1, 4, 7), (2, 5, 8), (0, 4, 8),
      (2, 4, 6)] ∧
    checkWinner [1, 1, 1, 2, 2, 2, 0, 0, 0] = some 1 ∧
    checkWinner [2, 2, 2, 1, 1, 1, 0, 0, 0] = some 2 := by
  refine ⟨?_, rfl, by decide, by decide⟩
  unfold checkWinner
  rw [hsplit, firstLine_append pre post l hpre hl]

theorem checkWinner_first_won_line_witness :
    wonLine [2, 1, 2, 1, 1, 1, 2, 2, 2] (3, 4, 5) ∧
      checkWinner [2, 1, 2, 1, 1, 1, 2, 2, 2] = some 1 :=
  ⟨by decide,
    (checkWinner_first_won_line [2, 1, 2, 1, 1, 1, 2, 2, 2] rfl [(0, 1, 2)]
      [(6, 7, 8), (0, 3, 6), (1, 4, 7), (2, 5, 8), (0, 4, 8), (2, 4, 6)] (3, 4, 5) rfl
      (by decide) (by decide)).1⟩

/-- C19. Fastest win is taken: on a 9-cell board over {0,1,2} with no completed win line
and for `p` in {1,2}, when `p` has empty cells that complete a win line of `p` at once,
`bestMove(board, p)` is the lowest such cell: an immediate win scores 10 and every other
move at most 9, whatever slower wins exist through cells of lower index. -/
theorem bestMove_takes_first_win (board : Board) (p : Int) (w : Nat) (hv : Valid board)
    (hp : p = 1 ∨ p = 2) (hno : noWonLine board) (hw : w < 9) (hwz : cell board w = 0)
    (hwin : hasLine (board.set w p) p)
    (hfirst : ∀ j, j < w → cell board j = 0 → ¬ hasLine (board.set j p) p) :
    bestMove board p = some ((w : Int), board) ∧
    candidateScore board p w = 10 ∧
    ∀ j, j < 9 → cell board j = 0 → ¬ hasLine (board.set j p) p →
      candidateScore board p j ≤ 9 := by
  obtain ⟨hp0, _, hpq, _, _⟩ := marks_cases hp
  have hwlt : w < board.length := by rw [hv.1]; exact hw
  have hz : (0 : Int) ∈ board := mem_of_cell_zero hwlt hwz
  obtain ⟨m, hm9, hm, hmz, hmax⟩ := (bestMove_spec hv.1 hp0).2 hz
  have hcw : ∀ i, i < 9 → hasLine (board.set i p) p → checkWinner (board.set i p) = some p := by
    intro i hi hline
    refine checkWinner_of_line (hv.set i (Or.inr hp)) hp hline ?_
    intro hc
    exact noWonLine_iff.mp hno _ (other_ne_zero p)
      (hasLine_of_set (by rw [hv.1]; exact hi) (Ne.symm hpq) hc)
  have hsw : candidateScore board p w = 10 := candidateScore_win hv.1 hp0 (hcw w hw hwin)
  have hle : ∀ j, j < 9 → cell board j = 0 → ¬ hasLine (board.set j p) p →
      candidateScore board p j ≤ 9 :=
    fun j _ _ hj => candidateScore_le_nine hv.1 hp0 (checkWinner_ne_of_no_line hp0 hj)
  have hmwin : hasLine (board.set m p) p := by
    by_contra hc
    have h9 := hle m hm9 hmz hc
    have := (hmax w hw hwz).1
    omega
  have hsm : candidateScore board p m = 10 := candidateScore_win hv.1 hp0 (hcw m hm9 hmwin)
  have hmw : m = w := by
    rcases Nat.lt_trichotomy m w with h | h | h
    · exact absurd hmwin (hfirst m h hmz)
    · exact h
    · have := (hmax w hw hwz).2 h
      omega
  refine ⟨by rw [hm, hmw], hsw, hle⟩

theorem bestMove_takes_first_win_witness :
    (Valid [1, 1, 0, 2, 2, 0, 1, 0, 0] ∧ noWonLine [1, 1, 0, 2, 2, 0, 1, 0, 0] ∧
        hasLine (([1, 1, 0, 2, 2, 0, 1, 0, 0] : Board).set 5 2) 2) ∧
      bestMove [1, 1, 0, 2, 2, 0, 1, 0, 0] 2 = some (5, [1, 1, 0, 2, 2, 0, 1, 0, 0]) :=
  ⟨⟨by decide, by decide, by decide⟩,
    (bestMove_takes_first_win [1, 1, 0, 2, 2, 0, 1, 0, 0] 2 5 (by decide) (by decide)
      (by decide) (by decide) (by decide) (by decide) (by decide)).1⟩

/-- C13. Move response: for every board accepted by `validateBoard` that is a 9-cell
board over {0,1,2} with an empty cell, the `/move` handlers, GET and POST alike, answer
with `movimiento = m` where `0 <= m <= 8` and the cell `m` of the input board is empty,
and with a `tablero` that holds `detectPlayer(board)` in the cell `m` and equals the
input board in every other cell. -/
theorem move_response (raw : RawBoard) (board : Board)
    (hval : validateBoard raw = Except.ok board) (hv : Valid board)
    (hz : (0 : Int) ∈ board) :
    ∃ (m : Nat) (tablero : Board), m < 9 ∧ cell board m = 0 ∧
      getMove raw = some (Response.move (m : Int) tablero) ∧
      postMove raw = some (Response.move (m : Int) tablero) ∧
      tablero.length = 9 ∧
      cell tablero m = detectPlayer board ∧
      ∀ j, j ≠ m → cell tablero j = cell board j := by
  obtain ⟨m, hm9, hmz, hm⟩ := (moveHandler_spec hv.1).2 hz
  have hmlt : m < board.length := by rw [hv.1]; exact hm9
  refine ⟨m, board.set m (detectPlayer board), hm9, hmz, ?_, ?_, ?_, ?_, ?_⟩
  · rw [getMove_ok hval, hm]; rfl
  · rw [postMove_ok hval, hm]; rfl
  · rw [List.length_set]; exact hv.1
  · rw [cell_set _ _ hmlt, if_pos rfl]
  · intro j hj
    rw [cell_set _ _ hmlt, if_neg hj]

theorem move_response_witness :
    (validateBoard (rawOf [1, 2, 1, 2, 1, 2, 2, 1, 0]) =
        Except.ok [1, 2, 1, 2, 1, 2, 2, 1, 0] ∧ Valid [1, 2, 1, 2, 1, 2, 2, 1, 0]) ∧
      ∃ (m : Nat) (tablero : Board), m < 9 ∧ cell [1, 2, 1, 2, 1, 2, 2, 1, 0] m = 0 ∧
        getMove (rawOf [1, 2, 1, 2, 1, 2, 2, 1, 0]) = some (Response.move (m : Int) tablero) :=
  ⟨⟨validateBoard_rawOf rfl, by decide⟩,
    (move_response (rawOf [1, 2, 1, 2, 1, 2, 2, 1, 0]) [1, 2, 1, 2, 1, 2, 2, 1, 0]
      (validateBoard_rawOf rfl) (by decide) (by decide)).imp
      (fun _ h => h.imp (fun _ h1 => ⟨h1.1, h1.2.1, h1.2.2.1⟩))⟩

/-- C14. Board validation, at the board `3,0,0,0,0,0,0,0,0`: `validateBoard` accepts it
and calls `next()`, although the cell 3 is not one of 0, 1, 2, and the handler answers
with a move, so `bestMove` is reached on a board that is not over {0,1,2}. -/
theorem validateBoard_accepts_out_of_range :
    validateBoard (rawOf [3, 0, 0, 0, 0, 0, 0, 0, 0]) = Except.ok [3, 0, 0, 0, 0, 0, 0, 0, 0] ∧
    ¬ Valid [3, 0, 0, 0, 0, 0, 0, 0, 0] ∧
    ∃ (m : Nat) (tablero : Board),
      getMove (rawOf [3, 0, 0, 0, 0, 0, 0, 0, 0]) = some (Response.move (m : Int) tablero) := by
  have hok := @validateBoard_rawOf [3, 0, 0, 0, 0, 0, 0, 0, 0] rfl
  refine ⟨hok, by decide, ?_⟩
  obtain ⟨m, _, _, hm⟩ := (@moveHandler_spec [3, 0, 0, 0, 0, 0, 0, 0, 0] rfl).2 (by decide)
  exact ⟨m, _, by rw [getMove_ok hok, hm]; rfl⟩

/-- C15, as the claim states it, fails: the board `1,1,1,2,2,0,0,0,0` passes
`validateBoard` and the handler answers with a move, so `bestMove` is called, while
`checkWinner` is 1 on it; the full board `1,2,1,1,2,2,2,1,1` passes as well and is
answered with `movimiento = -1`. -/
theorem moveHandler_on_terminal_board :
    (validateBoard (rawOf [1, 1, 1, 2, 2, 0, 0, 0, 0]) =
        Except.ok [1, 1, 1, 2, 2, 0, 0, 0, 0] ∧
      checkWinner [1, 1, 1, 2, 2, 0, 0, 0, 0] = some 1 ∧
      ∃ (m : Nat) (tablero : Board),
        getMove (rawOf [1, 1, 1, 2, 2, 0, 0, 0, 0]) = some (Response.move (m : Int) tablero)) ∧
    (validateBoard (rawOf [1, 2, 1, 1, 2, 2, 2, 1, 1]) =
        Except.ok [1, 2, 1, 1, 2, 2, 2, 1, 1] ∧
      checkWinner [1, 2, 1, 1, 2, 2, 2, 1, 1] = some 0 ∧
      getMove (rawOf [1, 2, 1, 1, 2, 2, 2, 1, 1]) =
        some (Response.move (-1) [1, 2, 1, 1, 2, 2, 2, 1, 1])) := by
  have hok1 := @validateBoard_rawOf [1, 1, 1, 2, 2, 0, 0, 0, 0] rfl
  have hok2 := @validateBoard_rawOf [1, 2, 1, 1, 2, 2, 2, 1, 1] rfl
  refine ⟨⟨hok1, by decide, ?_⟩, hok2, by decide, ?_⟩
  · obtain ⟨m, _, _, hm⟩ := (@moveHandler_spec [1, 1, 1, 2, 2, 0, 0, 0, 0] rfl).2 (by decide)
    exact ⟨m, _, by rw [getMove_ok hok1, hm]; rfl⟩
  · rw [getMove_ok hok2, (@moveHandler_spec [1, 2, 1, 1, 2, 2, 2, 1, 1] rfl).1 (by decide)]
    rfl

/-- C15, amended. The `/move` handlers call `bestMove` on every board that passes
`validateBoard`, without a test of `checkWinner`, and `bestMove` returns: on an accepted
board with no empty cell the answer is `movimiento = -1` with the board as it is; on an
accepted board with an empty cell, won or not, the answer marks an empty cell `m`,
`0 <= m <= 8`, with `detectPlayer(board)`. `checkWinner(board)` is `null` only on the
accepted boards with no won line and an empty cell. -/
theorem moveHandler_calls_bestMove (raw : RawBoard) (board : Board)
    (hval : validateBoard raw = Except.ok board) :
    (∃ m b1, bestMove board (detectPlayer board) = some (m, b1)) ∧
    ((0 : Int) ∉ board →
      getMove raw = some (Response.move (-1) board) ∧
      postMove raw = some (Response.move (-1) board)) ∧
    ((0 : Int) ∈ board → ∃ m : Nat, m < 9 ∧ cell board m = 0 ∧
      getMove raw = some (Response.move (m : Int) (board.set m (detectPlayer board))) ∧
      postMove raw = some (Response.move (m : Int) (board.set m (detectPlayer board)))) ∧
    (checkWinner board = none ↔ noWonLine board ∧ (0 : Int) ∈ board) := by
  have hlen : board.length = 9 := (validateBoard_ok hval).1
  have hspec := @bestMove_spec board (detectPlayer board) hlen (detectPlayer_ne_zero board)
  refine ⟨?_, fun hz => ?_, fun hz => ?_, ?_⟩
  · by_cases hz : (0 : Int) ∈ board
    · obtain ⟨m, _, hm, _⟩ := hspec.2 hz
      exact ⟨_, _, hm⟩
    · exact ⟨_, _, hspec.1 hz⟩
  · rw [getMove_ok hval, postMove_ok hval, (moveHandler_spec hlen).1 hz]
    exact ⟨rfl, rfl⟩
  · obtain ⟨m, hm9, hmz, hm⟩ := (moveHandler_spec hlen).2 hz
    refine ⟨m, hm9, hmz, ?_, ?_⟩
    · rw [getMove_ok hval, hm]; rfl
    · rw [postMove_ok hval, hm]; rfl
  · rw [checkWinner_eq_none, firstLine_eq_none]
    rfl

theorem moveHandler_calls_bestMove_witness :
    validateBoard (rawOf [1, 2, 1, 1, 2, 2, 2, 1, 1]) = Except.ok [1, 2, 1, 1, 2, 2, 2, 1, 1] ∧
      getMove (rawOf [1, 2, 1, 1, 2, 2, 2, 1, 1]) =
        some (Response.move (-1) [1, 2, 1, 1, 2, 2, 2, 1, 1]) :=
  ⟨validateBoard_rawOf rfl,
    ((moveHandler_calls_bestMove (rawOf [1, 2, 1, 1, 2, 2, 2, 1, 1])
      [1, 2, 1, 1, 2, 2, 2, 1, 1] (validateBoard_rawOf rfl)).2.1 (by decide)).1⟩

/-- C11. Opening move: `bestMove([0,0,0,0,0,0,0,0,0], 1)` returns the index 0, one of the
indices 0, 2, 4, 6, 8; no cell has a greater score than the cell 0, which is the first
of the cells of greatest score. -/
theorem bestMove_opening :
    bestMove emptyBoard 1 = some (0, emptyBoard) ∧
    (0 : Int) ∈ ([0, 2, 4, 6, 8] : List Int) ∧
    ∀ j, j < 9 → candidateScore emptyBoard 1 j ≤ candidateScore emptyBoard 1 0 := by
  have h1 : (1 : Int) = 1 ∨ (1 : Int) = 2 := Or.inl rfl
  have hcode := bestMove_eq_code valid_emptyBoard h1
  rw [bitsOf_emptyBoard 1 (by decide), bitsOf_emptyBoard (other 1) (by decide),
    bestMoveCode_emptyBoard] at hcode
  have hbest : bestMove emptyBoard 1 = some (0, emptyBoard) := hcode
  refine ⟨hbest, by decide, ?_⟩
  obtain ⟨m, _, hm, _, hmax⟩ :=
    (@bestMove_spec emptyBoard 1 valid_emptyBoard.1 (by decide)).2 (by decide)
  rw [hbest] at hm
  have hm0 : m = 0 := by
    simp only [Option.some.injEq, Prod.mk.injEq, and_true] at hm
    omega
  subst hm0
  exact fun j hj => (hmax j hj (by
    unfold emptyBoard cell
    interval_cases j <;> rfl)).1

/-- C16. Pruning does not change the value: on a 9-cell board over {0,1,2}, for every
depth, every `isMax` and distinct `player` and `opponent` in {1,2}, `minimax(board,
depth, isMax, player, opponent, -Infinity, +Infinity)` returns the value of the search
without `alpha`, `beta` and `break` (`plainMinimax`), and `bestMove` returns the cell of
the move selector built on that search (`plainBestMove`). -/
theorem pruning_preserves_value (board : Board) (depth : Int) (isMax : Bool)
    (player opponent : Int) (hv : Valid board) (hp : player = 1 ∨ player = 2)
    (hq : opponent = 1 ∨ opponent = 2) (_hne : player ≠ opponent) :
    (∃ v : Int,
      minimax board depth isMax player opponent Score.negInf Score.posInf =
        some (Score.fin v, board) ∧
      plainMinimax board depth isMax player opponent = some (Score.fin v)) ∧
    (∃ m : Int, bestMove board player = some (m, board) ∧ plainBestMove board player = some m) :=
  ⟨minimax_eq_plain board depth isMax player opponent hv.1 (marks_cases hp).1
      (marks_cases hq).1,
    bestLoop_eq_plain player (other player) (marks_cases hp).1 (other_ne_zero player) board
      hv.1 cells (-1) Score.negInf⟩

theorem pruning_preserves_value_witness :
    Valid [1, 2, 1, 2, 1, 2, 2, 0, 0] ∧
      ∃ v : Int,
        minimax [1, 2, 1, 2, 1, 2, 2, 0, 0] 3 true 1 2 Score.negInf Score.posInf =
          some (Score.fin v, [1, 2, 1, 2, 1, 2, 2, 0, 0]) ∧
        plainMinimax [1, 2, 1, 2, 1, 2, 2, 0, 0] 3 true 1 2 = some (Score.fin v) :=
  ⟨by decide,
    (pruning_preserves_value [1, 2, 1, 2, 1, 2, 2, 0, 0] 3 true 1 2 (by decide) (by decide)
      (by decide) (by decide)).1⟩

/-- C18, as the claim states it, fails: at depth 10 on the board `1,1,0,2,2,1,2,1,2`
`minimax` returns `-1`, which is less than `10 - 10`; and on the board
`2,2,2,0,0,0,1,1,0`, where a line of the opponent is completed, the candidate score
`bestMove` gets for the cell 3 is `-10`, which is less than `-9`. -/
theorem minimax_score_out_of_bound :
    (Valid [1, 1, 0, 2, 2, 1, 2, 1, 2] ∧
      minimax [1, 1, 0, 2, 2, 1, 2, 1, 2] 10 true 1 2 Score.negInf Score.posInf =
        some (Score.fin (-1), [1, 1, 0, 2, 2, 1, 2, 1, 2]) ∧
      ¬ ((10 : Int) - 10 ≤ -1)) ∧
    (Valid [2, 2, 2, 0, 0, 0, 1, 1, 0] ∧
      minimax (([2, 2, 2, 0, 0, 0, 1, 1, 0] : Board).set 3 1) 0 false 1 2 Score.negInf
          Score.posInf =
        some (Score.fin (-10), ([2, 2, 2, 0, 0, 0, 1, 1, 0] : Board).set 3 1) ∧
      ¬ ((-9 : Int) ≤ -10)) := by
  decide

/-- C18, amended. Bounded score: on a 9-cell board over {0,1,2}, for distinct `player`
and `opponent` in {1,2}, every `isMax`, `alpha`, `beta` and every depth `d` with
`0 <= d` and `d` plus the number of empty cells at most 10, `minimax` returns an integer
`r` with `d - 10 <= r <= 10 - d`; every candidate score compared in `bestMove` lies
between `-10` and `10`, and between `-9` and `10` when no win line of the opponent is
completed on the board. -/
theorem minimax_score_bounded (board : Board) (d : Int) (isMax : Bool) (player opponent : Int)
    (alpha beta : Score) (hv : Valid board) (hp : player = 1 ∨ player = 2)
    (hq : opponent = 1 ∨ opponent = 2) (hne : player ≠ opponent) :
    (0 ≤ d → d + emptyCount board ≤ 10 →
      ∃ r : Int, minimax board d isMax player opponent alpha beta = some (Score.fin r, board) ∧
        d - 10 ≤ r ∧ r ≤ 10 - d) ∧
    (∀ i, i < 9 → cell board i = 0 →
      ∃ s : Int,
        minimax (board.set i player) 0 false player opponent Score.negInf Score.posInf =
          some (Score.fin s, board.set i player) ∧
        -10 ≤ s ∧ s ≤ 10 ∧ (¬ hasLine board opponent → -9 ≤ s)) := by
  have hp0 := (marks_cases hp).1
  have hq0 := (marks_cases hq).1
  constructor
  · intro hd0 hdk
    obtain ⟨r, hr, ⟨x, hx1, hx2, hx3⟩, _⟩ :=
      minimax_spec board d isMax player opponent alpha beta hv.1 hp0 hq0
    exact ⟨r, hr, by omega, by omega⟩
  · intro i hi hiz
    have hilt : i < board.length := by rw [hv.1]; exact hi
    have hlen1 : (board.set i player).length = 9 := by rw [List.length_set]; exact hv.1
    have hcount := emptyCount_set hilt hiz hp0
    have hk := emptyCount_le_length board
    rw [hv.1] at hk
    obtain ⟨s, hs, ⟨x, hx1, hx2, hx3⟩, hnone⟩ :=
      minimax_spec (board.set i player) 0 false player opponent Score.negInf Score.posInf
        hlen1 hp0 hq0
    have hk1 : (emptyCount (board.set i player) : Int) ≤ 8 := by
      have : emptyCount (board.set i player) ≤ 8 := by omega
      exact_mod_cast this
    refine ⟨s, hs, by omega, by omega, fun hline => ?_⟩
    cases hw : checkWinner (board.set i player) with
    | some r =>
      have hr : r ≠ opponent := by
        intro hc
        refine checkWinner_ne_of_no_line hq0 ?_ (hc ▸ hw)
        exact fun hl => hline (hasLine_of_set hilt (Ne.symm hne) hl)
      rw [minimax_terminal _ _ _ _ _ _ _ hw] at hs
      simp only [Option.some.injEq, Prod.mk.injEq, Score.fin.injEq, and_true] at hs
      split_ifs at hs <;> omega
    | none =>
      obtain ⟨y, hy1, hy2, hy3⟩ := hnone hw
      omega

theorem minimax_score_bounded_witness :
    Valid [1, 1, 0, 2, 2, 1, 2, 1, 0] ∧
      ∃ r : Int, minimax [1, 1, 0, 2, 2, 1, 2, 1, 0] 8 true 1 2 Score.negInf Score.posInf =
          some (Score.fin r, [1, 1, 0, 2, 2, 1, 2, 1, 0]) ∧
        8 - 10 ≤ r ∧ r ≤ 10 - 8 :=
  ⟨by decide,
    (minimax_score_bounded [1, 1, 0, 2, 2, 1, 2, 1, 0] 8 true 1 2 Score.negInf Score.posInf
      (by decide) (by decide) (by decide) (by decide)).1 (by decide) (by decide)⟩

end Tateti
